import Mathlib

/-!
# Kafka cluster reconciliation of the Yandex provider

A shallow embedding of the update path of `resource_yandex_mdb_kafka_cluster.go`:
the topic update mask (`kafkaTopicUpdateMask`), the topic apply loop
(`updateKafkaClusterTopics`), the user update loop (`updateKafkaUsers`) and the
cluster update mask (`kafkaClusterUpdateRequestWithMask`).

Conventions of the embedding.

* A Go `interface{}` holding schema data is a `Value`.
* A Go `map[string]interface{}` is an association list `GoMap`; `m[k]` is the
  first binding of `k`, and a missing key reads as the nil interface.
* The order in which `range` visits a map is not fixed by Go.  A map that is
  an input of a loop is given as the list of its entries in the order of the
  visit; a map built inside a function is visited in the order `ord keys`,
  where `ord` is a parameter.
* A function that can panic returns `Option`, with `none` for the panic.
-/

namespace Yandex

/-! ## Dynamic values and `reflect.DeepEqual` -/

/-- Dynamic content of a Go `interface{}` in schema data: the nil interface,
an `int`, a `string`, a `bool`, a `[]interface{}` (nil or not) and a
`map[string]interface{}` (nil or not). -/
inductive Value where
  | nil : Value
  | int : Int → Value
  | str : String → Value
  | bool : Bool → Value
  | nilSlice : Value
  | list : List Value → Value
  | nilMap : Value
  | map : List (String × Value) → Value

/-- A non-nil `map[string]interface{}`: its entries. -/
abbrev GoMap := List (String × Value)

/-- The index expression `m[k]`: the bound value, or the nil interface. -/
def GoMap.index (m : GoMap) (k : String) : Value :=
  match m.lookup k with
  | some v => v
  | none => Value.nil

/-- The keys of a map. -/
def GoMap.keys (m : GoMap) : List String := m.map Prod.fst

mutual
/-- The function `reflect.DeepEqual` on two interface values. -/
def Value.deepEqual : Value → Value → Bool
  | .nil, .nil => true
  | .int a, .int b => a == b
  | .str a, .str b => a == b
  | .bool a, .bool b => a == b
  | .nilSlice, .nilSlice => true
  | .list xs, .list ys => deepEqualList xs ys
  | .nilMap, .nilMap => true
  | .map m1, .map m2 => m1.length == m2.length && deepEqualEntries m1 m2
  | _, _ => false
/-- Slices are deeply equal when they have the same length and deeply equal
elements. -/
def deepEqualList : List Value → List Value → Bool
  | [], [] => true
  | x :: xs, y :: ys => x.deepEqual y && deepEqualList xs ys
  | _, _ => false
/-- Every entry of the first map is bound in the second one to a deeply equal
value. -/
def deepEqualEntries : List (String × Value) → List (String × Value) → Bool
  | [], _ => true
  | (k, v) :: rest, m2 =>
    (match m2.lookup k with
     | none => false
     | some w => v.deepEqual w) && deepEqualEntries rest m2
end

/-- The comma-ok assertion `x.([]interface{})`; a nil slice has no element. -/
def asList : Value → Option (List Value)
  | .list xs => some xs
  | .nilSlice => some []
  | _ => none

/-- The one-value assertion `x.(map[string]interface{})`, which panics (`none`)
on any other dynamic type, the nil interface included. -/
def asMap : Value → Option GoMap
  | .map m => some m
  | .nilMap => some []
  | _ => none

/-! ## `kafkaTopicUpdateMask` -/

/-- The first loop of `kafkaTopicUpdateMask`, over `attrs`. -/
def topicAttrPaths (oldTopic newTopic : GoMap) (attrs : List String) : List String :=
  attrs.foldl
    (fun paths attr =>
      if !(oldTopic.index attr).deepEqual (newTopic.index attr) then
        paths ++ ["topic_spec." ++ attr]
      else paths)
    []

/-- The block `topic_config` as `kafkaTopicUpdateMask` reads it: the empty map
unless the attribute is a non-empty `[]interface{}`, whose first element is then
asserted to be a map. -/
def topicConfigOf (topic : GoMap) : Option GoMap :=
  match asList (topic.index "topic_config") with
  | some (first :: _) => asMap first
  | _ => some []

/-- The key set `keys` of `kafkaTopicUpdateMask`, in insertion order. -/
def topicConfigKeys (oldTopicConfig newTopicConfig : GoMap) : List String :=
  (oldTopicConfig.keys ++ newTopicConfig.keys).dedup

/-- The last loop of `kafkaTopicUpdateMask`, visiting the keys `ks`. -/
def topicConfigPaths (ks : List String) (oldTopicConfig newTopicConfig : GoMap)
    (version : String) (paths : List String) : List String :=
  ks.foldl
    (fun paths key =>
      if !(oldTopicConfig.index key).deepEqual (newTopicConfig.index key) then
        paths ++ ["topic_spec.topic_config_" ++ version ++ "." ++ key]
      else paths)
    paths

/-- The function `kafkaTopicUpdateMask`.  `ord` is the order in which `range`
visits the key set. -/
def kafkaTopicUpdateMask (ord : List String → List String) (oldTopic newTopic : GoMap)
    (version : String) : Option (List String) :=
  let paths := topicAttrPaths oldTopic newTopic ["partitions", "replication_factor"]
  match topicConfigOf oldTopic with
  | none => none
  | some oldTopicConfig =>
    match topicConfigOf newTopic with
    | none => none
    | some newTopicConfig =>
      some (topicConfigPaths (ord (topicConfigKeys oldTopicConfig newTopicConfig))
        oldTopicConfig newTopicConfig version paths)

/-- The value of sub-key `k` of the `topic_config` block of a topic: a missing
key, a missing block and an empty block all read as the nil interface. -/
def topicConfigValue (topic : GoMap) (k : String) : Value :=
  match topic.index "topic_config" with
  | .list (.map cfg :: _) => GoMap.index cfg k
  | _ => Value.nil

/-- The `topic_config` attribute of a topic has the shape of the schema: when it
is a non-empty list, its first element is a map. -/
def topicConfigTyped (topic : GoMap) : Bool :=
  match topic.index "topic_config" with
  | .list (.map _ :: _) => true
  | .list (.nilMap :: _) => true
  | .list (_ :: _) => false
  | _ => true

/-! ## `getSuffixVersion` -/

/-- The scan of `strings.Replace(s, old, new, -1)` for a non-empty `old`: an
occurrence of `old` that starts at the current position is replaced by `new`
and its characters are dropped (`skip` counts those still to drop). -/
def replaceChars (old new : List Char) : Nat → List Char → List Char
  | _, [] => []
  | skip + 1, _ :: cs => replaceChars old new skip cs
  | 0, c :: cs =>
    if old.isPrefixOf (c :: cs) then new ++ replaceChars old new (old.length - 1) cs
    else c :: replaceChars old new 0 cs

/-- The call `strings.Replace(s, old, new, -1)`, for a non-empty `old`. -/
def stringsReplace (s old new : String) : String :=
  ⟨replaceChars old.data new.data 0 s.data⟩

/-- The function `getSuffixVersion`, of the value of `config.0.version`. -/
def getSuffixVersion (version : String) : String :=
  if "2".data.isPrefixOf version.data then stringsReplace version "." "_" else "3"

/-! ## `updateKafkaClusterTopics` -/

/-- How a run ends: `nil` is returned, an error is returned, or it panics. -/
inductive Outcome where
  | ok : Outcome
  | error : String → Outcome
  | panic : Outcome
  deriving DecidableEq

/-- One record of `diffByEntityKey`; an absent entity is a nil map. -/
structure EntityDiff where
  OldEntity : Option GoMap
  NewEntity : Option GoMap
  NewEntityKey : String

/-- A call on the `KafkaTopicModifier`; `Spec` stands for `*kafka.TopicSpec`. -/
inductive TopicCall (Spec : Type) where
  | create : Spec → TopicCall Spec
  | delete : String → TopicCall Spec
  | update : Spec → List String → TopicCall Spec
  deriving DecidableEq

/-- The remote side of the `KafkaTopicModifier`: the error a call returns, if
any, given the calls made before it. -/
abbrev KafkaTopicModifier (Spec : Type) := List (TopicCall Spec) → TopicCall Spec → Option String

/-- What one pass of the loop of `updateKafkaClusterTopics` asks for. -/
inductive TopicAction (Spec : Type) where
  | skip : TopicAction Spec
  | call : TopicCall Spec → TopicAction Spec
  | abort : Outcome → TopicAction Spec
  deriving DecidableEq

/-- The calls made by a run, each with the key of the record visited when it
was made, and how the run ended. -/
structure TopicsRun (Spec : Type) where
  calls : List (String × TopicCall Spec)
  outcome : Outcome
  deriving DecidableEq

/-- The body of the loop of `updateKafkaClusterTopics` up to the modifier call:
`buildKafkaTopicSpec` is the helper of that name, applied to the key prefix and
the version. -/
def topicAction {Spec : Type} (buildKafkaTopicSpec : String → String → Except String Spec)
    (ord : List String → List String) (version : String) (topicName : String)
    (topicDiff : EntityDiff) : TopicAction Spec :=
  match topicDiff.OldEntity with
  | none =>
    match buildKafkaTopicSpec (topicDiff.NewEntityKey ++ ".") version with
    | .error err => .abort (.error err)
    | .ok topicSpec => .call (.create topicSpec)
  | some oldEntity =>
    match topicDiff.NewEntity with
    | none => .call (.delete topicName)
    | some newEntity =>
      if !(Value.map oldEntity).deepEqual (Value.map newEntity) then
        match buildKafkaTopicSpec (topicDiff.NewEntityKey ++ ".") version with
        | .error err => .abort (.error err)
        | .ok topicSpec =>
          match kafkaTopicUpdateMask ord oldEntity newEntity (getSuffixVersion version) with
          | none => .abort .panic
          | some paths => .call (.update topicSpec paths)
      else .skip

/-- The loop of `updateKafkaClusterTopics` over the records in visit order:
a modifier call that returns an error ends the run with that error. -/
def updateTopicsLoop {Spec : Type} (buildKafkaTopicSpec : String → String → Except String Spec)
    (topicModifier : KafkaTopicModifier Spec) (ord : List String → List String)
    (version : String) :
    List (String × EntityDiff) → List (String × TopicCall Spec) → TopicsRun Spec
  | [], calls => ⟨calls, .ok⟩
  | (topicName, topicDiff) :: rest, calls =>
    match topicAction buildKafkaTopicSpec ord version topicName topicDiff with
    | .skip => updateTopicsLoop buildKafkaTopicSpec topicModifier ord version rest calls
    | .abort o => ⟨calls, o⟩
    | .call c =>
      match topicModifier (calls.map Prod.snd) c with
      | some err => ⟨calls ++ [(topicName, c)], .error err⟩
      | none =>
        updateTopicsLoop buildKafkaTopicSpec topicModifier ord version rest
          (calls ++ [(topicName, c)])

/-- The function `updateKafkaClusterTopics`: `configVersion` is the value of
`config.0.version`, for which `GetOk` reports the empty string as not set;
`diffByTopicName` is the result of `diffByEntityKey` in visit order. -/
def updateKafkaClusterTopics {Spec : Type}
    (buildKafkaTopicSpec : String → String → Except String Spec)
    (topicModifier : KafkaTopicModifier Spec) (ord : List String → List String)
    (configVersion : String) (diffByTopicName : List (String × EntityDiff)) : TopicsRun Spec :=
  if configVersion = "" then ⟨[], .error "you must specify version of Kafka"⟩
  else updateTopicsLoop buildKafkaTopicSpec topicModifier ord configVersion diffByTopicName []

/-- The topic a modifier call acts on: the name inside the spec for a create or
an update (`specName` reads `topicSpec.Name`), the name passed for a delete. -/
def TopicCall.target {Spec : Type} (specName : Spec → String) : TopicCall Spec → String
  | .create topicSpec => specName topicSpec
  | .delete topicName => topicName
  | .update topicSpec _ => specName topicSpec

/-- The call a record leads to, tagged with its key, if it leads to one. -/
def recordCall {Spec : Type} (build : String → String → Except String Spec)
    (ord : List String → List String) (version : String) (r : String × EntityDiff) :
    Option (String × TopicCall Spec) :=
  match topicAction build ord version r.1 r.2 with
  | .call c => some (r.1, c)
  | _ => none

mutual
/-- Keys of the maps inside a value are pairwise distinct, as in any Go map. -/
def Value.wf : Value → Bool
  | .list xs => wfList xs
  | .map m => decide (m.map Prod.fst).Nodup && wfEntries m
  | _ => true
/-- All elements of a slice are well formed. -/
def wfList : List Value → Bool
  | [] => true
  | x :: xs => x.wf && wfList xs
/-- All values of a map are well formed. -/
def wfEntries : List (String × Value) → Bool
  | [] => true
  | (_, v) :: rest => v.wf && wfEntries rest
end

/-- The shape in which the provider SDK hands out the `topic_config` attribute
of a topic entity, by the schema of `resourceYandexMDBKafkaClusterTopicBlock`
(at most one item): a list that is not nil, empty when the block is absent,
holding the nil interface when the block is empty, and holding otherwise one
map that is not empty and binds no key to the nil interface. -/
def topicConfigFromSchema : Value → Bool
  | .list [] => true
  | .list [.nil] => true
  | .list [.map cfg] =>
    !cfg.isEmpty && cfg.all (fun e => match e.2 with
      | .nil => false
      | _ => true)
  | _ => false

/-- The shape of a topic entity read through the schema of
`resourceYandexMDBKafkaClusterTopicBlock`: a map whose keys, distinct as in any
Go map, are `name`, `partitions`, `replication_factor` and `topic_config`, the
last one bound as `topicConfigFromSchema` says. -/
def topicFromSchema (t : GoMap) : Bool :=
  (Value.map t).wf
    && t.keys.all
      (fun k => decide (k ∈ ["name", "partitions", "replication_factor", "topic_config"]))
    && ["name", "partitions", "replication_factor", "topic_config"].all
      (fun k => decide (k ∈ t.keys))
    && topicConfigFromSchema (t.index "topic_config")

/-! ## `updateKafkaUsers` -/

/-- The fields of `kafka.UserSpec`; `Perm` stands for `kafka.Permission`. -/
structure UserSpec (Perm : Type) where
  Name : String
  Password : String
  Permissions : List Perm
  deriving DecidableEq

/-- The request `kafka.UpdateUserRequest`. -/
structure UpdateUserRequest (Perm : Type) where
  ClusterId : String
  UserName : String
  Password : String
  Permissions : List Perm
  UpdateMask : List String
  deriving DecidableEq

/-- The requests sent by a run of `updateKafkaUsers` and how the run ended. -/
structure UsersRun (Perm : Type) where
  requests : List (UpdateUserRequest Perm)
  outcome : Outcome
  deriving DecidableEq

/-- The mask `updatePaths` that `updateKafkaUsers` builds for the new spec
`user` and the old spec `u` of the same name; `render ps` is
`fmt.Sprintf("%v", ps)`. -/
def userUpdatePaths {Perm : Type} (render : List Perm → String) (user u : UserSpec Perm) :
    List String :=
  let updatePaths : List String := []
  let updatePaths :=
    if user.Password != u.Password then updatePaths ++ ["password"] else updatePaths
  let updatePaths :=
    if render user.Permissions != render u.Permissions then updatePaths ++ ["permissions"]
    else updatePaths
  updatePaths

/-- The first loop of `updateKafkaUsers`: the old specs by name, a later spec
replacing an earlier one of the same name. -/
def indexOldUsers {Raw Perm : Type} (expandKafkaUser : Raw → Except String (UserSpec Perm)) :
    List Raw → List (String × UserSpec Perm) → Except String (List (String × UserSpec Perm))
  | [], m => .ok m
  | spec :: rest, m =>
    match expandKafkaUser spec with
    | .error err => .error err
    | .ok user => indexOldUsers expandKafkaUser rest ((user.Name, user) :: m)

/-- The second loop of `updateKafkaUsers`; `updateKafkaUser` gives the error a
request returns, if any, given the requests sent before it. -/
def updateUsersLoop {Raw Perm : Type} (expandKafkaUser : Raw → Except String (UserSpec Perm))
    (render : List Perm → String)
    (updateKafkaUser : List (UpdateUserRequest Perm) → UpdateUserRequest Perm → Option String)
    (clusterId : String) (m : List (String × UserSpec Perm)) :
    List Raw → List (UpdateUserRequest Perm) → UsersRun Perm
  | [], sent => ⟨sent, .ok⟩
  | spec :: rest, sent =>
    match expandKafkaUser spec with
    | .error err => ⟨sent, .error err⟩
    | .ok user =>
      match m.lookup user.Name with
      | some u =>
        let updatePaths := userUpdatePaths render user u
        if updatePaths.length > 0 then
          let req : UpdateUserRequest Perm :=
            ⟨clusterId, user.Name, user.Password, user.Permissions, updatePaths⟩
          match updateKafkaUser sent req with
          | some err => ⟨sent ++ [req], .error err⟩
          | none =>
            updateUsersLoop expandKafkaUser render updateKafkaUser clusterId m rest (sent ++ [req])
        else updateUsersLoop expandKafkaUser render updateKafkaUser clusterId m rest sent
      | none => updateUsersLoop expandKafkaUser render updateKafkaUser clusterId m rest sent

/-- The function `updateKafkaUsers`, on the lists `oldSpecs.List()` and
`newSpecs.List()`. -/
def updateKafkaUsers {Raw Perm : Type} (expandKafkaUser : Raw → Except String (UserSpec Perm))
    (render : List Perm → String)
    (updateKafkaUser : List (UpdateUserRequest Perm) → UpdateUserRequest Perm → Option String)
    (clusterId : String) (oldSpecs newSpecs : List Raw) : UsersRun Perm :=
  match indexOldUsers expandKafkaUser oldSpecs [] with
  | .error err => ⟨[], .error err⟩
  | .ok m => updateUsersLoop expandKafkaUser render updateKafkaUser clusterId m newSpecs []

/-! ## `kafkaClusterUpdateRequestWithMask` -/

/-- The table `mdbKafkaUpdateFieldsMap`: resource field and API path template. -/
def mdbKafkaUpdateFieldsMap : List (String × String) :=
  [("name", "name"),
    ("description", "description"),
    ("labels", "labels"),
    ("network_id", "network_id"),
    ("security_group_ids", "security_group_ids"),
    ("deletion_protection", "deletion_protection"),
    ("maintenance_window", "maintenance_window"),
    ("subnet_ids", "subnet_ids"),
    ("config.0.zones", "config_spec.zone_id"),
    ("config.0.version", "config_spec.version"),
    ("config.0.brokers_count", "config_spec.brokers_count"),
    ("config.0.assign_public_ip", "config_spec.assign_public_ip"),
    ("config.0.schema_registry", "config_spec.schema_registry"),
    ("config.0.access", "config_spec.access"),
    ("config.0.disk_size_autoscaling.0.disk_size_limit",
      "config_spec.disk_size_autoscaling.disk_size_limit"),
    ("config.0.disk_size_autoscaling.0.planned_usage_threshold",
      "config_spec.disk_size_autoscaling.planned_usage_threshold"),
    ("config.0.disk_size_autoscaling.0.emergency_usage_threshold",
      "config_spec.disk_size_autoscaling.emergency_usage_threshold"),
    ("config.0.kafka.0.resources.0.resource_preset_id",
      "config_spec.kafka.resources.resource_preset_id"),
    ("config.0.kafka.0.resources.0.disk_type_id",
      "config_spec.kafka.resources.disk_type_id"),
    ("config.0.kafka.0.resources.0.disk_size", "config_spec.kafka.resources.disk_size"),
    ("config.0.kafka.0.kafka_config.0.compression_type",
      "config_spec.kafka.kafka_config_{version}.compression_type"),
    ("config.0.kafka.0.kafka_config.0.log_flush_interval_messages",
      "config_spec.kafka.kafka_config_{version}.log_flush_interval_messages"),
    ("config.0.kafka.0.kafka_config.0.log_flush_interval_ms",
      "config_spec.kafka.kafka_config_{version}.log_flush_interval_ms"),
    ("config.0.kafka.0.kafka_config.0.log_flush_scheduler_interval_ms",
      "config_spec.kafka.kafka_config_{version}.log_flush_scheduler_interval_ms"),
    ("config.0.kafka.0.kafka_config.0.log_retention_bytes",
      "config_spec.kafka.kafka_config_{version}.log_retention_bytes"),
    ("config.0.kafka.0.kafka_config.0.log_retention_hours",
      "config_spec.kafka.kafka_config_{version}.log_retention_hours"),
    ("config.0.kafka.0.kafka_config.0.log_retention_minutes",
      "config_spec.kafka.kafka_config_{version}.log_retention_minutes"),
    ("config.0.kafka.0.kafka_config.0.log_retention_ms",
      "config_spec.kafka.kafka_config_{version}.log_retention_ms"),
    ("config.0.kafka.0.kafka_config.0.log_segment_bytes",
      "config_spec.kafka.kafka_config_{version}.log_segment_bytes"),
    ("config.0.kafka.0.kafka_config.0.log_preallocate",
      "config_spec.kafka.kafka_config_{version}.log_preallocate"),
    ("config.0.kafka.0.kafka_config.0.socket_send_buffer_bytes",
      "config_spec.kafka.kafka_config_{version}.socket_send_buffer_bytes"),
    ("config.0.kafka.0.kafka_config.0.socket_receive_buffer_bytes",
      "config_spec.kafka.kafka_config_{version}.socket_receive_buffer_bytes"),
    ("config.0.kafka.0.kafka_config.0.auto_create_topics_enable",
      "config_spec.kafka.kafka_config_{version}.auto_create_topics_enable"),
    ("config.0.kafka.0.kafka_config.0.num_partitions",
      "config_spec.kafka.kafka_config_{version}.num_partitions"),
    ("config.0.kafka.0.kafka_config.0.default_replication_factor",
      "config_spec.kafka.kafka_config_{version}.default_replication_factor"),
    ("config.0.kafka.0.kafka_config.0.message_max_bytes",
      "config_spec.kafka.kafka_config_{version}.message_max_bytes"),
    ("config.0.kafka.0.kafka_config.0.replica_fetch_max_bytes",
      "config_spec.kafka.kafka_config_{version}.replica_fetch_max_bytes"),
    ("config.0.kafka.0.kafka_config.0.ssl_cipher_suites",
      "config_spec.kafka.kafka_config_{version}.ssl_cipher_suites"),
    ("config.0.kafka.0.kafka_config.0.offsets_retention_minutes",
      "config_spec.kafka.kafka_config_{version}.offsets_retention_minutes"),
    ("config.0.kafka.0.kafka_config.0.sasl_enabled_mechanisms",
      "config_spec.kafka.kafka_config_{version}.sasl_enabled_mechanisms"),
    ("config.0.zookeeper.0.resources.0.resource_preset_id",
      "config_spec.zookeeper.resources.resource_preset_id"),
    ("config.0.zookeeper.0.resources.0.disk_type_id",
      "config_spec.zookeeper.resources.disk_type_id"),
    ("config.0.zookeeper.0.resources.0.disk_size",
      "config_spec.zookeeper.resources.disk_size")]

/-- The order of Go strings, lexicographic on the bytes, which for UTF-8 is the
lexicographic order on the code points. -/
def charsLe : List Char → List Char → Bool
  | [], _ => true
  | _ :: _, [] => false
  | a :: as, b :: bs =>
    if a.toNat < b.toNat then true
    else if b.toNat < a.toNat then false
    else charsLe as bs

/-- The call `sort.Strings`. -/
def sortStrings (paths : List String) : List String :=
  paths.insertionSort (fun a b => charsLe a.data b.data = true)

/-- The loop of `kafkaClusterUpdateRequestWithMask` over the table entries in
the order `visit`; `hasChange` is `d.HasChange`. -/
def clusterUpdatePaths (hasChange : String → Bool) (configVersion : String)
    (visit : List (String × String)) : List String :=
  visit.foldl
    (fun updatePath entry =>
      if hasChange entry.1 then
        updatePath ++ [stringsReplace entry.2 "{version}" (getSuffixVersion configVersion)]
      else updatePath)
    []

/-- The function `kafkaClusterUpdateRequestWithMask`: `request` is the result
of `kafkaClusterUpdateRequest`, `visit` is the table in the order in which
`range` visits it, and the result is `nil` or the request with its update mask. -/
def kafkaClusterUpdateRequestWithMask {Req : Type} (request : Except String Req)
    (hasChange : String → Bool) (configVersion : String) (visit : List (String × String)) :
    Except String (Option (Req × List String)) :=
  match request with
  | .error err => .error err
  | .ok req =>
    let updatePath := clusterUpdatePaths hasChange configVersion visit
    if updatePath.length == 0 then .ok none
    else .ok (some (req, sortStrings updatePath))

/-- The part of a versioned path template after
`config_spec.kafka.kafka_config_{version}`, if the template starts that way. -/
def versionedPost (template : String) : Option (List Char) :=
  if ("config_spec.kafka.kafka_config_".data ++ "{version}".data).isPrefixOf template.data then
    some (template.data.drop
      ("config_spec.kafka.kafka_config_".data ++ "{version}".data).length)
  else none

/-- A path template of the table either starts with
`config_spec.kafka.kafka_config_{version}` and has no brace after it, or has no
brace at all and does not start with `config_spec.kafka.kafka_config_`. -/
def templateShape (template : String) : Bool :=
  match versionedPost template with
  | some post => !post.contains '{'
  | none =>
    !template.data.contains '{' &&
      !"config_spec.kafka.kafka_config_".data.isPrefixOf template.data

/-! ## `MySQLHostService` -/

/-- A `types.String` of the plugin framework: null, unknown, or a known string. -/
inductive TfString where
  | null : TfString
  | unknown : TfString
  | known : String → TfString
  deriving DecidableEq

/-- A `types.Bool` of the plugin framework: null, unknown, or a known flag. -/
inductive TfBool where
  | null : TfBool
  | unknown : TfBool
  | known : Bool → TfBool
  deriving DecidableEq

/-- The method `Equal` of `types.String`: same state, and same string when known. -/
def TfString.Equal : TfString → TfString → Bool
  | .null, .null => true
  | .unknown, .unknown => true
  | .known a, .known b => a == b
  | _, _ => false

/-- The method `IsUnknown` of `types.String`. -/
def TfString.IsUnknown : TfString → Bool
  | .unknown => true
  | _ => false

/-- The method `ValueString`: the known string, the empty string otherwise. -/
def TfString.ValueString : TfString → String
  | .known s => s
  | _ => ""

/-- The method `Equal` of `types.Bool`: same state, and same flag when known. -/
def TfBool.Equal : TfBool → TfBool → Bool
  | .null, .null => true
  | .unknown, .unknown => true
  | .known a, .known b => a == b
  | _, _ => false

/-- The method `ValueBool`: the known flag, `false` otherwise. -/
def TfBool.ValueBool : TfBool → Bool
  | .known b => b
  | _ => false

/-- The type `Host` of the MySQL cluster resource, with the fields that
`hosts.go` reads and that `ConvertFromProto` fills. -/
structure Host where
  Zone : TfString
  SubnetId : TfString
  AssignPublicIp : TfBool
  ReplicationSource : TfString
  FQDN : TfString
  deriving DecidableEq

/-- The message `mysql.UpdateHostSpec`, with the fields `GetChanges` sets. -/
structure UpdateHostSpec where
  HostName : String
  UpdateMask : List String
  AssignPublicIp : Bool
  ReplicationSource : String
  deriving DecidableEq

/-- One error of a `diag.Diagnostics`: summary and detail. -/
structure DiagError where
  summary : String
  detail : String
  deriving DecidableEq

/-- The method `MySQLHostService.PartialMatch`. -/
def PartialMatch (planHost stateHost : Host) : Bool :=
  planHost.Zone.Equal stateHost.Zone &&
    (planHost.FQDN.IsUnknown || planHost.FQDN.Equal stateHost.FQDN) &&
    (planHost.SubnetId.IsUnknown || planHost.SubnetId.Equal stateHost.SubnetId)

/-- The method `MySQLHostService.GetChanges`: the update spec (`none` for nil)
and the diagnostics. -/
def GetChanges (plan state : Host) : Option UpdateHostSpec × List DiagError :=
  if !PartialMatch plan state then
    (none, [⟨"Wrong changes for host",
      "Attributes shard_name, zone, subnet_id can't be changed. Try to replace this host to new one"⟩])
  else if plan.AssignPublicIp.Equal state.AssignPublicIp &&
      plan.ReplicationSource.Equal state.ReplicationSource then
    (none, [])
  else
    (some
      { HostName := state.FQDN.ValueString
        UpdateMask := ["assign_public_ip", "replica_priority"]
        AssignPublicIp := plan.AssignPublicIp.ValueBool
        ReplicationSource := plan.ReplicationSource.ValueString },
      [])

/-! ## `redirectsDiffSuppress` -/

/-- The struct `redirect`. -/
structure redirect where
  httpToHTTPS : Bool
  deriving DecidableEq

/-- The call `strings.HasSuffix`. -/
def hasSuffix (s suffix : String) : Bool := suffix.data.isSuffixOf s.data

/-- The function `expandRedirect`; a failed type assertion panics (`none`). -/
def expandRedirect (data : Value) : Option redirect :=
  match data with
  | .nil => some ⟨false⟩
  | _ =>
    match asMap data with
    | none => none
    | some redirectMap =>
      match redirectMap.lookup "http_to_https" with
      | some v =>
        match v with
        | .bool b => some ⟨b⟩
        | _ => none
      | none => some ⟨false⟩

/-- The function `redirectsDiffSuppress`; `getChange` is `d.GetChange`, and a
panic is `none`. -/
def redirectsDiffSuppress (getChange : String → Value × Value)
    (key oldValue newValue : String) : Option Bool :=
  if hasSuffix key ("redirects" ++ ".#") then
    let change := getChange (stringsReplace key ".#" "")
    match asList change.1 with
    | none => none
    | some oldRedirects =>
      match asList change.2 with
      | none => none
      | some newRedirects =>
        if oldRedirects.length > 1 then none
        else if newRedirects.length > 1 then none
        else
          let oldRedirectUntyped :=
            if oldRedirects.length == 1 then oldRedirects.getD 0 Value.nil else Value.nil
          let newRedirectUntyped :=
            if newRedirects.length == 1 then newRedirects.getD 0 Value.nil else Value.nil
          match expandRedirect oldRedirectUntyped with
          | none => none
          | some oldRedirect =>
            match expandRedirect newRedirectUntyped with
            | none => none
            | some newRedirect => some (decide (oldRedirect = newRedirect))
  else if !hasSuffix key "http_to_https" then none
  else some (oldValue == newValue)

/-- A redirect element as the schema types it: nil, or a map whose
`http_to_https` entry, when present, is a bool. -/
def redirectTyped : Value → Bool
  | .nil => true
  | .nilMap => true
  | .map m =>
    match m.lookup "http_to_https" with
    | some (.bool _) => true
    | some _ => false
    | none => true
  | _ => false

/-- The `http_to_https` flag of a redirect list: an empty list, a nil element
and a missing flag all read as `false`. -/
def redirectFlag : List Value → Bool
  | [.map m] =>
    match m.lookup "http_to_https" with
    | some (.bool b) => b
    | _ => false
  | _ => false

/-! ## Instance group variables -/

/-- The message `instancegroup.Variable`. -/
structure Variable where
  Key : String
  Value : String
  deriving DecidableEq

/-- The assignment `m[k] = v` on a map of strings: the binding of `k` is
replaced, or added. -/
def mapSet (m : List (String × String)) (k v : String) : List (String × String) :=
  match m with
  | [] => [(k, v)]
  | (k2, v2) :: rest => if k2 = k then (k, v) :: rest else (k2, v2) :: mapSet rest k v

/-- The function `flattenInstanceGroupVariable`; a nil pointer reads as the
empty key and value. -/
def flattenInstanceGroupVariable (v : List (Option Variable)) : List (String × String) :=
  v.foldl
    (fun vars raw =>
      match raw with
      | some x => mapSet vars x.Key x.Value
      | none => mapSet vars "" "")
    []

/-- The loop of `expandInstanceGroupVariables` over the entries in visit
order; the assertion `val.(string)` panics (`none`) on any other value. -/
def expandVariablesLoop : List (String × Value) → List (Option Variable) →
    Option (List (Option Variable))
  | [], vars => some vars
  | (key, val) :: rest, vars =>
    match val with
    | .str s => expandVariablesLoop rest (vars ++ [some ⟨key, s⟩])
    | _ => none

/-- The function `expandInstanceGroupVariables`; it never returns an error,
and `none` is a panic. -/
def expandInstanceGroupVariables (v : Value) : Option (List (Option Variable)) :=
  match v with
  | .nil => some []
  | _ =>
    match asMap v with
    | none => none
    | some m => expandVariablesLoop m []

/-! ## `resourceYandexFunctionVersionUpdate` -/

/-- The call `slices.IndexFunc`: the index of the first element that satisfies
`f`, or `-1`. -/
def indexFunc (xs : List String) (f : String → Bool) : Int :=
  match xs.findIdx? f with
  | some i => (i : Int)
  | none => -1

/-- The method `Difference` of a `schema.Set` of strings, the sets being given
by their `List()`: the elements of the first set that are not in the second. -/
def setDifference (a b : List String) : List String :=
  a.filter (fun x => !b.contains x)

/-- The function `removeTags`: `removeTag` gives the error of the `RemoveTag`
request for a tag, or of the wait for it, if any, given the tags sent before;
the result is the tags sent and the error returned. -/
def removeTags (removeTag : List String → String → Option String) :
    List String → List String → List String × Option String
  | [], sent => (sent, none)
  | tag :: rest, sent =>
    match removeTag sent tag with
    | some err =>
      (sent ++ [tag],
        some ("Error while requesting API to remove tag Yandex Cloud Function Version: " ++ err))
    | none => removeTags removeTag rest (sent ++ [tag])

/-- What a run of `resourceYandexFunctionVersionUpdate` did: the tags it sent
a `RemoveTag` request for, whether it called
`resourceYandexFunctionVersionCreate`, and the error it returned, if any. -/
structure VersionUpdateRun where
  removedTags : List String
  created : Bool
  result : Option String
  deriving DecidableEq

/-- The function `resourceYandexFunctionVersionUpdate`: `hasChange` is
`d.HasChange`, `oldTags` and `newTags` are the two sides of
`d.GetChange("tags")`, and `create` is the result of
`resourceYandexFunctionVersionCreate`. -/
def resourceYandexFunctionVersionUpdate (hasChange : String → Bool)
    (removeTag : List String → String → Option String) (create : Option String)
    (oldTags newTags : List String) : VersionUpdateRun :=
  let versionUpdateAttributes := ["runtime", "entrypoint", "memory", "execution_timeout",
    "service_account_id", "environment", "connectivity", "package", "content", "secret"]
  let newTagsAppended := (setDifference newTags oldTags).length != 0
  match removeTags removeTag (setDifference oldTags newTags) [] with
  | (sent, some err) => ⟨sent, false, some err⟩
  | (sent, none) =>
    if indexFunc versionUpdateAttributes hasChange != -1 || newTagsAppended then
      ⟨sent, true, create⟩
    else ⟨sent, false, none⟩

/-! ## `isZipContent` and `ZipPathToBytes` -/

/-- The function `isZipContent`, on the bytes of the buffer. -/
def isZipContent (buf : List Nat) : Bool :=
  buf.length > 3 &&
    buf.getD 0 0 == 0x50 && buf.getD 1 0 == 0x4B &&
    (buf.getD 2 0 == 0x3 || buf.getD 2 0 == 0x5 || buf.getD 2 0 == 0x7) &&
    (buf.getD 3 0 == 0x4 || buf.getD 3 0 == 0x6 || buf.getD 3 0 == 0x8)

/-- What `info.Mode()` says of a path. -/
inductive FileKind where
  | regular : FileKind
  | dir : FileKind
  | other : FileKind
  deriving DecidableEq

/-- The function `ZipPathToBytes`: `stat` is `os.Stat`, `readFile` is
`ioutil.ReadFile`, and `zipPathToWriter` gives the bytes that the function of
that name writes for a path, or its error. -/
def ZipPathToBytes (stat : String → Except String FileKind)
    (readFile : String → Except String (List Nat))
    (zipPathToWriter : String → Except String (List Nat)) (root : String) :
    Except String (List Nat) :=
  match stat root with
  | .error err => .error err
  | .ok info =>
    let zipped : Option (Except String (List Nat)) :=
      if info = FileKind.regular then
        match readFile root with
        | .error err => some (.error err)
        | .ok bytes => if isZipContent bytes then some (.ok bytes) else none
      else none
    match zipped with
    | some r => r
    | none =>
      let root := if info = FileKind.dir && !hasSuffix root "/" then root ++ "/" else root
      zipPathToWriter root

/-! ## Remote topic and user requests -/

/-- What a request function did: how often it invoked the remote call, and
the error it returned, if any. -/
structure RemoteRun where
  invocations : Nat
  result : Option String
  deriving DecidableEq

/-- The function `createKafkaTopic`: `create i` is the result of invocation
number `i` of `Topic().Create` (wrapped by `WrapOperation`), `wait` is
`op.Wait`, and `q` renders the verb `%q`. -/
def createKafkaTopic {Op : Type} (q : String → String) (clusterId : String)
    (create : Nat → Except String Op) (wait : Op → Option String) : RemoteRun :=
  match create 0 with
  | .error err =>
    ⟨1, some ("error while requesting API to create topic in Kafka Cluster " ++ q clusterId
      ++ ": " ++ err)⟩
  | .ok op =>
    match wait op with
    | some err =>
      ⟨1, some ("error while adding topic to Kafka Cluster " ++ q clusterId ++ ": " ++ err)⟩
    | none => ⟨1, none⟩

/-- The function `updateKafkaTopic`, with `update i` for invocation number `i`
of `Topic().Update`. -/
def updateKafkaTopic {Op : Type} (q : String → String) (clusterId : String)
    (update : Nat → Except String Op) (wait : Op → Option String) : RemoteRun :=
  match update 0 with
  | .error err =>
    ⟨1, some ("error while requesting API to update topic in Kafka Cluster " ++ q clusterId
      ++ ": " ++ err)⟩
  | .ok op =>
    match wait op with
    | some err =>
      ⟨1, some ("error while updating topic in Kafka Cluster " ++ q clusterId ++ ": " ++ err)⟩
    | none => ⟨1, none⟩

/-- The function `deleteKafkaTopic`, with `delete i` for invocation number `i`
of `Topic().Delete`. -/
def deleteKafkaTopic {Op : Type} (q : String → String) (clusterId : String)
    (delete : Nat → Except String Op) (wait : Op → Option String) : RemoteRun :=
  match delete 0 with
  | .error err =>
    ⟨1, some ("error while requesting API to delete topic from Kafka Cluster " ++ q clusterId
      ++ ": " ++ err)⟩
  | .ok op =>
    match wait op with
    | some err =>
      ⟨1, some ("error while deleting topic from Kafka Cluster " ++ q clusterId ++ ": " ++ err)⟩
    | none => ⟨1, none⟩

/-- The error of a context whose deadline has passed. -/
def contextDeadlineExceeded : String := "context deadline exceeded"

/-- Modelled from the spec: the loop of `retryConflictingOperation`, a function
of this repository that is not under `src/`.  The function is invoked; on
success its operation is returned; on an error that is not of the conflict
class the error is returned at once; on a conflict error the call is retried,
until the deadline of the context has passed or the bounded retry count is
reached, the conflict error being returned once the retries are exhausted and a
deadline error once the deadline has passed.  `expired i` says that the
deadline has passed by the time invocation number `i` would be made, that is
after `i` failed attempts and the waits that follow them; the result holds the
number of invocations made. -/
def retryLoop {Op : Type} (isConflict : String → Bool) (expired : Nat → Bool)
    (action : Nat → Except String Op) : Nat → Nat → Nat × Except String Op
  | 0, i =>
    if expired i then (i, .error contextDeadlineExceeded)
    else
      match action i with
      | .ok op => (i + 1, .ok op)
      | .error err => (i + 1, .error err)
  | retriesLeft + 1, i =>
    if expired i then (i, .error contextDeadlineExceeded)
    else
      match action i with
      | .ok op => (i + 1, .ok op)
      | .error err =>
        if isConflict err then retryLoop isConflict expired action retriesLeft (i + 1)
        else (i + 1, .error err)

/-- Modelled from the spec: the wrapper `retryConflictingOperation`, not under
`src/`, with the bounded retry count `maxRetries` of its contract. -/
def retryConflictingOperation {Op : Type} (maxRetries : Nat) (isConflict : String → Bool)
    (expired : Nat → Bool) (action : Nat → Except String Op) : Nat × Except String Op :=
  retryLoop isConflict expired action maxRetries 0

/-- The function `deleteKafkaUser`, with `delete i` for invocation number `i`
of `User().Delete`, made through `retryConflictingOperation`. -/
def deleteKafkaUser {Op : Type} (maxRetries : Nat) (isConflict : String → Bool)
    (expired : Nat → Bool) (q : String → String) (clusterId : String)
    (delete : Nat → Except String Op) (wait : Op → Option String) : RemoteRun :=
  match retryConflictingOperation maxRetries isConflict expired delete with
  | (n, .error err) =>
    ⟨n, some ("error while requesting API to delete user from Kafka Cluster " ++ q clusterId
      ++ ": " ++ err)⟩
  | (n, .ok op) =>
    match wait op with
    | some err =>
      ⟨n, some ("error while deleting user from Kafka Cluster " ++ q clusterId ++ ": " ++ err)⟩
    | none => ⟨n, none⟩

/-! ## Instance group attached disks -/

/-- The oneof `SourceOneof` of a disk spec: unset, an image id or a snapshot
id. -/
inductive DiskSource where
  | unset : DiskSource
  | ImageId : String → DiskSource
  | SnapshotId : String → DiskSource
  deriving DecidableEq

/-- The message `instancegroup.AttachedDiskSpec_DiskSpec`. -/
structure AttachedDiskSpec_DiskSpec where
  Description : String
  TypeId : String
  Size : Int
  SourceOneof : DiskSource
  deriving DecidableEq

/-- The message `instancegroup.AttachedDiskSpec`; `Mode` is the number of the
enum value and a nil `DiskSpec` pointer is `none`. -/
structure AttachedDiskSpec where
  Mode : Int
  DeviceName : String
  DiskSpec : Option AttachedDiskSpec_DiskSpec
  deriving DecidableEq

/-- The getter `GetDeviceName`, safe on a nil receiver. -/
def GetDeviceName : Option AttachedDiskSpec → String
  | some x => x.DeviceName
  | none => ""

/-- The getter `GetMode`, safe on a nil receiver, where it gives
`MODE_UNSPECIFIED`, the value 0. -/
def GetMode : Option AttachedDiskSpec → Int
  | some x => x.Mode
  | none => 0

/-- The getter `GetDiskSpec`, safe on a nil receiver. -/
def GetDiskSpec : Option AttachedDiskSpec → Option AttachedDiskSpec_DiskSpec
  | some x => x.DiskSpec
  | none => none

/-- The getter `GetImageId` of a disk spec. -/
def GetImageId (x : AttachedDiskSpec_DiskSpec) : String :=
  match x.SourceOneof with
  | .ImageId id => id
  | _ => ""

/-- The getter `GetSnapshotId` of a disk spec. -/
def GetSnapshotId (x : AttachedDiskSpec_DiskSpec) : String :=
  match x.SourceOneof with
  | .SnapshotId id => id
  | _ => ""

/-- The function `flattenInstanceGroupAttachedDisk`, with the helper
`toGigabytes` and the `String` method of the mode enum as parameters. The
result is the returned map and error; `none` is the nil dereference of
`diskSpecSpec.Description`. The guard before it tests `diskSpec`, the pointer
to the attached disk. The one-element slice of maps under `initialize_params`
is a list value. -/
def flattenInstanceGroupAttachedDisk (toGigabytes : Int → Int) (modeString : Int → String)
    (diskSpec : Option AttachedDiskSpec) : Option (GoMap × Option String) :=
  let bootDisk : GoMap :=
    [("device_name", .str (GetDeviceName diskSpec)),
      ("mode", .str (modeString (GetMode diskSpec)))]
  let diskSpecSpec := GetDiskSpec diskSpec
  match diskSpec with
  | none => some (bootDisk, some "no disk spec")
  | some _ =>
    match diskSpecSpec with
    | none => none
    | some s =>
      some (bootDisk ++
        [("initialize_params", .list [.map
          [("description", .str s.Description),
            ("size", .int (toGigabytes s.Size)),
            ("type", .str s.TypeId),
            ("image_id", .str (GetImageId s)),
            ("snapshot_id", .str (GetSnapshotId s))]])], none)

/-! ## Instance group scale policy -/

/-- The oneof `ScaleType` of a scale policy; `AutoScale` stands for
`*instancegroup.ScalePolicy_AutoScale`. -/
inductive ScalePolicy_ScaleType (AutoScale : Type) where
  | FixedScale : Int → ScalePolicy_ScaleType AutoScale
  | AutoScale : AutoScale → ScalePolicy_ScaleType AutoScale

/-- The message `instancegroup.ScalePolicy`; an unset field is `none`. -/
structure ScalePolicy (AutoScale : Type) where
  ScaleType : Option (ScalePolicy_ScaleType AutoScale)
  TestAutoScale : Option AutoScale

/-- The first block of `expandInstanceGroupScalePolicy`: the policy after the
test of `fixed_scale`; the assertion `.(int)` on the size panics (`none`) on
any other value. -/
def scalePolicyFixed {AutoScale : Type} (getOk : String → Bool) (get : String → Value) :
    Option (ScalePolicy AutoScale) :=
  if getOk "scale_policy.0.fixed_scale" then
    match get "scale_policy.0.fixed_scale.0.size" with
    | .int v => some ⟨some (.FixedScale v), none⟩
    | _ => none
  else some ⟨none, none⟩

/-- The function `expandInstanceGroupScalePolicy`, with `d.GetOk` (its second
result), `d.Get` and `expandInstanceGroupAutoScale` on the same resource data
as parameters. The result is the returned policy or error; `none` is a
panic. -/
def expandInstanceGroupScalePolicy {AutoScale : Type} (getOk : String → Bool)
    (get : String → Value) (expandInstanceGroupAutoScale : String → Except String AutoScale) :
    Option (Except String (ScalePolicy AutoScale)) :=
  match scalePolicyFixed getOk get with
  | none => none
  | some policy =>
    if getOk "scale_policy.0.auto_scale" then
      match expandInstanceGroupAutoScale "scale_policy.0.auto_scale.0" with
      | .error err => some (.error err)
      | .ok autoScale => some (.ok ⟨some (.AutoScale autoScale), policy.TestAutoScale⟩)
    else if getOk "scale_policy.0.test_auto_scale" then
      match expandInstanceGroupAutoScale "scale_policy.0.test_auto_scale.0" with
      | .error err => some (.error err)
      | .ok testAutoScale => some (.ok ⟨policy.ScaleType, some testAutoScale⟩)
    else if policy.ScaleType.isNone then
      some (.error "Only fixed_scale and auto_scale policy are supported")
    else some (.ok policy)

/-! ## `sortKafkaTopics` -/

/-- The two run-time panics that `sortKafkaTopics` could raise. -/
inductive SortPanic where
  | nilDereference : SortPanic
  | indexOutOfRange : SortPanic
  deriving DecidableEq

/-- The assignment `topics[i], topics[j] = topics[j], topics[i]`, with both
index expressions checked. -/
def swapTopics {Topic : Type} (topics : List Topic) (i j : Nat) :
    Except SortPanic (List Topic) :=
  match topics[i]?, topics[j]? with
  | some a, some b => .ok ((topics.set i b).set j a)
  | _, _ => .error .indexOutOfRange

/-- The inner loop of `sortKafkaTopics` for the spec at index `i`, over the
values `js` that `j` still takes. `Topic` stands for `*kafka.Topic`, the field
`Name` of a nil pointer is `none`, and `specName` is `spec.Name`, read before
`topics[j].Name`. -/
def sortTopicsInner {Topic : Type} (topicName : Topic → Option String)
    (specName : Option String) (i : Nat) : List Nat → List Topic →
    Except SortPanic (List Topic)
  | [], topics => .ok topics
  | j :: js, topics =>
    match specName with
    | none => .error .nilDereference
    | some n =>
      match topics[j]? with
      | none => .error .indexOutOfRange
      | some t =>
        match topicName t with
        | none => .error .nilDereference
        | some m =>
          if n = m then swapTopics topics i j
          else sortTopicsInner topicName specName i js topics

/-- The outer loop of `sortKafkaTopics` from index `i` on; `j` runs from
`i + 1` while `j < len(topics)`. -/
def sortTopicsOuter {Topic Spec : Type} (topicName : Topic → Option String)
    (specName : Spec → Option String) : Nat → List Spec → List Topic →
    Except SortPanic (List Topic)
  | _, [], topics => .ok topics
  | i, spec :: rest, topics =>
    match sortTopicsInner topicName (specName spec) i
        (List.range' (i + 1) (topics.length - (i + 1))) topics with
    | .error e => .error e
    | .ok sorted => sortTopicsOuter topicName specName (i + 1) rest sorted

/-- The function `sortKafkaTopics`: the content of `topics` when it returns,
or the panic it raises. `Spec` stands for `*kafka.TopicSpec`. -/
def sortKafkaTopics {Topic Spec : Type} (topicName : Topic → Option String)
    (specName : Spec → Option String) (topics : List Topic) (specs : List Spec) :
    Except SortPanic (List Topic) :=
  sortTopicsOuter topicName specName 0 specs topics

/-! ## Sample data -/

/-- A topic entity with one setting in its `topic_config` block. -/
def sampleTopic (partitions : Int) (policy : String) : GoMap :=
  [("name", .str "events"), ("partitions", .int partitions), ("replication_factor", .int 1),
    ("topic_config", .list [.map [("cleanup_policy", .str policy)]])]

/-- A topic entity whose `topic_config` block is empty: its only element is nil. -/
def sampleTopicEmptyBlock (partitions : Int) : GoMap :=
  [("name", .str "events"), ("partitions", .int partitions), ("replication_factor", .int 1),
    ("topic_config", .list [.nil])]

/-- A topic entity without `topic_config` attribute. -/
def sampleTopicBare : GoMap :=
  [("name", .str "events"), ("partitions", .int 3), ("replication_factor", .int 1)]

/-- A topic entity of a given name with one setting in its `topic_config`
block. -/
def sampleTopicNamed (name : String) (partitions : Int) (policy : String) : GoMap :=
  [("name", .str name), ("partitions", .int partitions), ("replication_factor", .int 1),
    ("topic_config", .list [.map [("cleanup_policy", .str policy)]])]

/-- A spec builder that always succeeds; the spec is named by the key prefix. -/
def sampleBuild : String → String → Except String String :=
  fun keyPrefix _ => .ok keyPrefix

/-- A spec builder that always fails. -/
def sampleBuildFails : String → String → Except String String :=
  fun _ _ => .error "invalid topic config"

/-- A modifier whose calls all succeed. -/
def sampleModifier : KafkaTopicModifier String := fun _ _ => none

/-- A modifier whose delete calls fail. -/
def sampleModifierNoDelete : KafkaTopicModifier String := fun _ c =>
  match c with
  | .delete _ => some "conflict"
  | _ => none

/-- A rendering of permission lists, each permission being one character. -/
def sampleRender : List Char → String := fun ps => String.mk ps

/-- Raw user specs that are expanded already. -/
def sampleExpand : UserSpec Char → Except String (UserSpec Char) := fun spec => .ok spec

/-- A user update that always succeeds. -/
def sampleUpdateUser :
    List (UpdateUserRequest Char) → UpdateUserRequest Char → Option String :=
  fun _ _ => none

/-- A record for a topic that is new. -/
def sampleCreate (key : String) : EntityDiff := ⟨none, some sampleTopicBare, key⟩

/-- A record for a topic that is gone. -/
def sampleDelete : EntityDiff := ⟨some sampleTopicBare, none, ""⟩

/-- A `d.GetChange` that gives the same pair for every key. -/
def sampleGetChange (old new : Value) : String → Value × Value := fun _ => (old, new)

/-- A redirect element with its flag set. -/
def sampleRedirect (flag : Bool) : Value := .map [("http_to_https", .bool flag)]

/-- The verb `%q` on a string without characters to escape. -/
def sampleQuote (s : String) : String :=
  String.singleton (Char.ofNat 34) ++ s ++ String.singleton (Char.ofNat 34)

/-- A remote call that fails once with a conflict error and succeeds from the
next attempt on. -/
def sampleConflictOnce : Nat → Except String Unit :=
  fun i => if i = 0 then .error "conflicting operation detected" else .ok ()

/-- A remote call that fails `n` times with a conflict error and then succeeds. -/
def sampleConflicts (n : Nat) : Nat → Except String Unit :=
  fun i => if i < n then .error "conflicting operation detected" else .ok ()

/-- The conflict class of errors. -/
def sampleIsConflict (err : String) : Bool := err == "conflicting operation detected"

/-- A wait that succeeds. -/
def sampleWait : Unit → Option String := fun _ => none

/-- A file system with one regular file, `pkg.bin`, of the given bytes. -/
def sampleStat : String → Except String FileKind :=
  fun path => if path = "pkg.bin" then .ok FileKind.regular else .error "no such file"

/-- The bytes of the file `pkg.bin`. -/
def sampleReadFile (bytes : List Nat) : String → Except String (List Nat) :=
  fun path => if path = "pkg.bin" then .ok bytes else .error "no such file"

/-- A zip writer whose archive is the two bytes `PK`. -/
def sampleZip : String → Except String (List Nat) := fun _ => .ok [0x50, 0x4B]

/-- Resource data in which `test_auto_scale` is the only configured block of the
scale policy. -/
def sampleGetOkTestOnly (key : String) : Bool := key == "scale_policy.0.test_auto_scale"

/-- Topics and specs given by their names alone; no pointer is nil. -/
def sampleTopicName (name : String) : Option String := some name

/-! ## Auxiliary facts: strings, loops, lookups -/

theorem foldl_cond_append {α : Type} (p : α → Bool) (g : α → String) (ks : List α)
    (acc : List String) :
    ks.foldl (fun paths k => if p k then paths ++ [g k] else paths) acc
      = acc ++ (ks.filter p).map g := by
  induction ks generalizing acc with
  | nil => simp
  | cons k ks ih =>
    simp only [List.foldl_cons, ih]
    by_cases hp : p k = true <;> simp [hp, List.filter_cons]

theorem string_append_left_cancel (a b c : String) (h : a ++ b = a ++ c) : b = c := by
  have h1 := congrArg String.data h
  simp only [String.data_append] at h1
  exact String.ext (List.append_cancel_left h1)

theorem cfgPath_injective (version k1 k2 : String)
    (h : "topic_spec.topic_config_" ++ version ++ "." ++ k1
        = "topic_spec.topic_config_" ++ version ++ "." ++ k2) : k1 = k2 :=
  string_append_left_cancel _ _ _ h

theorem cfgPath_ne_partitions (version k : String) :
    "topic_spec.topic_config_" ++ version ++ "." ++ k ≠ "topic_spec.partitions" := by
  intro h
  have h1 := congrArg (fun t => t.data.take 12) h
  simp [String.append_assoc, String.data_append] at h1

theorem cfgPath_ne_replication (version k : String) :
    "topic_spec.topic_config_" ++ version ++ "." ++ k ≠ "topic_spec.replication_factor" := by
  intro h
  have h1 := congrArg (fun t => t.data.take 12) h
  simp [String.append_assoc, String.data_append] at h1

theorem index_eq_nil_of_not_mem (m : GoMap) (k : String) (h : k ∉ m.keys) :
    m.index k = Value.nil := by
  have hl : m.lookup k = none := by
    rw [List.lookup_eq_none_iff]
    intro p hp
    simp only [bne_iff_ne, ne_eq]
    intro hk
    apply h
    simp only [GoMap.keys, List.mem_map]
    exact ⟨p, hp, hk.symm⟩
  simp [GoMap.index, hl]

theorem topicConfigOf_of_typed (topic : GoMap) (h : topicConfigTyped topic = true) :
    ∃ cfg, topicConfigOf topic = some cfg ∧ ∀ k, cfg.index k = topicConfigValue topic k := by
  unfold topicConfigTyped at h
  unfold topicConfigOf topicConfigValue
  cases hv : topic.index "topic_config" with
  | list xs =>
    rw [hv] at h
    cases xs with
    | nil => exact ⟨[], by simp [asList], fun k => by simp [GoMap.index]⟩
    | cons x rest =>
      cases x <;> simp [asList, asMap, GoMap.index] at h ⊢
  | _ => exact ⟨[], by simp [asList], fun k => by simp [GoMap.index]⟩

theorem topicAttrPaths_two (oldTopic newTopic : GoMap) :
    topicAttrPaths oldTopic newTopic ["partitions", "replication_factor"]
      = (if (oldTopic.index "partitions").deepEqual (newTopic.index "partitions") then []
          else ["topic_spec.partitions"])
        ++ (if (oldTopic.index "replication_factor").deepEqual
              (newTopic.index "replication_factor") then []
            else ["topic_spec.replication_factor"]) := by
  unfold topicAttrPaths
  simp only [List.foldl_cons, List.foldl_nil]
  cases (oldTopic.index "partitions").deepEqual (newTopic.index "partitions") <;>
  cases (oldTopic.index "replication_factor").deepEqual (newTopic.index "replication_factor") <;>
  simp

theorem topicConfigPaths_eq (ks : List String) (o n : GoMap) (version : String)
    (paths : List String) :
    topicConfigPaths ks o n version paths
      = paths ++ (ks.filter (fun key => !(o.index key).deepEqual (n.index key))).map
          (fun key => "topic_spec.topic_config_" ++ version ++ "." ++ key) := by
  unfold topicConfigPaths
  exact foldl_cond_append (fun key => !(o.index key).deepEqual (n.index key))
    (fun key => "topic_spec.topic_config_" ++ version ++ "." ++ key) ks paths

theorem deepEqual_nil_nil : Value.nil.deepEqual Value.nil = true := by
  simp [Value.deepEqual]

theorem mem_topicConfigKeys_of_differs (o n : GoMap) (k : String)
    (h : (o.index k).deepEqual (n.index k) = false) : k ∈ topicConfigKeys o n := by
  by_contra hk
  simp only [topicConfigKeys, List.mem_dedup, List.mem_append, not_or] at hk
  rw [index_eq_nil_of_not_mem o k hk.1, index_eq_nil_of_not_mem n k hk.2,
    deepEqual_nil_nil] at h
  exact Bool.noConfusion h

theorem kafkaTopicUpdateMask_eq (ord : List String → List String) (oldTopic newTopic : GoMap)
    (version : String) (o n : GoMap) (ho : topicConfigOf oldTopic = some o)
    (hn : topicConfigOf newTopic = some n) :
    kafkaTopicUpdateMask ord oldTopic newTopic version
      = some (((if (oldTopic.index "partitions").deepEqual (newTopic.index "partitions") then []
          else ["topic_spec.partitions"])
        ++ (if (oldTopic.index "replication_factor").deepEqual
              (newTopic.index "replication_factor") then []
            else ["topic_spec.replication_factor"]))
        ++ ((ord (topicConfigKeys o n)).filter
              (fun key => !(o.index key).deepEqual (n.index key))).map
            (fun key => "topic_spec.topic_config_" ++ version ++ "." ++ key)) := by
  simp only [kafkaTopicUpdateMask, ho, hn, topicConfigPaths_eq, topicAttrPaths_two]

/-- Away from the empty block: on topics whose `topic_config` list, when it is
not empty, starts with a map, `kafkaTopicUpdateMask` returns a mask,
whatever the order in which the sub-keys are visited; the mask holds `topic_spec.partitions`
exactly when the `partitions` values are not deeply equal,
`topic_spec.replication_factor` exactly when the `replication_factor` values are
not deeply equal, and `topic_spec.topic_config_<v>.<k>` exactly when sub-key `k`
of the two `topic_config` blocks is not deeply equal (missing keys and
missing or empty blocks read as nil); it holds no other path and no path twice. -/
theorem kafkaTopicUpdateMask_exact (ord : List String → List String)
    (hord : ∀ l, (ord l).Perm l) (oldTopic newTopic : GoMap) (version : String)
    (hOld : topicConfigTyped oldTopic = true) (hNew : topicConfigTyped newTopic = true) :
    ∃ paths, kafkaTopicUpdateMask ord oldTopic newTopic version = some paths ∧
      ("topic_spec.partitions" ∈ paths ↔
        (oldTopic.index "partitions").deepEqual (newTopic.index "partitions") = false) ∧
      ("topic_spec.replication_factor" ∈ paths ↔
        (oldTopic.index "replication_factor").deepEqual
          (newTopic.index "replication_factor") = false) ∧
      (∀ k, "topic_spec.topic_config_" ++ version ++ "." ++ k ∈ paths ↔
        (topicConfigValue oldTopic k).deepEqual (topicConfigValue newTopic k) = false) ∧
      (∀ p ∈ paths, p = "topic_spec.partitions" ∨ p = "topic_spec.replication_factor" ∨
        ∃ k, p = "topic_spec.topic_config_" ++ version ++ "." ++ k) ∧
      paths.Nodup := by
  obtain ⟨o, ho, hov⟩ := topicConfigOf_of_typed oldTopic hOld
  obtain ⟨n, hn, hnv⟩ := topicConfigOf_of_typed newTopic hNew
  refine ⟨_, kafkaTopicUpdateMask_eq ord oldTopic newTopic version o n ho hn, ?_, ?_, ?_, ?_, ?_⟩
  · constructor
    · intro h
      simp only [List.mem_append, List.mem_map, List.mem_filter] at h
      rcases h with (h | h) | ⟨k, _, hk⟩
      · by_contra hc
        simp [hc] at h
      · exfalso
        split at h
        · simp at h
        · simp at h
      · exact absurd hk (cfgPath_ne_partitions version k)
    · intro h
      simp [h]
  · constructor
    · intro h
      simp only [List.mem_append, List.mem_map, List.mem_filter] at h
      rcases h with (h | h) | ⟨k, _, hk⟩
      · exfalso
        split at h
        · simp at h
        · simp at h
      · by_contra hc
        simp [hc] at h
      · exact absurd hk (cfgPath_ne_replication version k)
    · intro h
      simp [h]
  · intro k
    rw [← hov k, ← hnv k]
    constructor
    · intro h
      simp only [List.mem_append, List.mem_map, List.mem_filter] at h
      rcases h with (h | h) | ⟨k2, hk2, hk⟩
      · exfalso
        split at h
        · simp at h
        · simp only [List.mem_singleton] at h
          exact cfgPath_ne_partitions version k h
      · exfalso
        split at h
        · simp at h
        · simp only [List.mem_singleton] at h
          exact cfgPath_ne_replication version k h
      · have hkk : k2 = k := cfgPath_injective version k2 k hk
        subst hkk
        simpa using hk2.2
    · intro h
      simp only [List.mem_append, List.mem_map, List.mem_filter]
      refine Or.inr ⟨k, ⟨?_, by simp [h]⟩, rfl⟩
      exact ((hord _).mem_iff).mpr (mem_topicConfigKeys_of_differs o n k h)
  · intro p hp
    simp only [List.mem_append, List.mem_map, List.mem_filter] at hp
    rcases hp with (h | h) | ⟨k, _, hk⟩
    · split at h
      · simp at h
      · exact Or.inl (by simpa using h)
    · split at h
      · simp at h
      · exact Or.inr (Or.inl (by simpa using h))
    · exact Or.inr (Or.inr ⟨k, hk.symm⟩)
  · rw [List.nodup_append]
    refine ⟨?_, ?_, ?_⟩
    · split <;> split <;> simp
    · apply List.Nodup.map
      · intro a b hab
        exact cfgPath_injective version a b hab
      · apply List.Nodup.filter
        exact ((hord _).nodup_iff).mpr (List.nodup_dedup _)
    · intro p hp1 hp2
      simp only [List.mem_map, List.mem_filter] at hp2
      obtain ⟨k, _, hk⟩ := hp2
      simp only [List.mem_append] at hp1
      rcases hp1 with h | h
      · split at h
        · simp at h
        · simp only [List.mem_singleton] at h
          exact cfgPath_ne_partitions version k (hk.trans h)
      · split at h
        · simp at h
        · simp only [List.mem_singleton] at h
          exact cfgPath_ne_replication version k (hk.trans h)

/-! ## Reflexivity of `reflect.DeepEqual` -/

theorem lookup_of_mem_nodup (m : List (String × Value)) (hn : (m.map Prod.fst).Nodup)
    (p : String × Value) (hp : p ∈ m) : m.lookup p.1 = some p.2 := by
  induction m with
  | nil => simp at hp
  | cons q rest ih =>
    obtain ⟨qk, qv⟩ := q
    simp only [List.map_cons, List.nodup_cons] at hn
    rcases List.mem_cons.mp hp with rfl | hp
    · simp [List.lookup]
    · have hne : p.1 ≠ qk := by
        intro h
        apply hn.1
        rw [← h]
        exact List.mem_map_of_mem Prod.fst hp
      have hb : (p.1 == qk) = false := by simpa using hne
      simp only [List.lookup, hb]
      exact ih hn.2 hp

mutual
theorem deepEqual_refl : ∀ v : Value, v.wf = true → v.deepEqual v = true
  | .nil, _ => by simp [Value.deepEqual]
  | .int _, _ => by simp [Value.deepEqual]
  | .str _, _ => by simp [Value.deepEqual]
  | .bool _, _ => by simp [Value.deepEqual]
  | .nilSlice, _ => by simp [Value.deepEqual]
  | .nilMap, _ => by simp [Value.deepEqual]
  | .list xs, h => by
    simp only [Value.deepEqual]
    exact deepEqualList_refl xs (by simpa [Value.wf] using h)
  | .map m, h => by
    simp only [Value.wf, Bool.and_eq_true, decide_eq_true_eq] at h
    simp only [Value.deepEqual, beq_self_eq_true, Bool.true_and]
    exact deepEqualEntries_sub m m h.2 (fun p hp => lookup_of_mem_nodup m h.1 p hp)
theorem deepEqualList_refl : ∀ xs : List Value, wfList xs = true → deepEqualList xs xs = true
  | [], _ => by simp [deepEqualList]
  | x :: xs, h => by
    simp only [wfList, Bool.and_eq_true] at h
    simp only [deepEqualList, Bool.and_eq_true]
    exact ⟨deepEqual_refl x h.1, deepEqualList_refl xs h.2⟩
theorem deepEqualEntries_sub : ∀ (sub m : List (String × Value)), wfEntries sub = true →
    (∀ p ∈ sub, m.lookup p.1 = some p.2) → deepEqualEntries sub m = true
  | [], _, _, _ => by simp [deepEqualEntries]
  | (k, v) :: rest, m, h, hl => by
    simp only [wfEntries, Bool.and_eq_true] at h
    have hk := hl (k, v) (List.mem_cons_self _ _)
    simp only at hk
    simp only [deepEqualEntries, hk, Bool.and_eq_true]
    exact ⟨deepEqual_refl v h.1,
      deepEqualEntries_sub rest m h.2 (fun p hp => hl p (List.mem_cons_of_mem _ hp))⟩
end

/-! ## The topic loop -/

section TopicLoop

variable {Spec : Type} (build : String → String → Except String Spec)
  (modifier : KafkaTopicModifier Spec) (ord : List String → List String) (version : String)

theorem topicAction_ne_abort_ok (k : String) (d : EntityDiff) :
    topicAction build ord version k d ≠ .abort .ok := by
  unfold topicAction
  intro h
  split at h
  · split at h <;> simp at h
  · split at h
    · simp at h
    · split at h
      · split at h
        · simp at h
        · split at h <;> simp at h
      · simp at h

theorem loop_calls_extend (m : List (String × EntityDiff)) (calls : List (String × TopicCall Spec)) :
    ∃ ext, (updateTopicsLoop build modifier ord version m calls).calls = calls ++ ext ∧
      ext.Sublist (m.filterMap (recordCall build ord version)) ∧
      ((updateTopicsLoop build modifier ord version m calls).outcome = .ok →
        ext = m.filterMap (recordCall build ord version) ∧
        ∀ r ∈ m, ∀ o, topicAction build ord version r.1 r.2 ≠ .abort o) ∧
      (∀ pre x post e, ext = pre ++ x :: post →
        modifier ((calls ++ pre).map Prod.snd) x.2 = some e →
        post = [] ∧ (updateTopicsLoop build modifier ord version m calls).outcome = .error e) := by
  induction m generalizing calls with
  | nil =>
    refine ⟨[], by simp [updateTopicsLoop], by simp, ?_, ?_⟩
    · intro _
      simp
    · intro pre x post e h
      simp at h
  | cons r rest ih =>
    obtain ⟨k, d⟩ := r
    cases ha : topicAction build ord version k d with
    | skip =>
      obtain ⟨ext, h1, h2, h3, h4⟩ := ih calls
      refine ⟨ext, ?_, ?_, ?_, ?_⟩
      · simpa [updateTopicsLoop, ha] using h1
      · simpa [recordCall, ha] using h2
      · intro hok
        have hok2 : (updateTopicsLoop build modifier ord version rest calls).outcome = .ok := by
          simpa [updateTopicsLoop, ha] using hok
        obtain ⟨e1, e2⟩ := h3 hok2
        refine ⟨by simpa [recordCall, ha] using e1, ?_⟩
        intro r hr o
        rcases List.mem_cons.mp hr with rfl | hr
        · simp [ha]
        · exact e2 r hr o
      · intro pre x post e hsplit hm
        have := h4 pre x post e hsplit hm
        simpa [updateTopicsLoop, ha] using this
    | abort o =>
      refine ⟨[], by simp [updateTopicsLoop, ha], by simp, ?_, ?_⟩
      · intro hok
        have hok2 : o = .ok := by simpa [updateTopicsLoop, ha] using hok
        rw [hok2] at ha
        exact absurd ha (topicAction_ne_abort_ok build ord version k d)
      · intro pre x post e h
        simp at h
    | call c =>
      cases hm : modifier (calls.map Prod.snd) c with
      | some err =>
        refine ⟨[(k, c)], by simp [updateTopicsLoop, ha, hm], ?_, ?_, ?_⟩
        · simp [recordCall, ha]
        · intro hok
          simp [updateTopicsLoop, ha, hm] at hok
        · intro pre x post e hsplit hx
          have hpre : pre = [] ∧ x = (k, c) ∧ post = [] := by
            cases pre with
            | nil => simpa [eq_comm] using hsplit
            | cons y ys => simp at hsplit
          obtain ⟨rfl, rfl, rfl⟩ := hpre
          simp only [List.append_nil] at hx
          rw [hm] at hx
          refine ⟨rfl, ?_⟩
          simp only [updateTopicsLoop, ha, hm]
          simpa using hx
      | none =>
        obtain ⟨ext, h1, h2, h3, h4⟩ := ih (calls ++ [(k, c)])
        refine ⟨(k, c) :: ext, ?_, ?_, ?_, ?_⟩
        · simpa [updateTopicsLoop, ha, hm] using h1
        · simpa [recordCall, ha] using h2
        · intro hok
          have hok2 : (updateTopicsLoop build modifier ord version rest
              (calls ++ [(k, c)])).outcome = .ok := by
            simpa [updateTopicsLoop, ha, hm] using hok
          obtain ⟨e1, e2⟩ := h3 hok2
          refine ⟨by simpa [recordCall, ha] using e1, ?_⟩
          intro r hr o
          rcases List.mem_cons.mp hr with rfl | hr
          · simp [ha]
          · exact e2 r hr o
        · intro pre x post e hsplit hx
          cases pre with
          | nil =>
            simp only [List.nil_append, List.cons.injEq] at hsplit
            obtain ⟨rfl, _⟩ := hsplit
            simp only [List.append_nil] at hx
            rw [hm] at hx
            exact Option.noConfusion hx
          | cons y ys =>
            simp only [List.cons_append, List.cons.injEq] at hsplit
            obtain ⟨rfl, hext⟩ := hsplit
            have := h4 ys x post e hext (by simpa using hx)
            simpa [updateTopicsLoop, ha, hm] using this

theorem recordCall_tag (r : String × EntityDiff) (x : String × TopicCall Spec)
    (h : recordCall build ord version r = some x) : x.1 = r.1 := by
  unfold recordCall at h
  split at h
  · simp only [Option.some.injEq] at h
    rw [← h]
  · simp at h

theorem recordCalls_tags_sublist (m : List (String × EntityDiff)) :
    ((m.filterMap (recordCall build ord version)).map Prod.fst).Sublist (m.map Prod.fst) := by
  induction m with
  | nil => simp
  | cons r rest ih =>
    cases hr : recordCall build ord version r with
    | none =>
      simp only [List.filterMap_cons, hr, List.map_cons]
      exact ih.trans (List.sublist_cons_self _ _)
    | some x =>
      simp only [List.filterMap_cons, hr, List.map_cons]
      rw [recordCall_tag build ord version r x hr]
      exact ih.cons₂ _

theorem recordCalls_filter_key (m : List (String × EntityDiff))
    (hn : (m.map Prod.fst).Nodup) (r : String × EntityDiff) (hr : r ∈ m) :
    (m.filterMap (recordCall build ord version)).filter (fun x => decide (x.1 = r.1))
      = (recordCall build ord version r).toList := by
  induction m with
  | nil => simp at hr
  | cons q rest ih =>
    simp only [List.map_cons, List.nodup_cons] at hn
    have hrest : ∀ q2 ∈ rest, q2.1 = q.1 → False := by
      intro q2 hq2 h
      apply hn.1
      rw [← h]
      exact List.mem_map_of_mem Prod.fst hq2
    have hnone : ∀ l : List (String × EntityDiff), (∀ q2 ∈ l, q2.1 = q.1 → False) →
        (l.filterMap (recordCall build ord version)).filter (fun x => decide (x.1 = q.1))
          = [] := by
      intro l hl
      rw [List.filter_eq_nil_iff]
      intro x hx
      simp only [List.mem_filterMap] at hx
      obtain ⟨q2, hq2, hx2⟩ := hx
      have := recordCall_tag build ord version q2 x hx2
      simp only [decide_eq_true_eq]
      intro hxq
      exact hl q2 hq2 (this ▸ hxq)
    rcases List.mem_cons.mp hr with rfl | hr
    · cases hc : recordCall build ord version r with
      | none =>
        simp only [List.filterMap_cons, hc, Option.toList]
        exact hnone rest hrest
      | some x =>
        have hx := recordCall_tag build ord version r x hc
        simp only [List.filterMap_cons, hc, Option.toList, List.filter_cons, hx,
          decide_True, if_true, hnone rest hrest]
    · have hne : r.1 ≠ q.1 := fun h => hrest r hr h
      cases hc : recordCall build ord version q with
      | none =>
        simp only [List.filterMap_cons, hc]
        exact ih hn.2 hr
      | some x =>
        have hx := recordCall_tag build ord version q x hc
        have hd : decide (x.1 = r.1) = false := by
          simp only [decide_eq_false_iff_not, hx]
          exact fun h => hne h.symm
        simp only [List.filterMap_cons, hc, List.filter_cons, hd]
        exact ih hn.2 hr

theorem topics_run_calls (configVersion : String) (m : List (String × EntityDiff)) :
    ∃ ext, (updateKafkaClusterTopics build modifier ord configVersion m).calls = ext ∧
      ext.Sublist (m.filterMap (recordCall build ord configVersion)) ∧
      ((updateKafkaClusterTopics build modifier ord configVersion m).outcome = .ok →
        ext = m.filterMap (recordCall build ord configVersion) ∧
        ∀ r ∈ m, ∀ o, topicAction build ord configVersion r.1 r.2 ≠ .abort o) ∧
      (∀ pre x post e, ext = pre ++ x :: post →
        modifier (pre.map Prod.snd) x.2 = some e →
        post = [] ∧
          (updateKafkaClusterTopics build modifier ord configVersion m).outcome = .error e) := by
  unfold updateKafkaClusterTopics
  by_cases hv : configVersion = ""
  · simp only [hv, if_true]
    refine ⟨[], rfl, by simp, ?_, ?_⟩
    · intro h
      simp at h
    · intro pre x post e h
      simp at h
  · simp only [hv, if_false]
    obtain ⟨ext, h1, h2, h3, h4⟩ := loop_calls_extend build modifier ord configVersion m []
    refine ⟨ext, by simpa using h1, h2, h3, ?_⟩
    intro pre x post e hsplit hx
    exact h4 pre x post e hsplit (by simpa using hx)

theorem recordCall_none_of_equal (r : String × EntityDiff) (o n : GoMap)
    (ho : r.2.OldEntity = some o) (hn : r.2.NewEntity = some n)
    (he : (Value.map o).deepEqual (Value.map n) = true) :
    recordCall build ord version r = none := by
  simp [recordCall, topicAction, ho, hn, he]

end TopicLoop

theorem wf_index (m : GoMap) (h : wfEntries m = true) (k : String) : (m.index k).wf = true := by
  induction m with
  | nil => simp [GoMap.index, Value.wf]
  | cons q rest ih =>
    obtain ⟨qk, qv⟩ := q
    simp only [wfEntries, Bool.and_eq_true] at h
    by_cases hk : k = qk
    · simp [GoMap.index, List.lookup, hk, h.1]
    · have hb : (k == qk) = false := by simpa using hk
      have := ih h.2
      simpa [GoMap.index, List.lookup, hb] using this

theorem topicConfigOf_wf (t : GoMap) (h : wfEntries t = true) (cfg : GoMap)
    (hc : topicConfigOf t = some cfg) : wfEntries cfg = true := by
  have hw := wf_index t h "topic_config"
  unfold topicConfigOf at hc
  cases hv : t.index "topic_config" with
  | list xs =>
    rw [hv] at hc hw
    cases xs with
    | nil =>
      simp only [asList, Option.some.injEq] at hc
      subst hc
      rfl
    | cons x rest =>
      simp only [Value.wf, wfList, Bool.and_eq_true] at hw
      cases x with
      | nilMap =>
        simp only [asList, asMap, Option.some.injEq] at hc
        subst hc
        rfl
      | map mm =>
        simp only [asList, asMap, Option.some.injEq] at hc
        subst hc
        have hw1 := hw.1
        simp only [Value.wf, Bool.and_eq_true] at hw1
        exact hw1.2
      | _ => simp [asList, asMap] at hc
  | _ =>
    rw [hv] at hc
    simp only [asList, Option.some.injEq] at hc
    subst hc
    rfl

theorem kafkaTopicUpdateMask_self (ord : List String → List String) (t : GoMap)
    (version : String) (hwf : (Value.map t).wf = true) (hty : topicConfigTyped t = true) :
    kafkaTopicUpdateMask ord t t version = some [] := by
  simp only [Value.wf, Bool.and_eq_true, decide_eq_true_eq] at hwf
  obtain ⟨cfg, hc, _⟩ := topicConfigOf_of_typed t hty
  have hcw := topicConfigOf_wf t hwf.2 cfg hc
  rw [kafkaTopicUpdateMask_eq ord t t version cfg cfg hc hc]
  have h1 := deepEqual_refl _ (wf_index t hwf.2 "partitions")
  have h2 := deepEqual_refl _ (wf_index t hwf.2 "replication_factor")
  have h3 : ∀ key, (cfg.index key).deepEqual (cfg.index key) = true :=
    fun key => deepEqual_refl _ (wf_index cfg hcw key)
  simp [h1, h2, h3]

/-! ## Claims on `kafkaTopicUpdateMask` -/

theorem kafkaTopicUpdateMask_exact_witness :
    (topicConfigTyped (sampleTopic 3 "delete") = true ∧
      topicConfigTyped (sampleTopic 6 "compact") = true) ∧
    kafkaTopicUpdateMask id (sampleTopic 3 "delete") (sampleTopic 6 "compact") "3"
      = some ["topic_spec.partitions", "topic_spec.topic_config_3.cleanup_policy"] ∧
    ∃ paths, kafkaTopicUpdateMask id (sampleTopic 3 "delete") (sampleTopic 6 "compact") "3"
      = some paths ∧ paths.Nodup :=
  ⟨⟨by decide, by decide⟩, by decide,
    (kafkaTopicUpdateMask_exact id (fun l => List.Perm.refl l) (sampleTopic 3 "delete")
      (sampleTopic 6 "compact") "3" (by decide) (by decide)).imp
      (fun _ h => ⟨h.1, h.2.2.2.2.2⟩)⟩

/-- C1, evaluated on the code: on a topic whose `topic_config` block is empty,
so that the list holds one nil element, `kafkaTopicUpdateMask` panics on the
one-value type assertion of that element and returns no mask, where the claim
reads the empty block as nil sub-key values. -/
theorem kafkaTopicUpdateMask_panics_on_empty_block :
    kafkaTopicUpdateMask id (sampleTopicEmptyBlock 3) (sampleTopic 6 "compact") "3" = none := by
  decide

/-! ## Claims on `updateKafkaClusterTopics` -/

theorem deepEqual_nil_right (v : Value) (h : v ≠ .nil) : v.deepEqual .nil = false := by
  cases v <;> simp [Value.deepEqual] at h ⊢

theorem deepEqual_nil_left (v : Value) (h : v ≠ .nil) : Value.nil.deepEqual v = false := by
  cases v <;> simp [Value.deepEqual] at h ⊢

theorem deepEqualEntries_of_forall : ∀ (sub m : List (String × Value)),
    (∀ p ∈ sub, ∃ w, m.lookup p.1 = some w ∧ p.2.deepEqual w = true) →
    deepEqualEntries sub m = true
  | [], _, _ => by simp [deepEqualEntries]
  | (k, v) :: rest, m, h => by
    obtain ⟨w, hw, he⟩ := h (k, v) (List.mem_cons_self _ _)
    simp only at hw he
    simp only [deepEqualEntries, hw, he, Bool.true_and]
    exact deepEqualEntries_of_forall rest m (fun p hp => h p (List.mem_cons_of_mem _ hp))

theorem index_of_mem (m : GoMap) (hn : (m.map Prod.fst).Nodup) (p : String × Value)
    (hp : p ∈ m) : m.index p.1 = p.2 := by
  simp [GoMap.index, lookup_of_mem_nodup m hn p hp]

theorem lookup_of_mem_keys (m : GoMap) (hn : (m.map Prod.fst).Nodup) (k : String)
    (hk : k ∈ m.keys) : m.lookup k = some (m.index k) := by
  simp only [GoMap.keys, List.mem_map] at hk
  obtain ⟨p, hp, rfl⟩ := hk
  rw [index_of_mem m hn p hp]
  exact lookup_of_mem_nodup m hn p hp

theorem length_eq_of_same_keys (m1 m2 : GoMap) (h1 : (m1.map Prod.fst).Nodup)
    (h2 : (m2.map Prod.fst).Nodup) (h12 : ∀ k ∈ m1.keys, k ∈ m2.keys)
    (h21 : ∀ k ∈ m2.keys, k ∈ m1.keys) : m1.length = m2.length := by
  have a := (List.subperm_of_subset h1 (fun k hk => h12 k hk)).length_le
  have b := (List.subperm_of_subset h2 (fun k hk => h21 k hk)).length_le
  simp only [GoMap.keys, List.length_map] at a b
  omega

theorem map_deepEqual_of_keys (m1 m2 : GoMap) (h1 : (m1.map Prod.fst).Nodup)
    (h2 : (m2.map Prod.fst).Nodup) (h12 : ∀ k ∈ m1.keys, k ∈ m2.keys)
    (h21 : ∀ k ∈ m2.keys, k ∈ m1.keys)
    (he : ∀ k ∈ m1.keys, (m1.index k).deepEqual (m2.index k) = true) :
    (Value.map m1).deepEqual (Value.map m2) = true := by
  simp only [Value.deepEqual, Bool.and_eq_true, beq_iff_eq]
  refine ⟨length_eq_of_same_keys m1 m2 h1 h2 h12 h21, ?_⟩
  apply deepEqualEntries_of_forall
  intro p hp
  have hk : p.1 ∈ m1.keys := List.mem_map_of_mem Prod.fst hp
  refine ⟨m2.index p.1, lookup_of_mem_keys m2 h2 p.1 (h12 _ hk), ?_⟩
  rw [← index_of_mem m1 h1 p hp]
  exact he p.1 hk

theorem topicConfigFromSchema_cases (c : Value) (hs : topicConfigFromSchema c = true) :
    c = .list [] ∨ c = .list [.nil] ∨
      ∃ cfg, c = .list [.map cfg] ∧ cfg ≠ [] ∧ ∀ e ∈ cfg, e.2 ≠ .nil := by
  unfold topicConfigFromSchema at hs
  split at hs
  · exact Or.inl rfl
  · exact Or.inr (Or.inl rfl)
  · rename_i cfg
    refine Or.inr (Or.inr ⟨cfg, rfl, ?_, ?_⟩)
    · intro h
      simp [h] at hs
    · intro e he hnil
      simp only [Bool.and_eq_true, List.all_eq_true] at hs
      have := hs.2 e he
      rw [hnil] at this
      simp at this
  · simp at hs

theorem mask_nil_facts (ord : List String → List String) (hord : ∀ l, (ord l).Perm l)
    (oldTopic newTopic : GoMap) (version : String) (o n : GoMap)
    (ho : topicConfigOf oldTopic = some o) (hn : topicConfigOf newTopic = some n)
    (h : kafkaTopicUpdateMask ord oldTopic newTopic version = some []) :
    (oldTopic.index "partitions").deepEqual (newTopic.index "partitions") = true ∧
    (oldTopic.index "replication_factor").deepEqual (newTopic.index "replication_factor") = true ∧
    ∀ k, k ∈ o.keys ∨ k ∈ n.keys → (o.index k).deepEqual (n.index k) = true := by
  rw [kafkaTopicUpdateMask_eq ord oldTopic newTopic version o n ho hn] at h
  simp only [Option.some.injEq, List.append_eq_nil, List.map_eq_nil_iff,
    List.filter_eq_nil_iff] at h
  obtain ⟨⟨h1, h2⟩, h3⟩ := h
  refine ⟨?_, ?_, ?_⟩
  · by_contra hc
    simp [hc] at h1
  · by_contra hc
    simp [hc] at h2
  · intro k hk
    have hmem : k ∈ ord (topicConfigKeys o n) := by
      rw [(hord _).mem_iff]
      simpa [topicConfigKeys] using hk
    have := h3 k hmem
    simpa using this

theorem mem_keys_right (a b : GoMap) (ha : (a.map Prod.fst).Nodup)
    (hnil : ∀ e ∈ a, e.2 ≠ .nil) (k : String) (hk : k ∈ a.keys)
    (hd : (a.index k).deepEqual (b.index k) = true) : k ∈ b.keys := by
  by_contra hnot
  simp only [GoMap.keys, List.mem_map] at hk
  obtain ⟨p, hp, rfl⟩ := hk
  rw [index_eq_nil_of_not_mem b p.1 hnot, index_of_mem a ha p hp,
    deepEqual_nil_right p.2 (hnil p hp)] at hd
  exact Bool.noConfusion hd

theorem mem_keys_left (a b : GoMap) (hb : (b.map Prod.fst).Nodup)
    (hnil : ∀ e ∈ b, e.2 ≠ .nil) (k : String) (hk : k ∈ b.keys)
    (hd : (a.index k).deepEqual (b.index k) = true) : k ∈ a.keys := by
  by_contra hnot
  simp only [GoMap.keys, List.mem_map] at hk
  obtain ⟨p, hp, rfl⟩ := hk
  rw [index_eq_nil_of_not_mem a p.1 hnot, index_of_mem b hb p hp,
    deepEqual_nil_left p.2 (hnil p hp)] at hd
  exact Bool.noConfusion hd

theorem map_nodup_of_list_wf (cfg : GoMap) (h : (Value.list [Value.map cfg]).wf = true) :
    (cfg.map Prod.fst).Nodup := by
  simp only [Value.wf, wfList, Bool.and_eq_true, decide_eq_true_eq] at h
  exact h.1.1

theorem topic_config_deepEqual (ord : List String → List String)
    (hord : ∀ l, (ord l).Perm l) (oldTopic newTopic : GoMap) (version : String)
    (ho : topicConfigFromSchema (oldTopic.index "topic_config") = true)
    (hn : topicConfigFromSchema (newTopic.index "topic_config") = true)
    (wo : (oldTopic.index "topic_config").wf = true)
    (wn : (newTopic.index "topic_config").wf = true)
    (h : kafkaTopicUpdateMask ord oldTopic newTopic version = some []) :
    (oldTopic.index "topic_config").deepEqual (newTopic.index "topic_config") = true := by
  rcases topicConfigFromSchema_cases _ ho with e1 | e1 | ⟨a, e1, ha, hanil⟩ <;>
    rcases topicConfigFromSchema_cases _ hn with e2 | e2 | ⟨b, e2, hb, hbnil⟩
  · rw [e1, e2]
    decide
  · simp [kafkaTopicUpdateMask, topicConfigOf, e1, e2, asList, asMap] at h
  · have co : topicConfigOf oldTopic = some [] := by simp [topicConfigOf, e1, asList]
    have cn : topicConfigOf newTopic = some b := by simp [topicConfigOf, e2, asList, asMap]
    have facts := (mask_nil_facts ord hord oldTopic newTopic version [] b co cn h).2.2
    rw [e2] at wn
    exfalso
    cases b with
    | nil => exact hb rfl
    | cons p rest =>
      have hk : p.1 ∈ GoMap.keys (p :: rest) := by simp [GoMap.keys]
      have := mem_keys_left [] (p :: rest) (map_nodup_of_list_wf _ wn) hbnil p.1 hk
        (facts p.1 (Or.inr hk))
      simp [GoMap.keys] at this
  · simp [kafkaTopicUpdateMask, topicConfigOf, e1, e2, asList, asMap] at h
  · simp [kafkaTopicUpdateMask, topicConfigOf, e1, e2, asList, asMap] at h
  · simp [kafkaTopicUpdateMask, topicConfigOf, e1, e2, asList, asMap] at h
  · have co : topicConfigOf oldTopic = some a := by simp [topicConfigOf, e1, asList, asMap]
    have cn : topicConfigOf newTopic = some [] := by simp [topicConfigOf, e2, asList]
    have facts := (mask_nil_facts ord hord oldTopic newTopic version a [] co cn h).2.2
    rw [e1] at wo
    exfalso
    cases a with
    | nil => exact ha rfl
    | cons p rest =>
      have hk : p.1 ∈ GoMap.keys (p :: rest) := by simp [GoMap.keys]
      have := mem_keys_right (p :: rest) [] (map_nodup_of_list_wf _ wo) hanil p.1 hk
        (facts p.1 (Or.inl hk))
      simp [GoMap.keys] at this
  · simp [kafkaTopicUpdateMask, topicConfigOf, e1, e2, asList, asMap] at h
  · have co : topicConfigOf oldTopic = some a := by simp [topicConfigOf, e1, asList, asMap]
    have cn : topicConfigOf newTopic = some b := by simp [topicConfigOf, e2, asList, asMap]
    have facts := (mask_nil_facts ord hord oldTopic newTopic version a b co cn h).2.2
    rw [e1] at wo
    rw [e2] at wn
    have na := map_nodup_of_list_wf _ wo
    have nb := map_nodup_of_list_wf _ wn
    have hm : (Value.map a).deepEqual (Value.map b) = true :=
      map_deepEqual_of_keys a b na nb
        (fun k hk => mem_keys_right a b na hanil k hk (facts k (Or.inl hk)))
        (fun k hk => mem_keys_left a b nb hbnil k hk (facts k (Or.inr hk)))
        (fun k hk => facts k (Or.inl hk))
    rw [e1, e2]
    have hl : (Value.list [Value.map a]).deepEqual (Value.list [Value.map b])
        = ((Value.map a).deepEqual (Value.map b) && true) := by
      simp only [Value.deepEqual, deepEqualList]
    rw [hl, hm]
    rfl

theorem topic_deepEqual_of_empty_mask (ord : List String → List String)
    (hord : ∀ l, (ord l).Perm l) (oldTopic newTopic : GoMap) (version name : String)
    (ho : topicFromSchema oldTopic = true) (hn : topicFromSchema newTopic = true)
    (no : oldTopic.index "name" = .str name) (nn : newTopic.index "name" = .str name)
    (h : kafkaTopicUpdateMask ord oldTopic newTopic version = some []) :
    (Value.map oldTopic).deepEqual (Value.map newTopic) = true := by
  simp only [topicFromSchema, Bool.and_eq_true, List.all_eq_true, decide_eq_true_eq] at ho hn
  obtain ⟨⟨⟨wo, ko⟩, fo⟩, so⟩ := ho
  obtain ⟨⟨⟨wn, kn⟩, fn⟩, sn⟩ := hn
  have wo2 := wo
  have wn2 := wn
  simp only [Value.wf, Bool.and_eq_true, decide_eq_true_eq] at wo2 wn2
  have tc := topic_config_deepEqual ord hord oldTopic newTopic version so sn
    (wf_index oldTopic wo2.2 "topic_config") (wf_index newTopic wn2.2 "topic_config") h
  obtain ⟨co, hco⟩ : ∃ c, topicConfigOf oldTopic = some c := by
    cases hc : topicConfigOf oldTopic with
    | none => simp [kafkaTopicUpdateMask, hc] at h
    | some c => exact ⟨c, rfl⟩
  obtain ⟨cn, hcn⟩ : ∃ c, topicConfigOf newTopic = some c := by
    cases hc : topicConfigOf newTopic with
    | none => simp [kafkaTopicUpdateMask, hco, hc] at h
    | some c => exact ⟨c, rfl⟩
  obtain ⟨hp, hr, _⟩ := mask_nil_facts ord hord oldTopic newTopic version co cn hco hcn h
  apply map_deepEqual_of_keys oldTopic newTopic wo2.1 wn2.1
  · intro k hk
    exact fn k (ko k hk)
  · intro k hk
    exact fo k (kn k hk)
  · intro k hk
    have hk4 := ko k hk
    simp only [List.mem_cons, List.mem_singleton, List.not_mem_nil, or_false] at hk4
    rcases hk4 with rfl | rfl | rfl | rfl
    · rw [no, nn]
      simp [Value.deepEqual]
    · exact hp
    · exact hr
    · exact tc

theorem recordCall_update_nonempty {Spec : Type}
    (build : String → String → Except String Spec) (ord : List String → List String)
    (hord : ∀ l, (ord l).Perm l) (version : String) (r : String × EntityDiff)
    (hshape : ∀ o n, r.2.OldEntity = some o → r.2.NewEntity = some n →
      topicFromSchema o = true ∧ topicFromSchema n = true ∧
        o.index "name" = .str r.1 ∧ n.index "name" = .str r.1)
    (x : String × TopicCall Spec) (h : recordCall build ord version r = some x)
    (spec : Spec) (paths : List String) (hx : x.2 = .update spec paths) : paths ≠ [] := by
  intro hnil
  subst hnil
  unfold recordCall at h
  split at h
  · rename_i c hc
    simp only [Option.some.injEq] at h
    subst h
    simp only at hx
    subst hx
    unfold topicAction at hc
    split at hc
    · split at hc <;> simp at hc
    · rename_i o hold
      split at hc
      · simp at hc
      · rename_i n hnew
        obtain ⟨so, sn, no, nn⟩ := hshape o n hold hnew
        split at hc
        · rename_i hne
          split at hc
          · simp at hc
          · split at hc
            · simp at hc
            · rename_i paths hmask
              simp only [TopicAction.call.injEq, TopicCall.update.injEq] at hc
              rw [hc.2] at hmask
              have := topic_deepEqual_of_empty_mask ord hord o n _ r.1 so sn no nn hmask
              simp [this] at hne
        · simp at hc
  · simp at h

theorem eq_of_mem_of_fst_eq {β : Type} (m : List (String × β)) (hn : (m.map Prod.fst).Nodup)
    (a b : String × β) (ha : a ∈ m) (hb : b ∈ m) (h : a.1 = b.1) : a = b := by
  induction m with
  | nil => simp at ha
  | cons q rest ih =>
    simp only [List.map_cons, List.nodup_cons] at hn
    rcases List.mem_cons.mp ha with ea | ha <;> rcases List.mem_cons.mp hb with eb | hb
    · rw [ea, eb]
    · exfalso
      apply hn.1
      rw [← ea, h]
      exact List.mem_map_of_mem Prod.fst hb
    · exfalso
      apply hn.1
      rw [← eb, ← h]
      exact List.mem_map_of_mem Prod.fst ha
    · exact ih hn.2 ha hb

/-- C2: in a run of `updateKafkaClusterTopics` over records whose entities have
the shape of the topic schema and carry the key of their record as name, no
`UpdateKafkaTopic` call carries an empty mask, and a record whose old and new
entity are both present and whose computed mask is empty gets no call at all:
for such entities the mask is empty only when they are deeply equal. -/
theorem updateKafkaClusterTopics_no_empty_update {Spec : Type}
    (build : String → String → Except String Spec) (modifier : KafkaTopicModifier Spec)
    (ord : List String → List String) (hord : ∀ l, (ord l).Perm l) (configVersion : String)
    (m : List (String × EntityDiff)) (hn : (m.map Prod.fst).Nodup)
    (hshape : ∀ r ∈ m, ∀ o n, r.2.OldEntity = some o → r.2.NewEntity = some n →
      topicFromSchema o = true ∧ topicFromSchema n = true ∧
        o.index "name" = .str r.1 ∧ n.index "name" = .str r.1) :
    (∀ x ∈ (updateKafkaClusterTopics build modifier ord configVersion m).calls,
      ∀ spec paths, x.2 = .update spec paths → paths ≠ []) ∧
    (∀ r ∈ m, ∀ o n, r.2.OldEntity = some o → r.2.NewEntity = some n →
      kafkaTopicUpdateMask ord o n (getSuffixVersion configVersion) = some [] →
      ∀ x ∈ (updateKafkaClusterTopics build modifier ord configVersion m).calls,
        x.1 ≠ r.1) := by
  obtain ⟨ext, h1, h2, _, _⟩ := topics_run_calls build modifier ord configVersion m
  rw [h1]
  constructor
  · intro x hx spec paths hxu
    have hx2 := h2.subset hx
    simp only [List.mem_filterMap] at hx2
    obtain ⟨r, hr, hrx⟩ := hx2
    exact recordCall_update_nonempty build ord hord configVersion r (hshape r hr) x hrx
      spec paths hxu
  · intro r hr o n hold hnew hmask x hx hxr
    have hx2 := h2.subset hx
    simp only [List.mem_filterMap] at hx2
    obtain ⟨r2, hr2, hrx⟩ := hx2
    have htag := recordCall_tag build ord configVersion r2 x hrx
    have heq : r2 = r := eq_of_mem_of_fst_eq m hn r2 r hr2 hr (htag.symm.trans hxr)
    subst heq
    obtain ⟨so, sn, no, nn⟩ := hshape r2 hr o n hold hnew
    have hd := topic_deepEqual_of_empty_mask ord hord o n _ r2.1 so sn no nn hmask
    rw [recordCall_none_of_equal build ord configVersion r2 o n hold hnew hd] at hrx
    exact Option.noConfusion hrx

theorem updateKafkaClusterTopics_no_empty_update_witness :
    updateKafkaClusterTopics sampleBuild sampleModifier id "3.5"
        [("events", ⟨some (sampleTopicNamed "events" 3 "delete"),
            some (sampleTopicNamed "events" 3 "delete").reverse, "topic.0"⟩),
          ("logs", ⟨some (sampleTopicNamed "logs" 3 "delete"),
            some (sampleTopicNamed "logs" 6 "delete"), "topic.1"⟩)]
      = ⟨[("logs", .update "topic.1." ["topic_spec.partitions"])], .ok⟩ ∧
    kafkaTopicUpdateMask id (sampleTopicNamed "events" 3 "delete")
        (sampleTopicNamed "events" 3 "delete").reverse (getSuffixVersion "3.5") = some [] ∧
    ∀ x ∈ (updateKafkaClusterTopics sampleBuild sampleModifier id "3.5"
        [("events", ⟨some (sampleTopicNamed "events" 3 "delete"),
            some (sampleTopicNamed "events" 3 "delete").reverse, "topic.0"⟩),
          ("logs", ⟨some (sampleTopicNamed "logs" 3 "delete"),
            some (sampleTopicNamed "logs" 6 "delete"), "topic.1"⟩)]).calls,
      ∀ spec paths, x.2 = TopicCall.update spec paths → paths ≠ [] :=
  ⟨by decide, by decide,
    (updateKafkaClusterTopics_no_empty_update sampleBuild sampleModifier id
      (fun l => List.Perm.refl l) "3.5"
      [("events", ⟨some (sampleTopicNamed "events" 3 "delete"),
          some (sampleTopicNamed "events" 3 "delete").reverse, "topic.0"⟩),
        ("logs", ⟨some (sampleTopicNamed "logs" 3 "delete"),
          some (sampleTopicNamed "logs" 6 "delete"), "topic.1"⟩)]
      (by decide)
      (by
        intro r hr o n ho hn
        simp only [List.mem_cons, List.mem_singleton, List.not_mem_nil, or_false] at hr
        rcases hr with rfl | rfl
        · simp only [Option.some.injEq] at ho hn
          subst ho
          subst hn
          exact ⟨by decide, by decide, rfl, rfl⟩
        · simp only [Option.some.injEq] at ho hn
          subst ho
          subst hn
          exact ⟨by decide, by decide, rfl, rfl⟩)).1⟩

/-- Counterexample to C3: all modifier calls succeed, the old entity of the
record is absent, and yet no `CreateKafkaTopic` call is made, once because
`buildKafkaTopicSpec` fails and once because the version is not set; and a
record whose two entities are absent gets a create call, not a delete call. -/
theorem updateKafkaClusterTopics_create_not_reached :
    (updateKafkaClusterTopics sampleBuildFails sampleModifier id "3.5"
        [("events", sampleCreate "topic.0")]) = ⟨[], .error "invalid topic config"⟩ ∧
    (updateKafkaClusterTopics sampleBuild sampleModifier id ""
        [("events", sampleCreate "topic.0")])
      = ⟨[], .error "you must specify version of Kafka"⟩ ∧
    (updateKafkaClusterTopics sampleBuild sampleModifier id "3.5"
        [("events", ⟨none, none, "topic.0"⟩)])
      = ⟨[("events", .create "topic.0.")], .ok⟩ := by
  refine ⟨by decide, by decide, by decide⟩

/-- C3 as amended: when a run of `updateKafkaClusterTopics` over a map with
distinct keys returns without error, a key whose old entity is absent has
exactly one call, the `CreateKafkaTopic` call with the spec built for it, and a
key whose old entity is present and whose new entity is absent has exactly one
call, the `DeleteKafkaTopic` call carrying that key. -/
theorem updateKafkaClusterTopics_create_delete_once {Spec : Type}
    (build : String → String → Except String Spec) (modifier : KafkaTopicModifier Spec)
    (ord : List String → List String) (configVersion : String)
    (m : List (String × EntityDiff)) (hn : (m.map Prod.fst).Nodup)
    (hok : (updateKafkaClusterTopics build modifier ord configVersion m).outcome = .ok)
    (k : String) (diff : EntityDiff) (hmem : (k, diff) ∈ m) :
    (diff.OldEntity = none →
      ∃ spec, build (diff.NewEntityKey ++ ".") configVersion = .ok spec ∧
        (updateKafkaClusterTopics build modifier ord configVersion m).calls.filter
          (fun x => decide (x.1 = k)) = [(k, .create spec)]) ∧
    (diff.OldEntity ≠ none → diff.NewEntity = none →
      (updateKafkaClusterTopics build modifier ord configVersion m).calls.filter
        (fun x => decide (x.1 = k)) = [(k, .delete k)]) := by
  obtain ⟨ext, h1, _, h3, _⟩ := topics_run_calls build modifier ord configVersion m
  obtain ⟨hext, hab⟩ := h3 hok
  have hf := recordCalls_filter_key build ord configVersion m hn (k, diff) hmem
  rw [h1, hext, hf]
  have hna := hab (k, diff) hmem
  constructor
  · intro hold
    simp only [topicAction, hold] at hna
    cases hb : build (diff.NewEntityKey ++ ".") configVersion with
    | error err =>
      rw [hb] at hna
      exact absurd rfl (hna (.error err))
    | ok spec =>
      exact ⟨spec, rfl, by simp [recordCall, topicAction, hold, hb]⟩
  · intro hold hnew
    cases ho : diff.OldEntity with
    | none => exact absurd ho hold
    | some o => simp [recordCall, topicAction, ho, hnew]

theorem updateKafkaClusterTopics_create_delete_once_witness :
    updateKafkaClusterTopics sampleBuild sampleModifier id "3.5"
        [("a", sampleCreate "topic.0"), ("b", sampleDelete)]
      = ⟨[("a", .create "topic.0."), ("b", .delete "b")], .ok⟩ ∧
    (updateKafkaClusterTopics sampleBuild sampleModifier id "3.5"
        [("a", sampleCreate "topic.0"), ("b", sampleDelete)]).calls.filter
          (fun x => decide (x.1 = "b")) = [("b", .delete "b")] :=
  ⟨by decide,
    (updateKafkaClusterTopics_create_delete_once sampleBuild sampleModifier id "3.5"
      [("a", sampleCreate "topic.0"), ("b", sampleDelete)] (by decide) (by decide)
      "b" sampleDelete (by simp)).2 (by simp [sampleDelete]) rfl⟩

/-- C4, evaluated on the code: diffing a topic whose `topic_config` block is
empty (the list holds one nil element) against itself panics instead of
returning the empty mask; a run over a record that holds this topic as old and
as new entity makes no call, the mask not being computed for deeply equal
entities. -/
theorem kafkaTopicUpdateMask_self_panics :
    kafkaTopicUpdateMask id (sampleTopicEmptyBlock 3) (sampleTopicEmptyBlock 3) "3" = none ∧
    updateKafkaClusterTopics sampleBuild sampleModifier id "3.5"
        [("events", ⟨some (sampleTopicEmptyBlock 3), some (sampleTopicEmptyBlock 3), "topic.0"⟩)]
      = ⟨[], .ok⟩ := by
  constructor <;> decide

/-- Away from the empty block: for a topic attribute map `t` whose
`topic_config` list, when it is not empty, starts with a map (keys of a map
being distinct),
`kafkaTopicUpdateMask(t, t, v)` is the empty mask, and when every record has an
old and a new entity, deeply equal to each other, `updateKafkaClusterTopics`
makes no create, update or delete call. -/
theorem topic_self_diff_is_noop {Spec : Type}
    (build : String → String → Except String Spec) (modifier : KafkaTopicModifier Spec)
    (ord : List String → List String) (configVersion version : String) (t : GoMap)
    (hwf : (Value.map t).wf = true) (hty : topicConfigTyped t = true)
    (m : List (String × EntityDiff))
    (hm : ∀ r ∈ m, ∃ o n, r.2.OldEntity = some o ∧ r.2.NewEntity = some n ∧
      (Value.map o).deepEqual (Value.map n) = true) :
    kafkaTopicUpdateMask ord t t version = some [] ∧
    (updateKafkaClusterTopics build modifier ord configVersion m).calls = [] := by
  refine ⟨kafkaTopicUpdateMask_self ord t version hwf hty, ?_⟩
  obtain ⟨ext, h1, h2, _, _⟩ := topics_run_calls build modifier ord configVersion m
  have hnil : m.filterMap (recordCall build ord configVersion) = [] := by
    rw [List.filterMap_eq_nil_iff]
    intro r hr
    obtain ⟨o, n, ho, hn, he⟩ := hm r hr
    exact recordCall_none_of_equal build ord configVersion r o n ho hn he
  rw [hnil] at h2
  rw [h1]
  exact List.eq_nil_of_sublist_nil h2

theorem topic_self_diff_is_noop_witness :
    kafkaTopicUpdateMask id (sampleTopic 3 "delete") (sampleTopic 3 "delete") "3" = some [] ∧
    (updateKafkaClusterTopics sampleBuild sampleModifier id "3.5"
      [("events", ⟨some (sampleTopic 3 "delete"), some (sampleTopic 3 "delete"), "topic.0"⟩)]).calls
      = [] :=
  topic_self_diff_is_noop sampleBuild sampleModifier id "3.5" "3" (sampleTopic 3 "delete")
    (by decide) (by decide)
    [("events", ⟨some (sampleTopic 3 "delete"), some (sampleTopic 3 "delete"), "topic.0"⟩)]
    (by
      intro r hr
      simp only [List.mem_singleton] at hr
      subst hr
      exact ⟨_, _, rfl, rfl, by decide⟩)

/-- C5: when a create, update or delete call made by `updateKafkaClusterTopics`
returns an error, that call is the last call of the run, no remaining record
gets a call and no call is made to undo an earlier one, and the run returns
that error. -/
theorem updateKafkaClusterTopics_fail_fast {Spec : Type}
    (build : String → String → Except String Spec) (modifier : KafkaTopicModifier Spec)
    (ord : List String → List String) (configVersion : String)
    (m : List (String × EntityDiff))
    (pre post : List (String × TopicCall Spec)) (x : String × TopicCall Spec) (e : String)
    (hsplit : (updateKafkaClusterTopics build modifier ord configVersion m).calls
      = pre ++ x :: post)
    (hfail : modifier (pre.map Prod.snd) x.2 = some e) :
    post = [] ∧
      (updateKafkaClusterTopics build modifier ord configVersion m).outcome = .error e := by
  obtain ⟨ext, h1, _, _, h4⟩ := topics_run_calls build modifier ord configVersion m
  exact h4 pre x post e (h1 ▸ hsplit) hfail

theorem updateKafkaClusterTopics_fail_fast_witness :
    updateKafkaClusterTopics sampleBuild sampleModifierNoDelete id "3.5"
        [("a", sampleCreate "topic.0"), ("b", sampleDelete), ("c", sampleCreate "topic.1")]
      = ⟨[("a", .create "topic.0."), ("b", .delete "b")], .error "conflict"⟩ ∧
    (([] : List (String × TopicCall String)) = [] ∧
      (updateKafkaClusterTopics sampleBuild sampleModifierNoDelete id "3.5"
        [("a", sampleCreate "topic.0"), ("b", sampleDelete),
          ("c", sampleCreate "topic.1")]).outcome = .error "conflict") :=
  ⟨by decide,
    updateKafkaClusterTopics_fail_fast sampleBuild sampleModifierNoDelete id "3.5"
      [("a", sampleCreate "topic.0"), ("b", sampleDelete), ("c", sampleCreate "topic.1")]
      [("a", .create "topic.0.")] [] ("b", .delete "b") "conflict" (by decide) (by decide)⟩

/-- Counterexample to C6: the same two records visited in the two possible
orders give two different call sequences, and the first one is not in
lexicographic order of topic name. -/
theorem updateKafkaClusterTopics_order_follows_visit :
    (updateKafkaClusterTopics sampleBuild sampleModifier id "3.5"
        [("b", sampleCreate "topic.0"), ("a", sampleCreate "topic.1")]).calls
      = [("b", .create "topic.0."), ("a", .create "topic.1.")] ∧
    (updateKafkaClusterTopics sampleBuild sampleModifier id "3.5"
        [("a", sampleCreate "topic.1"), ("b", sampleCreate "topic.0")]).calls
      = [("a", .create "topic.1."), ("b", .create "topic.0.")] := by
  constructor <;> decide

/-- C6 as amended: `updateKafkaClusterTopics` makes its calls in the order in
which the diff record map is visited: the keys of the records the calls were
made for form a subsequence of the keys in visit order. -/
theorem updateKafkaClusterTopics_calls_in_visit_order {Spec : Type}
    (build : String → String → Except String Spec) (modifier : KafkaTopicModifier Spec)
    (ord : List String → List String) (configVersion : String)
    (m : List (String × EntityDiff)) :
    ((updateKafkaClusterTopics build modifier ord configVersion m).calls.map Prod.fst).Sublist
      (m.map Prod.fst) := by
  obtain ⟨ext, h1, h2, _, _⟩ := topics_run_calls build modifier ord configVersion m
  rw [h1]
  exact (h2.map Prod.fst).trans (recordCalls_tags_sublist build ord configVersion m)

theorem recordCall_target_built {Spec : Type} (build : String → String → Except String Spec)
    (ord : List String → List String) (version : String) (specName : Spec → String)
    (r : String × EntityDiff)
    (hname : (r.2.OldEntity = none ∨ r.2.NewEntity ≠ none) →
      ∀ spec, build (r.2.NewEntityKey ++ ".") version = .ok spec → specName spec = r.1)
    (x : String × TopicCall Spec) (h : recordCall build ord version r = some x) :
    x.2.target specName = r.1 := by
  unfold recordCall at h
  split at h
  · rename_i c hc
    simp only [Option.some.injEq] at h
    subst h
    simp only
    unfold topicAction at hc
    split at hc
    · rename_i hold
      split at hc
      · simp at hc
      · rename_i spec hb
        simp only [TopicAction.call.injEq] at hc
        subst hc
        exact hname (Or.inl hold) spec hb
    · split at hc
      · simp only [TopicAction.call.injEq] at hc
        subst hc
        rfl
      · rename_i newEntity hnew
        split at hc
        · split at hc
          · simp at hc
          · rename_i spec hb
            split at hc
            · simp at hc
            · simp only [TopicAction.call.injEq] at hc
              subst hc
              exact hname (Or.inr (by rw [hnew]; simp)) spec hb
        · simp at hc
  · simp at h

/-- C7: in one run of `updateKafkaClusterTopics` over a diff record map (its
keys are distinct) no topic name is the target of two calls, the target of a
create or an update call being the name inside the topic spec and the target of
a delete call the name passed; the spec built for a record, for which one is
built only when its old entity is absent or its new entity present, carries the
name of the key of the record. -/
theorem updateKafkaClusterTopics_one_call_per_topic {Spec : Type}
    (build : String → String → Except String Spec) (modifier : KafkaTopicModifier Spec)
    (ord : List String → List String) (configVersion : String)
    (m : List (String × EntityDiff)) (hn : (m.map Prod.fst).Nodup)
    (specName : Spec → String)
    (hname : ∀ r ∈ m, (r.2.OldEntity = none ∨ r.2.NewEntity ≠ none) → ∀ spec,
      build (r.2.NewEntityKey ++ ".") configVersion = .ok spec → specName spec = r.1) :
    ((updateKafkaClusterTopics build modifier ord configVersion m).calls.map
      (fun x => x.2.target specName)).Nodup := by
  obtain ⟨ext, h1, h2, _, _⟩ := topics_run_calls build modifier ord configVersion m
  rw [h1]
  have htags : (ext.map Prod.fst).Nodup :=
    ((h2.map Prod.fst).trans (recordCalls_tags_sublist build ord configVersion m)).nodup hn
  have htag : ext.map (fun x => x.2.target specName) = ext.map Prod.fst := by
    apply List.map_congr_left
    intro x hx
    have hx2 := h2.subset hx
    simp only [List.mem_filterMap] at hx2
    obtain ⟨r, hr, hrx⟩ := hx2
    rw [recordCall_target_built build ord configVersion specName r (hname r hr) x hrx,
      recordCall_tag build ord configVersion r x hrx]
  rw [htag]
  exact htags

theorem updateKafkaClusterTopics_one_call_per_topic_witness :
    updateKafkaClusterTopics sampleBuild sampleModifier id "3.5"
        [("topic.0.", sampleCreate "topic.0"),
          ("topic.1.", ⟨some (sampleTopic 3 "delete"), some (sampleTopic 6 "delete"), "topic.1"⟩),
          ("c", sampleDelete), ("d", sampleDelete)]
      = ⟨[("topic.0.", .create "topic.0."),
          ("topic.1.", .update "topic.1." ["topic_spec.partitions"]),
          ("c", .delete "c"), ("d", .delete "d")], .ok⟩ ∧
    ((updateKafkaClusterTopics sampleBuild sampleModifier id "3.5"
        [("topic.0.", sampleCreate "topic.0"),
          ("topic.1.", ⟨some (sampleTopic 3 "delete"), some (sampleTopic 6 "delete"), "topic.1"⟩),
          ("c", sampleDelete), ("d", sampleDelete)]).calls.map
        (fun x => x.2.target id)).Nodup :=
  ⟨by decide,
    updateKafkaClusterTopics_one_call_per_topic sampleBuild sampleModifier id "3.5"
      [("topic.0.", sampleCreate "topic.0"),
        ("topic.1.", ⟨some (sampleTopic 3 "delete"), some (sampleTopic 6 "delete"), "topic.1"⟩),
        ("c", sampleDelete), ("d", sampleDelete)]
      (by decide) id
      (by
        intro r hr hbuilt spec
        simp only [List.mem_cons, List.mem_singleton, List.not_mem_nil, or_false] at hr
        rcases hr with rfl | rfl | rfl | rfl
        · intro h
          simp only [sampleBuild, sampleCreate, Except.ok.injEq] at h
          rw [← h]
          rfl
        · intro h
          simp only [sampleBuild, Except.ok.injEq] at h
          rw [← h]
          rfl
        · simp [sampleDelete] at hbuilt
        · simp [sampleDelete] at hbuilt)⟩

/-! ## Claims on `updateKafkaUsers` -/

theorem userUpdatePaths_eq {Perm : Type} [DecidableEq Perm] (render : List Perm → String)
    (hinj : Function.Injective render) (user u : UserSpec Perm) :
    userUpdatePaths render user u
      = (if user.Password = u.Password then [] else ["password"])
        ++ (if user.Permissions = u.Permissions then [] else ["permissions"]) := by
  unfold userUpdatePaths
  by_cases hp : user.Password = u.Password <;>
    by_cases hq : user.Permissions = u.Permissions <;>
    simp [hp, hq, hinj.eq_iff]

theorem indexOldUsers_entries {Raw Perm : Type}
    (expand : Raw → Except String (UserSpec Perm)) (olds : List Raw)
    (m0 m : List (String × UserSpec Perm)) (h : indexOldUsers expand olds m0 = .ok m)
    (e : String × UserSpec Perm) (he : e ∈ m) :
    e ∈ m0 ∨ (e.1 = e.2.Name ∧ ∃ s ∈ olds, expand s = .ok e.2) := by
  induction olds generalizing m0 with
  | nil =>
    simp only [indexOldUsers, Except.ok.injEq] at h
    exact Or.inl (h ▸ he)
  | cons s rest ih =>
    simp only [indexOldUsers] at h
    cases hs : expand s with
    | error err =>
      rw [hs] at h
      simp at h
    | ok user =>
      rw [hs] at h
      rcases ih _ h with hm | ⟨h1, s2, hs2, h2⟩
      · rcases List.mem_cons.mp hm with rfl | hm
        · exact Or.inr ⟨rfl, s, List.mem_cons_self _ _, hs⟩
        · exact Or.inl hm
      · exact Or.inr ⟨h1, s2, List.mem_cons_of_mem _ hs2, h2⟩

theorem updateUsersLoop_requests {Raw Perm : Type}
    (expand : Raw → Except String (UserSpec Perm)) (render : List Perm → String)
    (upd : List (UpdateUserRequest Perm) → UpdateUserRequest Perm → Option String)
    (clusterId : String) (m : List (String × UserSpec Perm)) (news : List Raw)
    (sent : List (UpdateUserRequest Perm)) (req : UpdateUserRequest Perm)
    (hreq : req ∈ (updateUsersLoop expand render upd clusterId m news sent).requests) :
    req ∈ sent ∨ ∃ spec ∈ news, ∃ user u, expand spec = .ok user ∧
      m.lookup user.Name = some u ∧
      req = ⟨clusterId, user.Name, user.Password, user.Permissions,
        userUpdatePaths render user u⟩ ∧
      userUpdatePaths render user u ≠ [] := by
  induction news generalizing sent with
  | nil => exact Or.inl (by simpa [updateUsersLoop] using hreq)
  | cons spec rest ih =>
    have lift : (req ∈ sent ∨ ∃ spec2 ∈ rest, ∃ user u, expand spec2 = .ok user ∧
        m.lookup user.Name = some u ∧
        req = ⟨clusterId, user.Name, user.Password, user.Permissions,
          userUpdatePaths render user u⟩ ∧
        userUpdatePaths render user u ≠ []) →
        (req ∈ sent ∨ ∃ spec2 ∈ spec :: rest, ∃ user u, expand spec2 = .ok user ∧
        m.lookup user.Name = some u ∧
        req = ⟨clusterId, user.Name, user.Password, user.Permissions,
          userUpdatePaths render user u⟩ ∧
        userUpdatePaths render user u ≠ []) := by
      rintro (h | ⟨spec2, hs2, h⟩)
      · exact Or.inl h
      · exact Or.inr ⟨spec2, List.mem_cons_of_mem _ hs2, h⟩
    simp only [updateUsersLoop] at hreq
    cases hs : expand spec with
    | error err =>
      simp only [hs] at hreq
      exact Or.inl hreq
    | ok user =>
      simp only [hs] at hreq
      cases hl : m.lookup user.Name with
      | none =>
        simp only [hl] at hreq
        exact lift (ih sent hreq)
      | some u =>
        simp only [hl] at hreq
        by_cases hlen : (userUpdatePaths render user u).length > 0
        · have hne : userUpdatePaths render user u ≠ [] := by
            intro h0
            rw [h0] at hlen
            simp at hlen
          rw [if_pos hlen] at hreq
          cases hu : upd sent ⟨clusterId, user.Name, user.Password, user.Permissions,
              userUpdatePaths render user u⟩ with
          | some err =>
            simp only [hu] at hreq
            simp only [List.mem_append, List.mem_singleton] at hreq
            rcases hreq with h | h
            · exact Or.inl h
            · subst h
              exact Or.inr ⟨spec, List.mem_cons_self _ _, user, u, hs, hl, rfl, hne⟩
          | none =>
            simp only [hu] at hreq
            rcases ih _ hreq with h | h
            · simp only [List.mem_append, List.mem_singleton] at h
              rcases h with h | h
              · exact Or.inl h
              · subst h
                exact Or.inr ⟨spec, List.mem_cons_self _ _, user, u, hs, hl, rfl, hne⟩
            · exact lift (Or.inr h)
        · rw [if_neg hlen] at hreq
          exact lift (ih sent hreq)

theorem indexOldUsers_ok {Raw Perm : Type} (expand : Raw → Except String (UserSpec Perm)) :
    ∀ (oldSpecs : List Raw) (olds : List (UserSpec Perm)) (m0 : List (String × UserSpec Perm)),
    oldSpecs.map expand = olds.map Except.ok →
    indexOldUsers expand oldSpecs m0 = .ok (olds.reverse.map (fun u => (u.Name, u)) ++ m0)
  | [], [], m0, _ => by simp [indexOldUsers]
  | [], _ :: _, _, h => by simp at h
  | _ :: _, [], _, h => by simp at h
  | s :: rest, u :: us, m0, h => by
    simp only [List.map_cons, List.cons.injEq] at h
    simp only [indexOldUsers, h.1]
    rw [indexOldUsers_ok expand rest us _ h.2]
    simp

theorem lookup_users {Perm : Type} (name : String) : ∀ (l : List (UserSpec Perm)),
    (l.map (fun u => (u.Name, u))).lookup name = l.find? (fun u => decide (u.Name = name))
  | [] => rfl
  | u :: us => by
    by_cases h : u.Name = name
    · have hb : (name == u.Name) = true := by simpa using h.symm
      simp [List.lookup, hb, List.find?, h]
    · have hb : (name == u.Name) = false := by simpa using fun e => h e.symm
      simp only [List.map_cons, List.lookup, hb, List.find?, h, decide_False]
      exact lookup_users name us

theorem updateUsersLoop_ok {Raw Perm : Type} (expand : Raw → Except String (UserSpec Perm))
    (render : List Perm → String)
    (upd : List (UpdateUserRequest Perm) → UpdateUserRequest Perm → Option String)
    (clusterId : String) (m : List (String × UserSpec Perm))
    (hupd : ∀ sent req, upd sent req = none) :
    ∀ (newSpecs : List Raw) (news : List (UserSpec Perm)) (sent : List (UpdateUserRequest Perm)),
    newSpecs.map expand = news.map Except.ok →
    updateUsersLoop expand render upd clusterId m newSpecs sent
      = ⟨sent ++ news.filterMap (fun user =>
          match m.lookup user.Name with
          | none => none
          | some u =>
            if userUpdatePaths render user u = [] then none
            else some ⟨clusterId, user.Name, user.Password, user.Permissions,
              userUpdatePaths render user u⟩), .ok⟩
  | [], [], sent, _ => by simp [updateUsersLoop]
  | [], _ :: _, _, h => by simp at h
  | _ :: _, [], _, h => by simp at h
  | s :: rest, user :: us, sent, h => by
    simp only [List.map_cons, List.cons.injEq] at h
    simp only [updateUsersLoop, h.1]
    cases hl : m.lookup user.Name with
    | none =>
      simp only [List.filterMap_cons, hl]
      exact updateUsersLoop_ok expand render upd clusterId m hupd rest us sent h.2
    | some u =>
      simp only [List.filterMap_cons, hl]
      by_cases hp : userUpdatePaths render user u = []
      · simp only [hp, List.length_nil, gt_iff_lt, lt_self_iff_false, if_false, if_true]
        exact updateUsersLoop_ok expand render upd clusterId m hupd rest us sent h.2
      · have hlen : (userUpdatePaths render user u).length > 0 :=
          List.length_pos.mpr hp
        simp only [hlen, if_true, hupd, hp, if_false]
        rw [updateUsersLoop_ok expand render upd clusterId m hupd rest us _ h.2]
        simp

/-- C8: the mask `updateKafkaUsers` builds for a new user spec and the old spec
of the same name is `password` if the passwords differ, followed by
`permissions` if the permission lists differ (their renderings by `%v` differ,
the rendering being injective), and nothing else. Every request a run sends
carries the name, password, permissions and mask of a new user that has an old
spec of the same name from which its password or its permissions differ. When
all specs expand and all requests succeed, the run returns without error and
has sent, in the order of the new specs, exactly one request for each new user
whose password or permissions differ from the old spec of the same name (the
last one in the old list), with that mask, and none for any other user. -/
theorem updateKafkaUsers_mask {Raw Perm : Type} [DecidableEq Perm]
    (expand : Raw → Except String (UserSpec Perm)) (render : List Perm → String)
    (hinj : Function.Injective render)
    (upd : List (UpdateUserRequest Perm) → UpdateUserRequest Perm → Option String)
    (clusterId : String) (oldSpecs newSpecs : List Raw) :
    (∀ user u : UserSpec Perm,
      userUpdatePaths render user u
        = (if user.Password = u.Password then [] else ["password"])
          ++ (if user.Permissions = u.Permissions then [] else ["permissions"])) ∧
    (∀ req ∈ (updateKafkaUsers expand render upd clusterId oldSpecs newSpecs).requests,
      ∃ newSpec ∈ newSpecs, ∃ oldSpec ∈ oldSpecs, ∃ user u,
        expand newSpec = .ok user ∧ expand oldSpec = .ok u ∧ u.Name = user.Name ∧
        req = ⟨clusterId, user.Name, user.Password, user.Permissions,
          userUpdatePaths render user u⟩ ∧
        (user.Password ≠ u.Password ∨ user.Permissions ≠ u.Permissions)) ∧
    (∀ olds news : List (UserSpec Perm),
      oldSpecs.map expand = olds.map Except.ok → newSpecs.map expand = news.map Except.ok →
      (∀ sent req, upd sent req = none) →
      updateKafkaUsers expand render upd clusterId oldSpecs newSpecs
        = ⟨news.filterMap (fun user =>
            match olds.reverse.find? (fun u => decide (u.Name = user.Name)) with
            | none => none
            | some u =>
              if user.Password = u.Password ∧ user.Permissions = u.Permissions then none
              else some ⟨clusterId, user.Name, user.Password, user.Permissions,
                (if user.Password = u.Password then [] else ["password"])
                  ++ (if user.Permissions = u.Permissions then [] else ["permissions"])⟩),
          .ok⟩) := by
  refine ⟨fun user u => userUpdatePaths_eq render hinj user u, ?_, ?_⟩
  · intro req hreq
    unfold updateKafkaUsers at hreq
    cases hm : indexOldUsers expand oldSpecs [] with
    | error err =>
      rw [hm] at hreq
      simp at hreq
    | ok m =>
      rw [hm] at hreq
      rcases updateUsersLoop_requests expand render upd clusterId m newSpecs [] req hreq with
        h | ⟨spec, hspec, user, u, h1, h2, h3, h4⟩
      · simp at h
      · have hmem : (user.Name, u) ∈ m := by
          obtain ⟨l1, l2, hl, _⟩ := List.lookup_eq_some_iff.mp h2
          rw [hl]
          simp
        rcases indexOldUsers_entries expand oldSpecs [] m hm (user.Name, u) hmem with
          h | ⟨hname, s, hs, hsu⟩
        · simp at h
        · refine ⟨spec, hspec, s, hs, user, u, h1, hsu, hname.symm, h3, ?_⟩
          by_contra hc
          simp only [not_or, not_not] at hc
          apply h4
          rw [userUpdatePaths_eq render hinj user u]
          simp [hc.1, hc.2]
  · intro olds news hold hnew hupd
    unfold updateKafkaUsers
    rw [indexOldUsers_ok expand oldSpecs olds [] hold]
    simp only [List.append_nil]
    rw [updateUsersLoop_ok expand render upd clusterId _ hupd newSpecs news [] hnew]
    simp only [List.nil_append, lookup_users]
    congr 1
    apply List.filterMap_congr
    intro user _
    cases olds.reverse.find? (fun u => decide (u.Name = user.Name)) with
    | none => rfl
    | some u =>
      simp only [userUpdatePaths_eq render hinj user u]
      by_cases hp : user.Password = u.Password <;>
        by_cases hq : user.Permissions = u.Permissions <;> simp [hp, hq]

theorem sampleRender_injective : Function.Injective sampleRender := by
  intro a b h
  exact congrArg String.data h

theorem updateKafkaUsers_mask_witness :
    Function.Injective sampleRender ∧
    updateKafkaUsers sampleExpand sampleRender sampleUpdateUser "c1"
        [⟨"u1", "b", ['r']⟩, ⟨"u2", "p", ['r']⟩, ⟨"u3", "q", ['r']⟩]
        [⟨"u1", "a", ['r']⟩, ⟨"u2", "p", ['r']⟩, ⟨"u3", "q", ['w']⟩, ⟨"u4", "s", []⟩]
      = ⟨[⟨"c1", "u1", "a", ['r'], ["password"]⟩, ⟨"c1", "u3", "q", ['w'], ["permissions"]⟩],
          .ok⟩ :=
  ⟨sampleRender_injective,
    ((updateKafkaUsers_mask sampleExpand sampleRender sampleRender_injective sampleUpdateUser
      "c1" [⟨"u1", "b", ['r']⟩, ⟨"u2", "p", ['r']⟩, ⟨"u3", "q", ['r']⟩]
      [⟨"u1", "a", ['r']⟩, ⟨"u2", "p", ['r']⟩, ⟨"u3", "q", ['w']⟩, ⟨"u4", "s", []⟩]).2.2
      [⟨"u1", "b", ['r']⟩, ⟨"u2", "p", ['r']⟩, ⟨"u3", "q", ['r']⟩]
      [⟨"u1", "a", ['r']⟩, ⟨"u2", "p", ['r']⟩, ⟨"u3", "q", ['w']⟩, ⟨"u4", "s", []⟩]
      rfl rfl (fun _ _ => rfl)).trans (by decide)⟩

/-! ## Facts on `strings.Replace` and the path templates -/

theorem replaceChars_not_mem (o : Char) (os new l : List Char) (h : o ∉ l) :
    replaceChars (o :: os) new 0 l = l := by
  induction l with
  | nil => simp [replaceChars]
  | cons c cs ih =>
    simp only [List.mem_cons, not_or] at h
    have hb : (o == c) = false := by simpa using h.1
    simp [replaceChars, List.isPrefixOf, hb, ih h.2]

theorem replaceChars_skip (old new xs post : List Char) :
    replaceChars old new xs.length (xs ++ post) = replaceChars old new 0 post := by
  induction xs with
  | nil => simp
  | cons x xs ih => simpa [replaceChars] using ih

theorem isPrefixOf_append_self (xs post : List Char) : xs.isPrefixOf (xs ++ post) = true := by
  induction xs with
  | nil => simp [List.isPrefixOf]
  | cons x xs ih => simp [List.isPrefixOf, ih]

theorem replaceChars_occurrence (o : Char) (os new pre post : List Char) (h : o ∉ pre) :
    replaceChars (o :: os) new 0 (pre ++ (o :: os) ++ post)
      = pre ++ new ++ replaceChars (o :: os) new 0 post := by
  induction pre with
  | nil =>
    have hp := isPrefixOf_append_self (o :: os) post
    simp only [List.nil_append, List.cons_append] at hp ⊢
    simp only [replaceChars, hp, if_true, List.length_cons, Nat.add_sub_cancel]
    rw [replaceChars_skip]
  | cons c cs ih =>
    simp only [List.mem_cons, not_or] at h
    have hb : (o == c) = false := by simpa using h.1
    have := ih h.2
    simp only [List.cons_append, List.append_assoc] at this ⊢
    simp [replaceChars, List.isPrefixOf, hb, this]

theorem not_mem_of_contains_false (c : Char) (l : List Char) (h : l.contains c = false) :
    c ∉ l := by
  intro hc
  have : l.contains c = true := by simpa using hc
  rw [h] at this
  exact Bool.noConfusion this

theorem table_shapes : ∀ e ∈ mdbKafkaUpdateFieldsMap, templateShape e.2 = true := by
  decide

theorem table_templates_nodup : (mdbKafkaUpdateFieldsMap.map Prod.snd).Nodup := by
  decide

theorem path_plain (t suffix : String) (h : t.data.contains '{' = false) :
    stringsReplace t "{version}" suffix = t := by
  have hm : '{' ∉ t.data := not_mem_of_contains_false _ _ h
  have h1 := replaceChars_not_mem '{' "version\x7d".data suffix.data t.data hm
  unfold stringsReplace
  exact String.ext h1

theorem path_versioned (t suffix : String) (post : List Char)
    (h : versionedPost t = some post) (hp : post.contains '{' = false) :
    t.data = "config_spec.kafka.kafka_config_".data ++ "{version}".data ++ post ∧
    (stringsReplace t "{version}" suffix).data
      = "config_spec.kafka.kafka_config_".data ++ suffix.data ++ post := by
  unfold versionedPost at h
  split at h
  · rename_i hpre
    simp only [Option.some.injEq] at h
    have ht : t.data = "config_spec.kafka.kafka_config_".data ++ "{version}".data ++ post := by
      rw [List.isPrefixOf_iff_prefix, List.prefix_iff_eq_append] at hpre
      rw [← h]
      exact hpre.symm
    refine ⟨ht, ?_⟩
    have hm : '{' ∉ post := not_mem_of_contains_false _ _ hp
    have hP : '{' ∉ "config_spec.kafka.kafka_config_".data := by decide
    have h1 := replaceChars_occurrence '{' "version\x7d".data suffix.data
      "config_spec.kafka.kafka_config_".data post hP
    rw [replaceChars_not_mem _ _ _ _ hm] at h1
    unfold stringsReplace
    rw [ht]
    exact h1
  · simp at h

theorem path_injective_on_table (suffix : String) (e1 e2 : String × String)
    (h1 : e1 ∈ mdbKafkaUpdateFieldsMap) (h2 : e2 ∈ mdbKafkaUpdateFieldsMap)
    (h : stringsReplace e1.2 "{version}" suffix = stringsReplace e2.2 "{version}" suffix) :
    e1 = e2 := by
  have s1 := table_shapes e1 h1
  have s2 := table_shapes e2 h2
  have key : e1.2 = e2.2 := by
    unfold templateShape at s1 s2
    cases v1 : versionedPost e1.2 with
    | some p1 =>
      rw [v1] at s1
      have c1 := path_versioned e1.2 suffix p1 v1 (by simpa using s1)
      cases v2 : versionedPost e2.2 with
      | some p2 =>
        rw [v2] at s2
        have c2 := path_versioned e2.2 suffix p2 v2 (by simpa using s2)
        have hd := congrArg String.data h
        rw [c1.2, c2.2] at hd
        have hp : p1 = p2 := List.append_cancel_left hd
        apply String.ext
        rw [c1.1, c2.1, hp]
      | none =>
        rw [v2] at s2
        simp only [Bool.and_eq_true, Bool.not_eq_true'] at s2
        have c2 := path_plain e2.2 suffix s2.1
        have hd := congrArg String.data h
        rw [c1.2, c2] at hd
        have hpre : "config_spec.kafka.kafka_config_".data.isPrefixOf e2.2.data = true := by
          rw [← hd, List.append_assoc]
          exact isPrefixOf_append_self _ _
        rw [hpre] at s2
        exact Bool.noConfusion s2.2
    | none =>
      rw [v1] at s1
      simp only [Bool.and_eq_true, Bool.not_eq_true'] at s1
      have c1 := path_plain e1.2 suffix s1.1
      cases v2 : versionedPost e2.2 with
      | some p2 =>
        rw [v2] at s2
        have c2 := path_versioned e2.2 suffix p2 v2 (by simpa using s2)
        have hd := congrArg String.data h
        rw [c1, c2.2] at hd
        have hpre : "config_spec.kafka.kafka_config_".data.isPrefixOf e1.2.data = true := by
          rw [hd, List.append_assoc]
          exact isPrefixOf_append_self _ _
        rw [hpre] at s1
        exact Bool.noConfusion s1.2
      | none =>
        rw [v2] at s2
        simp only [Bool.and_eq_true, Bool.not_eq_true'] at s2
        have c2 := path_plain e2.2 suffix s2.1
        rw [c1, c2] at h
        exact h
  exact List.inj_on_of_nodup_map table_templates_nodup h1 h2 key

theorem clusterUpdatePaths_eq (hasChange : String → Bool) (configVersion : String)
    (visit : List (String × String)) :
    clusterUpdatePaths hasChange configVersion visit
      = (visit.filter (fun e => hasChange e.1)).map
          (fun e => stringsReplace e.2 "{version}" (getSuffixVersion configVersion)) := by
  unfold clusterUpdatePaths
  rw [foldl_cond_append (fun e : String × String => hasChange e.1)
    (fun e => stringsReplace e.2 "{version}" (getSuffixVersion configVersion)) visit []]
  simp

theorem replaceChars_dot (l : List Char) :
    replaceChars ['.'] ['_'] 0 l = l.map (fun c => if c = '.' then '_' else c) := by
  induction l with
  | nil => simp [replaceChars]
  | cons c cs ih =>
    by_cases hc : c = '.'
    · have hp : ['.'].isPrefixOf (c :: cs) = true := by
        subst hc
        cases cs <;> rfl
      rw [replaceChars, if_pos hp, List.map_cons, if_pos hc]
      show '_' :: replaceChars ['.'] ['_'] 0 cs = _
      rw [ih]
    · have hp : ['.'].isPrefixOf (c :: cs) = false := by
        have hb : ('.' == c) = false := by
          rw [beq_eq_false_iff_ne]
          exact fun h => hc h.symm
        simp only [List.isPrefixOf, hb, Bool.false_and]
      rw [replaceChars, hp, List.map_cons, if_neg hc]
      simp only [Bool.false_eq_true, if_false]
      rw [ih]

theorem stringsReplace_dot (v : String) :
    stringsReplace v "." "_" = ⟨v.data.map (fun c => if c = '.' then '_' else c)⟩ := by
  unfold stringsReplace
  exact congrArg String.mk (replaceChars_dot v.data)

theorem sortStrings_perm (l : List String) : (sortStrings l).Perm l :=
  List.perm_insertionSort _ l

theorem cluster_mask_result {Req : Type} (req : Req) (hasChange : String → Bool)
    (configVersion : String) (visit : List (String × String)) :
    kafkaClusterUpdateRequestWithMask (.ok req) hasChange configVersion visit
      = if visit.filter (fun e => hasChange e.1) = [] then .ok none
        else .ok (some (req, sortStrings ((visit.filter (fun e => hasChange e.1)).map
          (fun e => stringsReplace e.2 "{version}" (getSuffixVersion configVersion))))) := by
  unfold kafkaClusterUpdateRequestWithMask
  simp only [clusterUpdatePaths_eq, List.length_map]
  cases hf : visit.filter (fun e => hasChange e.1) with
  | nil => simp
  | cons x xs => simp

theorem cluster_mask_of_result {Req : Type} (request : Except String Req)
    (hasChange : String → Bool) (configVersion : String) (visit : List (String × String))
    (req : Req) (mask : List String)
    (h : kafkaClusterUpdateRequestWithMask request hasChange configVersion visit
      = .ok (some (req, mask))) :
    mask = sortStrings ((visit.filter (fun e => hasChange e.1)).map
      (fun e => stringsReplace e.2 "{version}" (getSuffixVersion configVersion))) := by
  cases request with
  | error err => simp [kafkaClusterUpdateRequestWithMask] at h
  | ok r =>
    rw [cluster_mask_result] at h
    split at h
    · simp at h
    · simp only [Except.ok.injEq, Option.some.injEq, Prod.mk.injEq] at h
      exact h.2.symm

/-! ## Claims on `kafkaClusterUpdateRequestWithMask` -/

/-- Counterexample to C9: for the configured version `2.8` the path emitted for
`compression_type` carries `2_8`, not the configured version string, and for
the configured version `3.5` it carries `3`. -/
theorem kafkaClusterUpdateRequestWithMask_suffix_differs :
    kafkaClusterUpdateRequestWithMask (Except.ok ())
        (fun f => f == "config.0.kafka.0.kafka_config.0.compression_type") "2.8"
        mdbKafkaUpdateFieldsMap
      = .ok (some ((), ["config_spec.kafka.kafka_config_2_8.compression_type"])) ∧
    stringsReplace "config_spec.kafka.kafka_config_{version}.compression_type" "{version}" "2.8"
      = "config_spec.kafka.kafka_config_2.8.compression_type" ∧
    kafkaClusterUpdateRequestWithMask (Except.ok ())
        (fun f => f == "config.0.kafka.0.kafka_config.0.compression_type") "3.5"
        mdbKafkaUpdateFieldsMap
      = .ok (some ((), ["config_spec.kafka.kafka_config_3.compression_type"])) := by
  refine ⟨rfl, by decide, rfl⟩

/-- C9 as amended: every path of the mask that
`kafkaClusterUpdateRequestWithMask` returns is the template of a changed field
of `mdbKafkaUpdateFieldsMap` with `{version}` replaced by `getSuffixVersion`,
which is `3` unless the configured version starts with `2`, and is then the
configured version with every `.` replaced by `_`; so a changed versioned
setting is emitted as `config_spec.kafka.kafka_config_`, that suffix, and the
rest of its template. -/
theorem kafkaClusterUpdateRequestWithMask_versioned {Req : Type}
    (request : Except String Req) (hasChange : String → Bool) (configVersion : String)
    (visit : List (String × String)) (hvisit : visit.Perm mdbKafkaUpdateFieldsMap)
    (req : Req) (mask : List String)
    (h : kafkaClusterUpdateRequestWithMask request hasChange configVersion visit
      = .ok (some (req, mask))) :
    (∀ p ∈ mask, ∃ e ∈ mdbKafkaUpdateFieldsMap, hasChange e.1 = true ∧
      p = stringsReplace e.2 "{version}" (getSuffixVersion configVersion)) ∧
    (getSuffixVersion configVersion
      = if "2".data.isPrefixOf configVersion.data then
          ⟨configVersion.data.map (fun c => if c = '.' then '_' else c)⟩
        else "3") ∧
    (∀ e ∈ mdbKafkaUpdateFieldsMap, hasChange e.1 = true →
      ∀ post, versionedPost e.2 = some post →
        "config_spec.kafka.kafka_config_" ++ getSuffixVersion configVersion ++ String.mk post
          ∈ mask) := by
  have hmask := cluster_mask_of_result request hasChange configVersion visit req mask h
  have hmem : ∀ p, p ∈ mask ↔ ∃ e ∈ mdbKafkaUpdateFieldsMap, hasChange e.1 = true ∧
      p = stringsReplace e.2 "{version}" (getSuffixVersion configVersion) := by
    intro p
    rw [hmask, (sortStrings_perm _).mem_iff]
    simp only [List.mem_map, List.mem_filter, hvisit.mem_iff]
    constructor
    · rintro ⟨e, ⟨he, hc⟩, hp⟩
      exact ⟨e, he, hc, hp.symm⟩
    · rintro ⟨e, he, hc, hp⟩
      exact ⟨e, ⟨he, hc⟩, hp.symm⟩
  refine ⟨fun p hp => (hmem p).mp hp, ?_, ?_⟩
  · unfold getSuffixVersion
    rw [stringsReplace_dot]
  · intro e he hc post hpost
    rw [hmem]
    refine ⟨e, he, hc, ?_⟩
    have hs := table_shapes e he
    unfold templateShape at hs
    rw [hpost] at hs
    have := (path_versioned e.2 (getSuffixVersion configVersion) post hpost
      (by simpa using hs)).2
    apply String.ext
    rw [this]
    simp [String.data_append]

theorem kafkaClusterUpdateRequestWithMask_versioned_witness :
    kafkaClusterUpdateRequestWithMask (Except.ok ())
        (fun f => f == "config.0.kafka.0.kafka_config.0.log_preallocate" || f == "name") "2.8"
        mdbKafkaUpdateFieldsMap
      = .ok (some ((), ["config_spec.kafka.kafka_config_2_8.log_preallocate", "name"])) ∧
    getSuffixVersion "2.8"
      = (if "2".data.isPrefixOf "2.8".data then
          ⟨"2.8".data.map (fun c => if c = '.' then '_' else c)⟩
        else "3") :=
  ⟨rfl,
    (kafkaClusterUpdateRequestWithMask_versioned (Except.ok ())
      (fun f => f == "config.0.kafka.0.kafka_config.0.log_preallocate" || f == "name") "2.8"
      mdbKafkaUpdateFieldsMap (List.Perm.refl _) ()
      ["config_spec.kafka.kafka_config_2_8.log_preallocate", "name"] rfl).2.1⟩

/-- Counterexample to C10: no field of `mdbKafkaUpdateFieldsMap` has changed,
and the function returns the error of `kafkaClusterUpdateRequest` instead of
`nil` without error. -/
theorem kafkaClusterUpdateRequestWithMask_error_first :
    kafkaClusterUpdateRequestWithMask (Except.error "error expanding labels" : Except String Unit)
        (fun _ => false) "3.5" mdbKafkaUpdateFieldsMap
      = .error "error expanding labels" := by
  rfl

/-- C10 as amended: when `kafkaClusterUpdateRequest` has built the request,
`kafkaClusterUpdateRequestWithMask` returns `nil` without error exactly when no
field of `mdbKafkaUpdateFieldsMap` has changed; otherwise it returns the request
with a mask that holds the path of a field of the table exactly when that field
has changed, holds only such paths, and holds no path twice. -/
theorem kafkaClusterUpdateRequestWithMask_exact {Req : Type} (req : Req)
    (hasChange : String → Bool) (configVersion : String) (visit : List (String × String))
    (hvisit : visit.Perm mdbKafkaUpdateFieldsMap) :
    (kafkaClusterUpdateRequestWithMask (.ok req) hasChange configVersion visit = .ok none ↔
      ∀ e ∈ mdbKafkaUpdateFieldsMap, hasChange e.1 = false) ∧
    ((∃ e ∈ mdbKafkaUpdateFieldsMap, hasChange e.1 = true) →
      ∃ mask, kafkaClusterUpdateRequestWithMask (.ok req) hasChange configVersion visit
          = .ok (some (req, mask)) ∧
        mask.Nodup ∧
        (∀ e ∈ mdbKafkaUpdateFieldsMap,
          stringsReplace e.2 "{version}" (getSuffixVersion configVersion) ∈ mask ↔
            hasChange e.1 = true) ∧
        (∀ p ∈ mask, ∃ e ∈ mdbKafkaUpdateFieldsMap,
          p = stringsReplace e.2 "{version}" (getSuffixVersion configVersion))) := by
  have hnil : visit.filter (fun e => hasChange e.1) = [] ↔
      ∀ e ∈ mdbKafkaUpdateFieldsMap, hasChange e.1 = false := by
    rw [List.filter_eq_nil_iff]
    constructor
    · intro h e he
      have := h e (hvisit.mem_iff.mpr he)
      simpa using this
    · intro h e he
      have := h e (hvisit.mem_iff.mp he)
      simp [this]
  constructor
  · rw [cluster_mask_result, ← hnil]
    constructor
    · intro h
      by_contra hc
      rw [if_neg hc] at h
      simp at h
    · intro h
      rw [if_pos h]
  · rintro ⟨e0, he0, hc0⟩
    have hne : visit.filter (fun e => hasChange e.1) ≠ [] := by
      intro h
      have := hnil.mp h e0 he0
      rw [hc0] at this
      exact Bool.noConfusion this
    refine ⟨_, by rw [cluster_mask_result, if_neg hne], ?_, ?_, ?_⟩
    · rw [(sortStrings_perm _).nodup_iff]
      apply List.Nodup.map_on
      · intro a ha b hb hab
        simp only [List.mem_filter] at ha hb
        exact path_injective_on_table _ a b (hvisit.mem_iff.mp ha.1) (hvisit.mem_iff.mp hb.1) hab
      · apply List.Nodup.filter
        exact (hvisit.nodup_iff.mpr (List.Nodup.of_map Prod.snd table_templates_nodup))
    · intro e he
      rw [(sortStrings_perm _).mem_iff]
      simp only [List.mem_map, List.mem_filter]
      constructor
      · rintro ⟨e2, ⟨he2, hc2⟩, hp⟩
        have := path_injective_on_table _ e2 e (hvisit.mem_iff.mp he2) he hp
        rw [← this]
        exact hc2
      · intro hc
        exact ⟨e, ⟨hvisit.mem_iff.mpr he, hc⟩, rfl⟩
    · intro p hp
      rw [(sortStrings_perm _).mem_iff] at hp
      simp only [List.mem_map, List.mem_filter] at hp
      obtain ⟨e, ⟨he, _⟩, hpe⟩ := hp
      exact ⟨e, hvisit.mem_iff.mp he, hpe.symm⟩

theorem kafkaClusterUpdateRequestWithMask_exact_witness :
    mdbKafkaUpdateFieldsMap.reverse.Perm mdbKafkaUpdateFieldsMap ∧
    kafkaClusterUpdateRequestWithMask (Except.ok ())
        (fun f => f == "config.0.version" || f == "name") "3.5"
        mdbKafkaUpdateFieldsMap.reverse
      = .ok (some ((), ["config_spec.version", "name"])) ∧
    (kafkaClusterUpdateRequestWithMask (Except.ok ()) (fun _ => false) "3.5"
        mdbKafkaUpdateFieldsMap.reverse = .ok none ↔
      ∀ e ∈ mdbKafkaUpdateFieldsMap, (fun _ : String => false) e.1 = false) :=
  ⟨List.reverse_perm _, rfl,
    (kafkaClusterUpdateRequestWithMask_exact () (fun _ => false) "3.5"
      mdbKafkaUpdateFieldsMap.reverse (List.reverse_perm _)).1⟩

/-! ## Claims on `MySQLHostService.GetChanges` -/

theorem tfString_equal_refl (a : TfString) : a.Equal a = true := by
  cases a <;> simp [TfString.Equal]

theorem tfBool_equal_refl (a : TfBool) : a.Equal a = true := by
  cases a <;> simp [TfBool.Equal]

theorem PartialMatch_refl (h : Host) : PartialMatch h h = true := by
  simp [PartialMatch, tfString_equal_refl]

theorem GetChanges_cases (plan state : Host) :
    GetChanges plan state
      = if PartialMatch plan state = false then
          (none, [⟨"Wrong changes for host",
            "Attributes shard_name, zone, subnet_id can't be changed. Try to replace this host to new one"⟩])
        else if plan.AssignPublicIp.Equal state.AssignPublicIp = true ∧
            plan.ReplicationSource.Equal state.ReplicationSource = true then (none, [])
        else
          (some ⟨state.FQDN.ValueString, ["assign_public_ip", "replica_priority"],
            plan.AssignPublicIp.ValueBool, plan.ReplicationSource.ValueString⟩, []) := by
  unfold GetChanges
  cases PartialMatch plan state <;>
    cases plan.AssignPublicIp.Equal state.AssignPublicIp <;>
    cases plan.ReplicationSource.Equal state.ReplicationSource <;> simp

/-- Counterexample to C12: plan and state differ in the replication source
only; the mask of the returned spec lists `assign_public_ip` although the
public-IP flags are equal. -/
theorem GetChanges_mask_lists_unchanged_flag :
    GetChanges ⟨.known "ru-central1-a", .known "subnet1", .known true, .known "host2", .known "host1"⟩
        ⟨.known "ru-central1-a", .known "subnet1", .known true, .known "host3", .known "host1"⟩
      = (some ⟨"host1", ["assign_public_ip", "replica_priority"], true, "host2"⟩, []) := by
  decide

/-- C12 as amended: `GetChanges` returns an update spec exactly when no
attribute that cannot be changed differs and the public-IP flags or the
replication sources differ; the mask of the spec is then the same fixed list
whichever of the two differs, it lists `assign_public_ip`, and the spec sets
the public-IP flag and the replication source of the plan for the host named by
the FQDN of the state, with no diagnostic. -/
theorem GetChanges_spec (plan state : Host) :
    ((∃ spec, (GetChanges plan state).1 = some spec) ↔
      (PartialMatch plan state = true ∧
        (plan.AssignPublicIp.Equal state.AssignPublicIp = false ∨
          plan.ReplicationSource.Equal state.ReplicationSource = false))) ∧
    ∀ spec, (GetChanges plan state).1 = some spec →
      "assign_public_ip" ∈ spec.UpdateMask ∧
      spec.AssignPublicIp = plan.AssignPublicIp.ValueBool ∧
      spec.ReplicationSource = plan.ReplicationSource.ValueString ∧
      spec.HostName = state.FQDN.ValueString ∧
      (GetChanges plan state).2 = [] ∧
      ∀ plan2 state2 spec2, (GetChanges plan2 state2).1 = some spec2 →
        spec2.UpdateMask = spec.UpdateMask := by
  have hmask : ∀ p s sp, (GetChanges p s).1 = some sp →
      sp = ⟨s.FQDN.ValueString, ["assign_public_ip", "replica_priority"],
        p.AssignPublicIp.ValueBool, p.ReplicationSource.ValueString⟩ ∧ (GetChanges p s).2 = [] := by
    intro p s sp h
    rw [GetChanges_cases] at h ⊢
    split at h
    · simp at h
    · split at h
      · simp at h
      · rename_i h1 h2
        simp only [Option.some.injEq] at h
        simp [h1, h2, h]
  constructor
  · rw [GetChanges_cases]
    cases PartialMatch plan state <;>
      cases plan.AssignPublicIp.Equal state.AssignPublicIp <;>
      cases plan.ReplicationSource.Equal state.ReplicationSource <;> simp
  · intro spec h
    obtain ⟨hs, hd⟩ := hmask plan state spec h
    refine ⟨by simp [hs], by simp [hs], by simp [hs], by simp [hs], hd, ?_⟩
    intro plan2 state2 spec2 h2
    rw [(hmask plan2 state2 spec2 h2).1, hs]

theorem GetChanges_spec_witness :
    (GetChanges ⟨.known "a", .unknown, .known true, .null, .unknown⟩
        ⟨.known "a", .known "subnet1", .known false, .null, .known "host1"⟩).1
      = some ⟨"host1", ["assign_public_ip", "replica_priority"], true, ""⟩ ∧
    "assign_public_ip" ∈ (["assign_public_ip", "replica_priority"] : List String) :=
  ⟨by decide,
    ((GetChanges_spec ⟨.known "a", .unknown, .known true, .null, .unknown⟩
        ⟨.known "a", .known "subnet1", .known false, .null, .known "host1"⟩).2
      ⟨"host1", ["assign_public_ip", "replica_priority"], true, ""⟩ (by decide)).1⟩

/-- Counterexample to C13: the zone of the plan equals the zone of the state,
the `subnet_id` of the plan is null and its FQDN unknown, so no known
`subnet_id` or FQDN of the plan differs from the state, and `GetChanges`
returns the error `Wrong changes for host`. -/
theorem GetChanges_error_on_null_subnet :
    GetChanges ⟨.known "ru-central1-a", .null, .known true, .null, .unknown⟩
        ⟨.known "ru-central1-a", .known "subnet1", .known true, .null, .known "host1"⟩
      = (none, [⟨"Wrong changes for host",
          "Attributes shard_name, zone, subnet_id can't be changed. Try to replace this host to new one"⟩]) := by
  decide

/-- C13 as amended: `GetChanges` returns the error `Wrong changes for host`,
with no update spec, exactly when `PartialMatch(plan, state)` is false, that is
when the zone is not `Equal` to the zone of the state, or the `subnet_id` or the
FQDN of the plan is not unknown (known or null) and not `Equal` to that of the
state; it returns no diagnostic exactly when `PartialMatch` holds. -/
theorem GetChanges_error_iff (plan state : Host) :
    (GetChanges plan state
        = (none, [⟨"Wrong changes for host",
          "Attributes shard_name, zone, subnet_id can't be changed. Try to replace this host to new one"⟩]) ↔
      PartialMatch plan state = false) ∧
    (PartialMatch plan state = false ↔
      (plan.Zone.Equal state.Zone = false ∨
        (plan.SubnetId.IsUnknown = false ∧ plan.SubnetId.Equal state.SubnetId = false) ∨
        (plan.FQDN.IsUnknown = false ∧ plan.FQDN.Equal state.FQDN = false))) ∧
    ((GetChanges plan state).2 = [] ↔ PartialMatch plan state = true) := by
  refine ⟨?_, ?_, ?_⟩
  · rw [GetChanges_cases]
    cases PartialMatch plan state <;>
      cases plan.AssignPublicIp.Equal state.AssignPublicIp <;>
      cases plan.ReplicationSource.Equal state.ReplicationSource <;> simp
  · unfold PartialMatch
    cases plan.Zone.Equal state.Zone <;> cases plan.SubnetId.IsUnknown <;>
      cases plan.SubnetId.Equal state.SubnetId <;> cases plan.FQDN.IsUnknown <;>
      cases plan.FQDN.Equal state.FQDN <;> simp
  · rw [GetChanges_cases]
    cases PartialMatch plan state <;>
      cases plan.AssignPublicIp.Equal state.AssignPublicIp <;>
      cases plan.ReplicationSource.Equal state.ReplicationSource <;> simp

/-- C14: for every host `h`, whatever the state of its attribute values,
`GetChanges(h, h)` returns no update spec and no diagnostic. -/
theorem GetChanges_self (h : Host) : GetChanges h h = (none, []) := by
  rw [GetChanges_cases]
  simp [PartialMatch_refl, tfString_equal_refl, tfBool_equal_refl]

/-! ## Claims on `redirectsDiffSuppress` -/

theorem expandRedirect_typed (x : Value) (h : redirectTyped x = true) :
    expandRedirect x = some ⟨redirectFlag [x]⟩ := by
  cases x with
  | nil => simp [expandRedirect, redirectFlag]
  | nilMap => simp [expandRedirect, redirectFlag, asMap]
  | map m =>
    simp only [redirectTyped] at h
    simp only [expandRedirect, asMap, redirectFlag]
    cases hl : m.lookup "http_to_https" with
    | none => simp
    | some v =>
      rw [hl] at h
      cases v <;> simp at h ⊢
  | _ => simp [redirectTyped] at h

theorem redirect_element (xs : List Value) (hlen : xs.length ≤ 1)
    (ht : ∀ x ∈ xs, redirectTyped x = true) :
    expandRedirect (if xs.length == 1 then xs.getD 0 Value.nil else Value.nil)
      = some ⟨redirectFlag xs⟩ := by
  match xs, hlen, ht with
  | [], _, _ => simp [expandRedirect, redirectFlag]
  | [x], _, ht =>
    have := expandRedirect_typed x (ht x (by simp))
    simpa using this
  | _ :: _ :: _, hlen, _ => simp at hlen

theorem redirectsDiffSuppress_eq (getChange : String → Value × Value)
    (key oldValue newValue : String) (oldRedirects newRedirects : List Value)
    (hkey : hasSuffix key ("redirects" ++ ".#") = true)
    (ho : asList (getChange (stringsReplace key ".#" "")).1 = some oldRedirects)
    (hn : asList (getChange (stringsReplace key ".#" "")).2 = some newRedirects)
    (hot : ∀ x ∈ oldRedirects, redirectTyped x = true)
    (hnt : ∀ x ∈ newRedirects, redirectTyped x = true) :
    redirectsDiffSuppress getChange key oldValue newValue
      = if oldRedirects.length > 1 ∨ newRedirects.length > 1 then none
        else some (decide (redirectFlag oldRedirects = redirectFlag newRedirects)) := by
  unfold redirectsDiffSuppress
  simp only [hkey, if_true, ho, hn]
  by_cases h1 : oldRedirects.length > 1
  · simp [h1]
  · by_cases h2 : newRedirects.length > 1
    · simp [h1, h2]
    · have e1 := redirect_element oldRedirects (by omega) hot
      have e2 := redirect_element newRedirects (by omega) hnt
      simp only [h1, h2, if_false, e1, e2, or_self]
      simp

/-- C15: for a key ending in `redirects.#` whose old and new redirect lists hold
at most one element each, typed as the schema types them, `redirectsDiffSuppress`
returns `true` exactly when the `http_to_https` flags of the two sides are
equal, an empty list, a nil element and a missing flag reading as `false`; so a
missing block and an empty block are never reported as a difference. -/
theorem redirectsDiffSuppress_flags (getChange : String → Value × Value)
    (key oldValue newValue : String) (oldRedirects newRedirects : List Value)
    (hkey : hasSuffix key ("redirects" ++ ".#") = true)
    (ho : asList (getChange (stringsReplace key ".#" "")).1 = some oldRedirects)
    (hn : asList (getChange (stringsReplace key ".#" "")).2 = some newRedirects)
    (hol : oldRedirects.length ≤ 1) (hnl : newRedirects.length ≤ 1)
    (hot : ∀ x ∈ oldRedirects, redirectTyped x = true)
    (hnt : ∀ x ∈ newRedirects, redirectTyped x = true) :
    (redirectsDiffSuppress getChange key oldValue newValue
      = some (decide (redirectFlag oldRedirects = redirectFlag newRedirects))) ∧
    ((oldRedirects = [] ∨ oldRedirects = [Value.nil]) →
      (newRedirects = [] ∨ newRedirects = [Value.nil]) →
      redirectsDiffSuppress getChange key oldValue newValue = some true) := by
  have h := redirectsDiffSuppress_eq getChange key oldValue newValue oldRedirects newRedirects
    hkey ho hn hot hnt
  rw [if_neg (by omega)] at h
  refine ⟨h, ?_⟩
  intro h1 h2
  rw [h]
  rcases h1 with rfl | rfl <;> rcases h2 with rfl | rfl <;> simp [redirectFlag]

theorem redirectsDiffSuppress_flags_witness :
    redirectsDiffSuppress (sampleGetChange (.list []) (.list [.nil]))
        "listener.0.http.0.redirects.#" "0" "1" = some true ∧
    redirectsDiffSuppress (sampleGetChange (.list [sampleRedirect true]) (.list [.nil]))
        "listener.0.http.0.redirects.#" "1" "1" = some false :=
  ⟨(redirectsDiffSuppress_flags (sampleGetChange (.list []) (.list [.nil]))
      "listener.0.http.0.redirects.#" "0" "1" [] [.nil] (by decide) rfl rfl (by decide)
      (by decide) (by decide) (by decide)).2 (Or.inl rfl) (Or.inr rfl),
    by decide⟩

/-- C16: for a key ending in `redirects.#` and redirect lists typed as the
schema types them, `redirectsDiffSuppress` panics if and only if the old or the
new list holds more than one element; with at most one element on each side it
returns a boolean. -/
theorem redirectsDiffSuppress_panics_iff (getChange : String → Value × Value)
    (key oldValue newValue : String) (oldRedirects newRedirects : List Value)
    (hkey : hasSuffix key ("redirects" ++ ".#") = true)
    (ho : asList (getChange (stringsReplace key ".#" "")).1 = some oldRedirects)
    (hn : asList (getChange (stringsReplace key ".#" "")).2 = some newRedirects)
    (hot : ∀ x ∈ oldRedirects, redirectTyped x = true)
    (hnt : ∀ x ∈ newRedirects, redirectTyped x = true) :
    (redirectsDiffSuppress getChange key oldValue newValue = none ↔
      (oldRedirects.length > 1 ∨ newRedirects.length > 1)) ∧
    (oldRedirects.length ≤ 1 → newRedirects.length ≤ 1 →
      ∃ b, redirectsDiffSuppress getChange key oldValue newValue = some b) := by
  have h := redirectsDiffSuppress_eq getChange key oldValue newValue oldRedirects newRedirects
    hkey ho hn hot hnt
  constructor
  · rw [h]
    by_cases hc : oldRedirects.length > 1 ∨ newRedirects.length > 1
    · simp [hc]
    · simp [hc]
  · intro h1 h2
    rw [h, if_neg (by omega)]
    exact ⟨_, rfl⟩

theorem redirectsDiffSuppress_panics_iff_witness :
    redirectsDiffSuppress
        (sampleGetChange (.list [sampleRedirect true, sampleRedirect false]) (.list []))
        "listener.0.http.0.redirects.#" "2" "0" = none :=
  (redirectsDiffSuppress_panics_iff
      (sampleGetChange (.list [sampleRedirect true, sampleRedirect false]) (.list []))
      "listener.0.http.0.redirects.#" "2" "0" [sampleRedirect true, sampleRedirect false] []
      (by decide) rfl rfl (by decide) (by decide)).1.mpr (Or.inl (by decide))

/-! ## Claims on the instance group variables -/

theorem mapSet_not_mem (m : List (String × String)) (k v : String)
    (h : k ∉ m.map Prod.fst) : mapSet m k v = m ++ [(k, v)] := by
  induction m with
  | nil => rfl
  | cons e rest ih =>
    obtain ⟨k2, v2⟩ := e
    simp only [List.map_cons, List.mem_cons, not_or] at h
    have hne : ¬ k2 = k := fun hc => h.1 hc.symm
    simp [mapSet, hne, ih h.2]

theorem flatten_foldl (f : List (String × String) → Option Variable → List (String × String))
    (hf : ∀ vars x, f vars (some x) = mapSet vars x.Key x.Value)
    (m acc : List (String × String))
    (hn : ((acc ++ m).map Prod.fst).Nodup) :
    (m.map (fun e => some (⟨e.1, e.2⟩ : Variable))).foldl f acc = acc ++ m := by
  induction m generalizing acc with
  | nil => simp
  | cons e rest ih =>
    obtain ⟨k, v⟩ := e
    have hk : k ∉ acc.map Prod.fst := by
      intro hc
      simp only [List.map_append, List.map_cons] at hn
      have := (List.nodup_append.mp hn).2.2
      exact this hc (List.mem_cons_self _ _) 
    simp only [List.map_cons, List.foldl_cons, hf, mapSet_not_mem acc k v hk]
    rw [ih (acc ++ [(k, v)]) (by simpa using hn)]
    simp

theorem expandVariablesLoop_strings (m : List (String × String)) (acc : List (Option Variable)) :
    expandVariablesLoop (m.map (fun e => (e.1, Value.str e.2))) acc
      = some (acc ++ m.map (fun e => some ⟨e.1, e.2⟩)) := by
  induction m generalizing acc with
  | nil => simp [expandVariablesLoop]
  | cons e rest ih =>
    simp only [List.map_cons, expandVariablesLoop, ih]
    simp

/-- C17: for every map `m` of string values (its entries in visit order, its
keys distinct) `expandInstanceGroupVariables(m)` is the list of one `Variable`
per entry of `m`, with the key and the value of the entry, and nothing else, and
`flattenInstanceGroupVariable` maps that list back to `m`; a nil input yields
the empty list. -/
theorem expand_flatten_variables (m : List (String × String))
    (hn : (m.map Prod.fst).Nodup) :
    expandInstanceGroupVariables (Value.map (m.map (fun e => (e.1, Value.str e.2))))
      = some (m.map (fun e => some ⟨e.1, e.2⟩)) ∧
    flattenInstanceGroupVariable (m.map (fun e => some ⟨e.1, e.2⟩)) = m ∧
    expandInstanceGroupVariables Value.nil = some [] := by
  refine ⟨?_, ?_, rfl⟩
  · simp [expandInstanceGroupVariables, asMap, expandVariablesLoop_strings]
  · unfold flattenInstanceGroupVariable
    rw [flatten_foldl _ (fun _ _ => rfl) m [] (by simpa using hn)]
    simp

theorem expand_flatten_variables_witness :
    expandInstanceGroupVariables
        (Value.map [("test_key1", .str "test_value1"), ("test_key2", .str "test_value2")])
      = some [some ⟨"test_key1", "test_value1"⟩, some ⟨"test_key2", "test_value2"⟩] ∧
    flattenInstanceGroupVariable
        [some ⟨"test_key1", "test_value1"⟩, some ⟨"test_key2", "test_value2"⟩]
      = [("test_key1", "test_value1"), ("test_key2", "test_value2")] :=
  ⟨(expand_flatten_variables [("test_key1", "test_value1"), ("test_key2", "test_value2")]
      (by decide)).1,
    (expand_flatten_variables [("test_key1", "test_value1"), ("test_key2", "test_value2")]
      (by decide)).2.1⟩


/-! ## Claims on `resourceYandexFunctionVersionUpdate` -/

/-- C18, the code at the failing input: only the attribute `secrets` has
changed and no tag was added or removed; no new version is created, the list of
version attributes naming `secret`. A change of `content` does create one. -/
theorem resourceYandexFunctionVersionUpdate_ignores_secrets :
    resourceYandexFunctionVersionUpdate (fun k => k == "secrets") (fun _ _ => none) none [] []
      = ⟨[], false, none⟩ ∧
    resourceYandexFunctionVersionUpdate (fun k => k == "content") (fun _ _ => none) none [] []
      = ⟨[], true, none⟩ := by
  constructor <;> decide

/-! ## Claims on `isZipContent` -/

theorem isZipContent_iff (buf : List Nat) :
    isZipContent buf = true ↔
      ∃ b2 b3 rest, buf = 0x50 :: 0x4B :: b2 :: b3 :: rest ∧
        (b2 = 0x3 ∨ b2 = 0x5 ∨ b2 = 0x7) ∧ (b3 = 0x4 ∨ b3 = 0x6 ∨ b3 = 0x8) := by
  match buf with
  | [] => simp [isZipContent]
  | [_] => simp [isZipContent]
  | [_, _] => simp [isZipContent]
  | [_, _, _] => simp [isZipContent]
  | b0 :: b1 :: b2 :: b3 :: rest =>
    simp only [isZipContent, List.length_cons, List.getD_cons_zero, List.getD_cons_succ,
      Bool.and_eq_true, Bool.or_eq_true, beq_iff_eq, decide_eq_true_eq, List.cons.injEq]
    constructor
    · rintro ⟨⟨⟨⟨_, h0⟩, h1⟩, h2⟩, h3⟩
      exact ⟨b2, b3, rest, ⟨h0, h1, rfl, rfl, rfl⟩, or_assoc.mp h2, or_assoc.mp h3⟩
    · rintro ⟨c2, c3, r, ⟨h0, h1, rfl, rfl, rfl⟩, h2, h3⟩
      exact ⟨⟨⟨⟨by omega, h0⟩, h1⟩, or_assoc.mpr h2⟩, or_assoc.mpr h3⟩

theorem isZipContent_short (buf : List Nat) (h : buf.length < 4) : isZipContent buf = false := by
  have hl : ¬ buf.length > 3 := by omega
  simp [isZipContent, hl]

theorem ZipPathToBytes_regular (stat : String → Except String FileKind)
    (readFile : String → Except String (List Nat))
    (zipPathToWriter : String → Except String (List Nat)) (root : String) (bytes : List Nat)
    (hs : stat root = .ok FileKind.regular) (hr : readFile root = .ok bytes) :
    ZipPathToBytes stat readFile zipPathToWriter root
      = if isZipContent bytes then .ok bytes else zipPathToWriter root := by
  unfold ZipPathToBytes
  simp only [hs, hr]
  cases isZipContent bytes <;> simp

/-- Counterexample to C19: a buffer that begins with `PK\x03\x06`, which is
none of the three ZIP signatures, passes `isZipContent`, and `ZipPathToBytes`
returns a regular file of these bytes unchanged. -/
theorem isZipContent_accepts_mixed_signature :
    isZipContent [0x50, 0x4B, 0x03, 0x06, 0x00] = true ∧
    ZipPathToBytes sampleStat (sampleReadFile [0x50, 0x4B, 0x03, 0x06, 0x00]) sampleZip "pkg.bin"
      = .ok [0x50, 0x4B, 0x03, 0x06, 0x00] :=
  ⟨by decide, rfl⟩

/-- C19 as amended: `isZipContent(buf)` is true exactly when `buf` begins with
`PK`, followed by a byte 3, 5 or 7 and by a byte 4, 6 or 8, each of the nine
pairs being accepted; it is false for every buffer shorter than four bytes;
and `ZipPathToBytes` returns the bytes of a regular file unchanged exactly when
they pass this test, the path being zipped otherwise. -/
theorem isZipContent_signature (buf : List Nat) :
    (isZipContent buf = true ↔
      ∃ b2 b3 rest, buf = 0x50 :: 0x4B :: b2 :: b3 :: rest ∧
        (b2 = 0x3 ∨ b2 = 0x5 ∨ b2 = 0x7) ∧ (b3 = 0x4 ∨ b3 = 0x6 ∨ b3 = 0x8)) ∧
    (buf.length < 4 → isZipContent buf = false) ∧
    (∀ (stat : String → Except String FileKind) (readFile : String → Except String (List Nat))
        (zipPathToWriter : String → Except String (List Nat)) (root : String),
      stat root = .ok FileKind.regular → readFile root = .ok buf →
      ZipPathToBytes stat readFile zipPathToWriter root
        = if isZipContent buf then .ok buf else zipPathToWriter root) :=
  ⟨isZipContent_iff buf, isZipContent_short buf,
    fun stat readFile zipPathToWriter root hs hr =>
      ZipPathToBytes_regular stat readFile zipPathToWriter root buf hs hr⟩

theorem isZipContent_signature_witness :
    isZipContent [0x50, 0x4B, 0x03] = false ∧
    ZipPathToBytes sampleStat (sampleReadFile [0x50, 0x4B, 0x03, 0x04]) sampleZip "pkg.bin"
      = (if isZipContent [0x50, 0x4B, 0x03, 0x04] then .ok [0x50, 0x4B, 0x03, 0x04]
        else sampleZip "pkg.bin") :=
  ⟨(isZipContent_signature [0x50, 0x4B, 0x03]).2.1 (by decide),
    (isZipContent_signature [0x50, 0x4B, 0x03, 0x04]).2.2 sampleStat
      (sampleReadFile [0x50, 0x4B, 0x03, 0x04]) sampleZip "pkg.bin" rfl rfl⟩

/-! ## Facts on the retry loop -/

section Retry

variable {Op : Type} (isConflict : String → Bool) (expired : Nat → Bool)
  (action : Nat → Except String Op)

theorem retryLoop_success (op : Op) (n : Nat) : ∀ r i,
    (∀ j < n, ∃ e, action (i + j) = .error e ∧ isConflict e = true) →
    (∀ j ≤ n, expired (i + j) = false) → action (i + n) = .ok op → n ≤ r →
    retryLoop isConflict expired action r i = (i + n + 1, .ok op) := by
  induction n with
  | zero =>
    intro r i _ hlive hok _
    have h0 : expired i = false := by simpa using hlive 0 (Nat.le_refl 0)
    have h1 : action i = .ok op := by simpa using hok
    cases r <;> simp [retryLoop, h0, h1]
  | succ n ih =>
    intro r i hfail hlive hok hr
    obtain ⟨r2, rfl⟩ : ∃ r2, r = r2 + 1 := ⟨r - 1, by omega⟩
    have h0 : expired i = false := by simpa using hlive 0 (Nat.zero_le _)
    obtain ⟨e, he, hc⟩ := hfail 0 (Nat.succ_pos n)
    simp only [Nat.add_zero] at he
    have := ih r2 (i + 1)
      (fun j hj => by
        have := hfail (j + 1) (by omega)
        rwa [show i + (j + 1) = i + 1 + j by omega] at this)
      (fun j hj => by
        have := hlive (j + 1) (by omega)
        rwa [show i + (j + 1) = i + 1 + j by omega] at this)
      (by rwa [show i + (n + 1) = i + 1 + n by omega] at hok)
      (by omega)
    simp only [retryLoop, h0, he, hc, if_true, Bool.false_eq_true, if_false, this]
    rw [show i + 1 + n + 1 = i + (n + 1) + 1 by omega]

theorem retryLoop_deadline (t : Nat) : ∀ r i,
    (∀ j < t, ∃ e, action (i + j) = .error e ∧ isConflict e = true) →
    (∀ j < t, expired (i + j) = false) → expired (i + t) = true → t ≤ r →
    retryLoop isConflict expired action r i = (i + t, .error contextDeadlineExceeded) := by
  induction t with
  | zero =>
    intro r i _ _ hexp _
    have h0 : expired i = true := by simpa using hexp
    cases r <;> simp [retryLoop, h0]
  | succ t ih =>
    intro r i hfail hlive hexp hr
    obtain ⟨r2, rfl⟩ : ∃ r2, r = r2 + 1 := ⟨r - 1, by omega⟩
    have h0 : expired i = false := by simpa using hlive 0 (Nat.succ_pos t)
    obtain ⟨e, he, hc⟩ := hfail 0 (Nat.succ_pos t)
    simp only [Nat.add_zero] at he
    have := ih r2 (i + 1)
      (fun j hj => by
        have := hfail (j + 1) (by omega)
        rwa [show i + (j + 1) = i + 1 + j by omega] at this)
      (fun j hj => by
        have := hlive (j + 1) (by omega)
        rwa [show i + (j + 1) = i + 1 + j by omega] at this)
      (by rwa [show i + (t + 1) = i + 1 + t by omega] at hexp)
      (by omega)
    simp only [retryLoop, h0, he, hc, if_true, Bool.false_eq_true, if_false, this]
    rw [show i + 1 + t = i + (t + 1) by omega]

theorem retryLoop_exhausted (e : String) (hc : isConflict e = true) : ∀ r i,
    (∀ j ≤ r, action (i + j) = .error e) → (∀ j ≤ r, expired (i + j) = false) →
    retryLoop isConflict expired action r i = (i + r + 1, .error e) := by
  intro r
  induction r with
  | zero =>
    intro i hfail hlive
    have h0 : expired i = false := by simpa using hlive 0 (Nat.le_refl 0)
    have h1 : action i = .error e := by simpa using hfail 0 (Nat.le_refl 0)
    simp [retryLoop, h0, h1]
  | succ r ih =>
    intro i hfail hlive
    have h0 : expired i = false := by simpa using hlive 0 (Nat.zero_le _)
    have h1 : action i = .error e := by simpa using hfail 0 (Nat.zero_le _)
    have := ih (i + 1)
      (fun j hj => by
        have := hfail (j + 1) (by omega)
        rwa [show i + (j + 1) = i + 1 + j by omega] at this)
      (fun j hj => by
        have := hlive (j + 1) (by omega)
        rwa [show i + (j + 1) = i + 1 + j by omega] at this)
    simp only [retryLoop, h0, h1, hc, if_true, Bool.false_eq_true, if_false, this]
    rw [show i + 1 + r + 1 = i + (r + 1) + 1 by omega]

end Retry

/-! ## Claims on the retry wrapper and the topic requests -/

/-- C11, the code at the failing input: the remote call fails once with a
conflict error and would succeed on the next attempt; `createKafkaTopic`,
`updateKafkaTopic` and `deleteKafkaTopic` invoke it once and return that error,
wrapped, while `deleteKafkaUser`, which goes through the retry wrapper, invokes
it twice and succeeds. -/
theorem topic_requests_do_not_retry :
    createKafkaTopic sampleQuote "c1" sampleConflictOnce sampleWait
      = ⟨1, some ("error while requesting API to create topic in Kafka Cluster "
          ++ sampleQuote "c1" ++ ": conflicting operation detected")⟩ ∧
    updateKafkaTopic sampleQuote "c1" sampleConflictOnce sampleWait
      = ⟨1, some ("error while requesting API to update topic in Kafka Cluster "
          ++ sampleQuote "c1" ++ ": conflicting operation detected")⟩ ∧
    deleteKafkaTopic sampleQuote "c1" sampleConflictOnce sampleWait
      = ⟨1, some ("error while requesting API to delete topic from Kafka Cluster "
          ++ sampleQuote "c1" ++ ": conflicting operation detected")⟩ ∧
    deleteKafkaUser 3 sampleIsConflict (fun _ => false) sampleQuote "c1" sampleConflictOnce
      sampleWait = ⟨2, none⟩ := by
  refine ⟨by decide, by decide, by decide, by decide⟩

/-- Counterexample to C20: whatever the retry bound of the wrapper, a call that
fails with a conflict error once more than the bound allows and would then
succeed, under a context that never expires, is not retried to success; with
the bound 2 the wrapper returns the conflict error after three invocations,
also for a call that always fails, before the context expires. -/
theorem retryConflictingOperation_bound_reached :
    (¬ ∃ maxRetries : Nat,
      (retryConflictingOperation maxRetries sampleIsConflict (fun _ => false)
        (sampleConflicts (maxRetries + 1))).2 = Except.ok ()) ∧
    retryConflictingOperation 2 sampleIsConflict (fun _ => false) (sampleConflicts 3)
      = (3, Except.error "conflicting operation detected") ∧
    retryConflictingOperation 2 sampleIsConflict (fun i => decide (10 ≤ i))
        (fun _ => (Except.error "conflicting operation detected" : Except String Unit))
      = (3, Except.error "conflicting operation detected") := by
  refine ⟨?_, rfl, rfl⟩
  rintro ⟨b, hb⟩
  have h := retryLoop_exhausted sampleIsConflict (fun _ => false) (sampleConflicts (b + 1))
    "conflicting operation detected" (by decide) b 0
    (fun j hj => by
      have : j < b + 1 := by omega
      simp [sampleConflicts, this])
    (fun _ _ => rfl)
  unfold retryConflictingOperation at hb
  rw [h] at hb
  simp at hb

/-- C20 as amended, on the wrapper modelled from the spec: a call that fails
with a conflict error `N` times and then succeeds is invoked `N + 1` times and
its operation is returned, provided the `N` attempts complete before the
deadline of the context and `N` does not exceed the retry bound; a call that
always fails with a conflict error gets a deadline error once the context has
expired, provided that happens before the retry bound is reached. -/
theorem retryConflictingOperation_spec {Op : Type} (maxRetries : Nat)
    (isConflict : String → Bool) (expired : Nat → Bool) (action : Nat → Except String Op) :
    (∀ N op, (∀ i < N, ∃ e, action i = .error e ∧ isConflict e = true) →
      action N = .ok op → (∀ i ≤ N, expired i = false) → N ≤ maxRetries →
      retryConflictingOperation maxRetries isConflict expired action = (N + 1, .ok op)) ∧
    (∀ T, (∀ i, ∃ e, action i = .error e ∧ isConflict e = true) →
      (∀ i < T, expired i = false) → expired T = true → T ≤ maxRetries →
      retryConflictingOperation maxRetries isConflict expired action
        = (T, .error contextDeadlineExceeded)) := by
  constructor
  · intro N op hfail hok hlive hb
    have := retryLoop_success isConflict expired action op N maxRetries 0
      (by simpa using hfail) (by simpa using hlive) (by simpa using hok) hb
    simpa [retryConflictingOperation] using this
  · intro T hall hlive hexp hb
    have := retryLoop_deadline isConflict expired action T maxRetries 0
      (fun j _ => by simpa using hall j) (by simpa using hlive) (by simpa using hexp) hb
    simpa [retryConflictingOperation] using this

theorem retryConflictingOperation_spec_witness :
    retryConflictingOperation 5 sampleIsConflict (fun _ => false) (sampleConflicts 2)
      = (2 + 1, Except.ok ()) :=
  (retryConflictingOperation_spec 5 sampleIsConflict (fun _ => false) (sampleConflicts 2)).1
    2 () (fun i hi => ⟨"conflicting operation detected", by simp [sampleConflicts, hi], by decide⟩)
    (by simp [sampleConflicts]) (fun _ _ => rfl) (by decide)

/-! ## Claims on the instance group disks and scale policy -/

/-- C21, evaluated on the code: for an attached disk that is not nil and whose
`DiskSpec` is nil, `flattenInstanceGroupAttachedDisk` fails on the nil
dereference of `diskSpecSpec.Description` and returns no error, whatever the
mode and device name; the error `no disk spec` is returned for a nil attached
disk only, with the map of the two entries read through the getters. -/
theorem flattenInstanceGroupAttachedDisk_nil_spec_panics (toGigabytes : Int → Int)
    (modeString : Int → String) (mode : Int) (deviceName : String) :
    flattenInstanceGroupAttachedDisk toGigabytes modeString (some ⟨mode, deviceName, none⟩) = none
    ∧ flattenInstanceGroupAttachedDisk toGigabytes modeString none
      = some ([("device_name", .str ""), ("mode", .str (modeString 0))], some "no disk spec") :=
  ⟨rfl, rfl⟩

/-- C22, evaluated on the code: when `test_auto_scale` is the only configured
block and its expansion succeeds, `expandInstanceGroupScalePolicy` returns
without error a policy whose scale type is not set; the error
`Only fixed_scale and auto_scale policy are supported` is returned when none of
the three blocks is configured. -/
theorem expandInstanceGroupScalePolicy_test_only {AutoScale : Type} (get : String → Value)
    (testAutoScale : AutoScale) :
    expandInstanceGroupScalePolicy sampleGetOkTestOnly get (fun _ => .ok testAutoScale)
      = some (.ok ⟨none, some testAutoScale⟩)
    ∧ expandInstanceGroupScalePolicy (fun _ => false) get (fun _ => Except.ok testAutoScale)
      = some (.error "Only fixed_scale and auto_scale policy are supported") :=
  ⟨rfl, rfl⟩

/-! ## Facts on the swap of two topics and the loops of `sortKafkaTopics` -/

theorem set_cons_perm {α : Type} (a b : α) : ∀ (l : List α) (j : Nat),
    l[j]? = some b → (b :: l.set j a).Perm (a :: l)
  | [], j, h => by simp at h
  | x :: tl, 0, h => by
    simp at h
    subst h
    simpa using List.Perm.swap a x tl
  | x :: tl, j + 1, h => by
    simp at h
    have ih := set_cons_perm a b tl j h
    simp only [List.set_cons_succ]
    exact (List.Perm.swap x b _).trans (((ih.cons x)).trans (List.Perm.swap a x tl))

theorem swap_perm {α : Type} (a b : α) : ∀ (l : List α) (i j : Nat), i < j →
    l[i]? = some a → l[j]? = some b → ((l.set i b).set j a).Perm l
  | [], i, j, _, h, _ => by simp at h
  | x :: tl, 0, 0, h, _, _ => by omega
  | x :: tl, 0, j + 1, _, hi, hj => by
    simp at hi hj
    subst hi
    simpa using set_cons_perm x b tl j hj
  | x :: tl, i + 1, 0, h, _, _ => by omega
  | x :: tl, i + 1, j + 1, h, hi, hj => by
    simp at hi hj
    simpa using (swap_perm a b tl i j (by omega) hi hj).cons x

theorem swap_take {α : Type} (a b : α) (l : List α) (i j : Nat) (h : i < j) :
    ((l.set i b).set j a).take i = l.take i := by
  apply List.ext_getElem?
  intro k
  rw [List.getElem?_take, List.getElem?_take]
  split
  · rw [List.getElem?_set_ne (by omega), List.getElem?_set_ne (by omega)]
  · rfl

theorem swap_at {α : Type} (a b x : α) (l : List α) (i j : Nat) (h : i < j)
    (hi : l[i]? = some x) : ((l.set i b).set j a)[i]? = some b := by
  have hlt : i < l.length := by
    rcases Nat.lt_or_ge i l.length with h1 | h1
    · exact h1
    · rw [List.getElem?_eq_none h1] at hi; cases hi
  rw [List.getElem?_set_ne (by omega), List.getElem?_set_self hlt]

theorem sortTopicsInner_cases {Topic : Type} (topicName : Topic → Option String)
    (sn : Option String) (i : Nat) (topics : List Topic) : ∀ (js : List Nat),
    (∀ j ∈ js, i < j ∧ j < topics.length) →
    (sortTopicsInner topicName sn i js topics = .error .nilDereference
        ∧ (sn = none ∨ ∃ t ∈ topics, topicName t = none))
      ∨ (sortTopicsInner topicName sn i js topics = .ok topics
        ∧ ∀ j ∈ js, ∀ t, topics[j]? = some t → topicName t ≠ sn)
      ∨ ∃ j ∈ js, ∃ a b, topics[i]? = some a ∧ topics[j]? = some b ∧ topicName b = sn
        ∧ sortTopicsInner topicName sn i js topics = .ok ((topics.set i b).set j a)
  | [], _ => Or.inr (Or.inl ⟨rfl, fun j hj => by simp at hj⟩)
  | j :: js, hjs => by
    have hj := hjs j (List.mem_cons_self j js)
    cases sn with
    | none => exact Or.inl ⟨rfl, Or.inl rfl⟩
    | some n =>
      have hjt : topics[j]? = some (topics[j]) := List.getElem?_eq_getElem hj.2
      have hit : topics[i]? = some (topics[i]) := List.getElem?_eq_getElem (by omega)
      cases hm : topicName topics[j] with
      | none =>
        refine Or.inl ⟨?_, Or.inr ⟨topics[j], List.getElem_mem _, hm⟩⟩
        simp [sortTopicsInner, hjt, hm]
      | some m =>
        by_cases hnm : n = m
        · refine Or.inr (Or.inr ⟨j, List.mem_cons_self j js, topics[i], topics[j], hit, hjt,
            by rw [hm, hnm], ?_⟩)
          simp [sortTopicsInner, hjt, hm, hnm, swapTopics, hit]
        · have step : sortTopicsInner topicName (some n) i (j :: js) topics
              = sortTopicsInner topicName (some n) i js topics := by
            simp [sortTopicsInner, hjt, hm, hnm]
          rcases sortTopicsInner_cases topicName (some n) i topics js
              (fun k hk => hjs k (List.mem_cons_of_mem j hk)) with h | h | h
          · exact Or.inl ⟨step.trans h.1, h.2⟩
          · refine Or.inr (Or.inl ⟨step.trans h.1, ?_⟩)
            intro k hk t ht
            rcases List.mem_cons.mp hk with rfl | hk
            · rw [hjt] at ht
              cases ht
              rw [hm]
              intro e
              exact hnm (Option.some.inj e).symm
            · exact h.2 k hk t ht
          · obtain ⟨k, hk, a, b, h1, h2, h3, h4⟩ := h
            exact Or.inr (Or.inr ⟨k, List.mem_cons_of_mem j hk, a, b, h1, h2, h3, step.trans h4⟩)

theorem inner_range_bound (i len : Nat) :
    ∀ j ∈ List.range' (i + 1) (len - (i + 1)), i < j ∧ j < len := by
  intro j hj
  rw [List.mem_range'_1] at hj
  omega

theorem sortTopicsInner_perm {Topic : Type} (topicName : Topic → Option String)
    (sn : Option String) (i : Nat) (topics : List Topic) :
    (∃ r, sortTopicsInner topicName sn i (List.range' (i + 1) (topics.length - (i + 1))) topics
        = .ok r ∧ r.Perm topics)
      ∨ (sortTopicsInner topicName sn i (List.range' (i + 1) (topics.length - (i + 1))) topics
          = .error .nilDereference
        ∧ (sn = none ∨ ∃ t ∈ topics, topicName t = none)) := by
  rcases sortTopicsInner_cases topicName sn i topics _ (inner_range_bound i topics.length)
    with h | h | ⟨j, hj, a, b, h1, h2, _, h4⟩
  · exact Or.inr h
  · exact Or.inl ⟨topics, h.1, List.Perm.refl _⟩
  · exact Or.inl ⟨_, h4, swap_perm a b topics i j (inner_range_bound i topics.length j hj).1 h1 h2⟩

theorem sortTopicsOuter_perm {Topic Spec : Type} (topicName : Topic → Option String)
    (specName : Spec → Option String) : ∀ (specs : List Spec) (i : Nat) (topics : List Topic),
    (∃ r, sortTopicsOuter topicName specName i specs topics = .ok r ∧ r.Perm topics)
      ∨ (sortTopicsOuter topicName specName i specs topics = .error .nilDereference
        ∧ ((∃ t ∈ topics, topicName t = none) ∨ ∃ s ∈ specs, specName s = none))
  | [], i, topics => Or.inl ⟨topics, rfl, List.Perm.refl _⟩
  | spec :: rest, i, topics => by
    rcases sortTopicsInner_perm topicName (specName spec) i topics with ⟨r1, h1, p1⟩ | ⟨h1, h2⟩
    · have step : sortTopicsOuter topicName specName i (spec :: rest) topics
          = sortTopicsOuter topicName specName (i + 1) rest r1 := by
        simp [sortTopicsOuter, h1]
      rcases sortTopicsOuter_perm topicName specName rest (i + 1) r1 with ⟨r, h3, p3⟩ | ⟨h3, h4⟩
      · exact Or.inl ⟨r, step.trans h3, p3.trans p1⟩
      · refine Or.inr ⟨step.trans h3, ?_⟩
        rcases h4 with ⟨t, ht, hn⟩ | ⟨s, hs, hn⟩
        · exact Or.inl ⟨t, p1.mem_iff.mp ht, hn⟩
        · exact Or.inr ⟨s, List.mem_cons_of_mem spec hs, hn⟩
    · refine Or.inr ⟨by simp [sortTopicsOuter, h1], ?_⟩
      rcases h2 with h2 | h2
      · exact Or.inr ⟨spec, List.mem_cons_self spec rest, h2⟩
      · exact Or.inl h2

/-! ## Claims on `sortKafkaTopics` -/

/-- C23: for all lists of topics and of specs, whatever their lengths,
`sortKafkaTopics` raises no index out of range; it returns with the topic list
a permutation of the original one, of the same length, unless it dereferences a
nil pointer, which happens only when a topic or a spec of the input is nil. -/
theorem sortKafkaTopics_perm {Topic Spec : Type} (topicName : Topic → Option String)
    (specName : Spec → Option String) (topics : List Topic) (specs : List Spec) :
    sortKafkaTopics topicName specName topics specs ≠ .error .indexOutOfRange
    ∧ ((∃ sorted, sortKafkaTopics topicName specName topics specs = .ok sorted
          ∧ sorted.Perm topics ∧ sorted.length = topics.length)
      ∨ (sortKafkaTopics topicName specName topics specs = .error .nilDereference
        ∧ ((∃ t ∈ topics, topicName t = none) ∨ ∃ s ∈ specs, specName s = none))) := by
  rcases sortTopicsOuter_perm topicName specName specs 0 topics with ⟨r, h, p⟩ | ⟨h, hn⟩
  · refine ⟨?_, Or.inl ⟨r, h, p, p.length_eq⟩⟩
    unfold sortKafkaTopics
    rw [h]
    intro e
    cases e
  · refine ⟨?_, Or.inr ⟨h, hn⟩⟩
    unfold sortKafkaTopics
    rw [h]
    intro e
    cases e

theorem sortTopicsInner_head {Topic : Type} (topicName : Topic → Option String)
    (n : String) (i : Nat) (topics : List Topic) (hT : ∀ t ∈ topics, topicName t ≠ none)
    (hocc : ∃ t ∈ topics.drop i, topicName t = some n) :
    ∃ r x, sortTopicsInner topicName (some n) i
        (List.range' (i + 1) (topics.length - (i + 1))) topics = .ok r
      ∧ r.Perm topics ∧ r.take i = topics.take i ∧ r[i]? = some x ∧ topicName x = some n := by
  rcases sortTopicsInner_cases topicName (some n) i topics _ (inner_range_bound i topics.length)
    with h | h | ⟨j, hj, a, b, h1, h2, h3, h4⟩
  · rcases h.2 with h2 | ⟨t, ht, hn⟩
    · cases h2
    · exact absurd hn (hT t ht)
  · obtain ⟨t, ht, hn⟩ := hocc
    obtain ⟨k, hk⟩ := List.mem_iff_getElem?.mp ht
    rw [List.getElem?_drop] at hk
    have hlen : i + k < topics.length := by
      rcases Nat.lt_or_ge (i + k) topics.length with h1 | h1
      · exact h1
      · rw [List.getElem?_eq_none h1] at hk; cases hk
    cases k with
    | zero => exact ⟨topics, t, h.1, List.Perm.refl _, rfl, hk, hn⟩
    | succ k =>
      have hmem : i + (k + 1) ∈ List.range' (i + 1) (topics.length - (i + 1)) := by
        rw [List.mem_range'_1]
        omega
      exact absurd hn (h.2 _ hmem t hk)
  · have hij := (inner_range_bound i topics.length j hj).1
    exact ⟨_, b, h4, swap_perm a b topics i j hij h1 h2, swap_take a b topics i j hij,
      swap_at a b a topics i j hij h1, h3⟩

theorem drop_perm_of_take_eq {α : Type} (r l : List α) (i : Nat) (p : r.Perm l)
    (ht : r.take i = l.take i) : (r.drop i).Perm (l.drop i) := by
  have h : (l.take i ++ r.drop i).Perm (l.take i ++ l.drop i) := by
    have e1 : l.take i ++ r.drop i = r := by
      rw [← ht]
      exact List.take_append_drop i r
    rw [e1, List.take_append_drop]
    exact p
  exact (List.perm_append_left_iff _).mp h

theorem drop_of_getElem? {α : Type} (r : List α) (i : Nat) (x : α) (h : r[i]? = some x) :
    r.drop i = x :: r.drop (i + 1) := by
  have hlt : i < r.length := by
    rcases Nat.lt_or_ge i r.length with h1 | h1
    · exact h1
    · rw [List.getElem?_eq_none h1] at h; cases h
  rw [List.drop_eq_getElem_cons hlt]
  rw [List.getElem?_eq_getElem hlt] at h
  rw [Option.some.inj h]

theorem sortTopicsOuter_names {Topic Spec : Type} (topicName : Topic → Option String)
    (specName : Spec → Option String) : ∀ (specs : List Spec) (i : Nat) (topics : List Topic),
    (∀ t ∈ topics, topicName t ≠ none) → (∀ s ∈ specs, specName s ≠ none) →
    (specs.map specName).Nodup →
    (∀ s ∈ specs, ∃ t ∈ topics.drop i, topicName t = specName s) →
    ∃ r, sortTopicsOuter topicName specName i specs topics = .ok r ∧ r.Perm topics
      ∧ r.take i = topics.take i
      ∧ ((r.drop i).take specs.length).map topicName = specs.map specName
  | [], i, topics, _, _, _, _ => ⟨topics, rfl, List.Perm.refl _, rfl, by simp⟩
  | spec :: rest, i, topics, hT, hS, hd, hocc => by
    obtain ⟨n, hn⟩ := Option.ne_none_iff_exists'.mp (hS spec (List.mem_cons_self spec rest))
    have hocc0 : ∃ t ∈ topics.drop i, topicName t = some n := by
      rw [← hn]
      exact hocc spec (List.mem_cons_self spec rest)
    obtain ⟨r1, x, h1, p1, t1, e1, nx⟩ := sortTopicsInner_head topicName n i topics hT hocc0
    have step : sortTopicsOuter topicName specName i (spec :: rest) topics
        = sortTopicsOuter topicName specName (i + 1) rest r1 := by
      simp [sortTopicsOuter, hn, h1]
    have hd2 := List.nodup_cons.mp (by simpa using hd : (specName spec :: rest.map specName).Nodup)
    have hocc1 : ∀ s ∈ rest, ∃ t ∈ r1.drop (i + 1), topicName t = specName s := by
      intro s hs
      obtain ⟨t, ht, hts⟩ := hocc s (List.mem_cons_of_mem spec hs)
      have ht1 : t ∈ r1.drop i := (drop_perm_of_take_eq r1 topics i p1 t1).mem_iff.mpr ht
      rw [drop_of_getElem? r1 i x e1] at ht1
      rcases List.mem_cons.mp ht1 with rfl | ht1
      · exfalso
        apply hd2.1
        rw [hn, ← nx, hts]
        exact List.mem_map_of_mem specName hs
      · exact ⟨t, ht1, hts⟩
    obtain ⟨r, h2, p2, t2, names⟩ := sortTopicsOuter_names topicName specName rest (i + 1) r1
      (fun t ht => hT t (p1.mem_iff.mp ht))
      (fun s hs => hS s (List.mem_cons_of_mem spec hs)) hd2.2 hocc1
    have ei : r[i]? = some x := by
      have := congrArg (fun l => l[i]?) t2
      simp only [List.getElem?_take_of_succ] at this
      rw [this, e1]
    refine ⟨r, step.trans h2, p2.trans p1, ?_, ?_⟩
    · have := congrArg (List.take i) t2
      simp only [List.take_take] at this
      rw [min_eq_left (Nat.le_succ i)] at this
      rw [this, t1]
    · rw [drop_of_getElem? r i x ei]
      simp only [List.length_cons, List.take_succ_cons, List.map_cons]
      rw [names, nx, hn]

/-- C24: when no topic and no spec is nil, the spec names are pairwise distinct
and every spec name occurs among the topic names, `sortKafkaTopics` returns with
the topic at position `i` named as `specs[i]` for every `i` below the number of
specs, so the names of the first topics are the spec names in their order, and
every topic not named by a spec stands at a position from the number of specs
on. -/
theorem sortKafkaTopics_follows_specs {Topic Spec : Type} (topicName : Topic → Option String)
    (specName : Spec → Option String) (topics : List Topic) (specs : List Spec)
    (hT : ∀ t ∈ topics, topicName t ≠ none) (hS : ∀ s ∈ specs, specName s ≠ none)
    (hdistinct : (specs.map specName).Nodup)
    (hocc : ∀ s ∈ specs, specName s ∈ topics.map topicName) :
    ∃ sorted, sortKafkaTopics topicName specName topics specs = .ok sorted
      ∧ (sorted.take specs.length).map topicName = specs.map specName
      ∧ (∀ i (hi : i < specs.length),
          ∃ t, sorted[i]? = some t ∧ topicName t = specName specs[i])
      ∧ (∀ i t, sorted[i]? = some t → topicName t ∉ specs.map specName → specs.length ≤ i) := by
  have hocc0 : ∀ s ∈ specs, ∃ t ∈ topics.drop 0, topicName t = specName s := by
    intro s hs
    obtain ⟨t, ht, e⟩ := List.mem_map.mp (hocc s hs)
    exact ⟨t, by simpa using ht, e⟩
  obtain ⟨r, h, _, _, names⟩ :=
    sortTopicsOuter_names topicName specName specs 0 topics hT hS hdistinct hocc0
  rw [List.drop_zero] at names
  have at_i : ∀ i (hi : i < specs.length),
      ∃ t, r[i]? = some t ∧ topicName t = specName specs[i] := by
    intro i hi
    have e := congrArg (fun l => l[i]?) names
    simp only [List.getElem?_map, List.getElem?_take_of_lt hi, List.getElem?_eq_getElem hi,
      Option.map_some'] at e
    cases hr : r[i]? with
    | none => rw [hr] at e; cases e
    | some t =>
      rw [hr] at e
      exact ⟨t, rfl, Option.some.inj e⟩
  refine ⟨r, h, names, at_i, ?_⟩
  intro i t ht hnot
  by_contra hlt
  obtain ⟨t2, ht2, e2⟩ := at_i i (by omega)
  rw [ht] at ht2
  cases ht2
  apply hnot
  rw [e2]
  exact List.mem_map_of_mem specName (List.getElem_mem _)

theorem sortKafkaTopics_follows_specs_witness :
    sortKafkaTopics sampleTopicName sampleTopicName
        ["logs", "events", "audit", "metrics"] ["metrics", "events"]
      = .ok ["metrics", "events", "audit", "logs"]
    ∧ ∃ sorted, sortKafkaTopics sampleTopicName sampleTopicName
          ["logs", "events", "audit", "metrics"] ["metrics", "events"] = .ok sorted
      ∧ (sorted.take 2).map sampleTopicName = [some "metrics", some "events"] :=
  ⟨rfl,
    (sortKafkaTopics_follows_specs sampleTopicName sampleTopicName
      ["logs", "events", "audit", "metrics"] ["metrics", "events"]
      (by simp [sampleTopicName]) (by simp [sampleTopicName]) (by decide) (by decide)).imp
      (fun _ h => ⟨h.1, h.2.1⟩)⟩

/-! ## Facts on the order of `sort.Strings` -/

theorem charsLe_total : ∀ (a b : List Char), charsLe a b = true ∨ charsLe b a = true
  | [], _ => Or.inl rfl
  | _ :: _, [] => Or.inr rfl
  | a :: as, b :: bs => by
    rcases Nat.lt_trichotomy a.toNat b.toNat with h | h | h
    · left
      simp [charsLe, h]
    · rcases charsLe_total as bs with ih | ih
      · left
        simp [charsLe, h, ih]
      · right
        simp [charsLe, h, ih]
    · right
      simp [charsLe, h]

theorem charsLe_trans : ∀ (a b c : List Char), charsLe a b = true → charsLe b c = true →
    charsLe a c = true
  | [], _, _, _, _ => rfl
  | _ :: _, [], _, h, _ => by simp [charsLe] at h
  | _ :: _, _ :: _, [], _, h => by simp [charsLe] at h
  | a :: as, b :: bs, c :: cs, h1, h2 => by
    simp only [charsLe] at h1 h2 ⊢
    by_cases hab : a.toNat < b.toNat
    · by_cases hbc : b.toNat < c.toNat
      · rw [if_pos (by omega)]
      · rw [if_neg hbc] at h2
        by_cases hcb : c.toNat < b.toNat
        · rw [if_pos hcb] at h2
          cases h2
        · rw [if_pos (by omega)]
    · rw [if_neg hab] at h1
      by_cases hba : b.toNat < a.toNat
      · rw [if_pos hba] at h1
        cases h1
      · rw [if_neg hba] at h1
        by_cases hbc : b.toNat < c.toNat
        · rw [if_pos (by omega)]
        · rw [if_neg hbc] at h2
          by_cases hcb : c.toNat < b.toNat
          · rw [if_pos hcb] at h2
            cases h2
          · rw [if_neg hcb] at h2
            rw [if_neg (by omega), if_neg (by omega)]
            exact charsLe_trans as bs cs h1 h2

theorem charsLe_antisymm : ∀ (a b : List Char), charsLe a b = true → charsLe b a = true →
    a = b
  | [], [], _, _ => rfl
  | [], _ :: _, _, h => by simp [charsLe] at h
  | _ :: _, [], h, _ => by simp [charsLe] at h
  | a :: as, b :: bs, h1, h2 => by
    simp only [charsLe] at h1 h2
    by_cases hab : a.toNat < b.toNat
    · rw [if_neg (by omega), if_pos hab] at h2
      cases h2
    · rw [if_neg hab] at h1 h2
      by_cases hba : b.toNat < a.toNat
      · rw [if_pos hba] at h1
        cases h1
      · rw [if_neg hba] at h1 h2
        have e : a = b := by
          apply Char.ext
          apply UInt32.ext
          have : a.toNat = b.toNat := by omega
          exact this
        rw [e, charsLe_antisymm as bs h1 h2]

theorem sortStrings_sorted (l : List String) :
    (sortStrings l).Pairwise (fun a b => charsLe a.data b.data = true) := by
  haveI : IsTotal String (fun a b => charsLe a.data b.data = true) :=
    ⟨fun a b => charsLe_total a.data b.data⟩
  haveI : IsTrans String (fun a b => charsLe a.data b.data = true) :=
    ⟨fun a b c => charsLe_trans a.data b.data c.data⟩
  exact List.sorted_insertionSort (fun a b => charsLe a.data b.data = true) l

theorem changed_paths_nodup (hasChange : String → Bool) (suffix : String)
    (visit : List (String × String)) (hvisit : visit.Perm mdbKafkaUpdateFieldsMap) :
    ((visit.filter (fun e => hasChange e.1)).map
      (fun e => stringsReplace e.2 "{version}" suffix)).Nodup := by
  have hn : visit.Nodup := by
    rw [hvisit.nodup_iff]
    exact List.Nodup.of_map Prod.snd table_templates_nodup
  refine List.Nodup.map_on ?_ (hn.filter _)
  intro e1 h1 e2 h2 h
  exact path_injective_on_table suffix e1 e2 (hvisit.mem_iff.mp (List.mem_of_mem_filter h1))
    (hvisit.mem_iff.mp (List.mem_of_mem_filter h2)) h

/-! ## Claims on the order of the cluster update mask -/

/-- C25: whenever `kafkaClusterUpdateRequestWithMask` returns a request, every
path of its mask is strictly below every later one in the order of
`sort.Strings` (each is at most the later one and the later one is not at most
it), and no path occurs twice, whatever the visit order of
`mdbKafkaUpdateFieldsMap` and the configured version. -/
theorem kafkaClusterUpdateRequestWithMask_ascending {Req : Type} (request : Except String Req)
    (hasChange : String → Bool) (configVersion : String) (visit : List (String × String))
    (req : Req) (mask : List String) (hvisit : visit.Perm mdbKafkaUpdateFieldsMap)
    (h : kafkaClusterUpdateRequestWithMask request hasChange configVersion visit
      = .ok (some (req, mask))) :
    mask.Pairwise (fun a b => charsLe a.data b.data = true ∧ charsLe b.data a.data = false)
    ∧ mask.Nodup := by
  have hm := cluster_mask_of_result request hasChange configVersion visit req mask h
  have hnd : mask.Nodup := by
    rw [hm, (sortStrings_perm _).nodup_iff]
    exact changed_paths_nodup hasChange _ visit hvisit
  have hs : mask.Pairwise (fun a b => charsLe a.data b.data = true) := by
    rw [hm]
    exact sortStrings_sorted _
  refine ⟨?_, hnd⟩
  refine (hs.and hnd).imp ?_
  intro a b hab
  refine ⟨hab.1, ?_⟩
  cases hba : charsLe b.data a.data with
  | false => rfl
  | true =>
    exfalso
    apply hab.2
    have := charsLe_antisymm a.data b.data hab.1 hba
    cases a
    cases b
    simp only at this
    rw [this]

theorem kafkaClusterUpdateRequestWithMask_ascending_witness :
    mdbKafkaUpdateFieldsMap.reverse.Perm mdbKafkaUpdateFieldsMap ∧
    kafkaClusterUpdateRequestWithMask (Except.ok ())
        (fun f => f == "name" || f == "config.0.version" || f == "description") "3.5"
        mdbKafkaUpdateFieldsMap.reverse
      = .ok (some ((), ["config_spec.version", "description", "name"])) ∧
    ["config_spec.version", "description", "name"].Pairwise
      (fun a b => charsLe a.data b.data = true ∧ charsLe b.data a.data = false) :=
  ⟨List.reverse_perm _, rfl,
    (kafkaClusterUpdateRequestWithMask_ascending (Except.ok ())
      (fun f => f == "name" || f == "config.0.version" || f == "description") "3.5"
      mdbKafkaUpdateFieldsMap.reverse () _ (List.reverse_perm _) rfl).1⟩

end Yandex
